import Mathlib

/-!
# justOneOctaveUp.lv2 — the signal-processing core of `src/justOneOctaveUp.c`

Shallow embedding of the plugin's ring buffer, of the `DB_CO` gain macro and of `run`.

Modelling conventions

* `float` is read as an arbitrary linearly ordered field `α` (exact arithmetic: rounding,
  infinities and NaN are not modelled).  Concrete evaluations are done over `ℚ`, the gain
  law over `ℝ`.
* `uint32_t` values are natural numbers; every C operation on them is reduced modulo `2 ^ 32`
  explicitly (`u32add`, `u32sub`).
* Memory blocks (`inputBuffer`, the `input` port) are functions `Nat → α` from the element
  index to the stored value; the `output` port is returned as the list of the values written
  at positions `0 .. n_samples - 1`.
* `powf` comes from libm and is a parameter of `DB_CO` and `run`.
* Loops whose trip count is not fixed by their header (`while` in the replay, the processing
  loop whose body advances `pos`) take fuel and return `none` when it runs out.
* `Octaver.pushed` is a ghost field: the history of all samples handed to `pushBuffer`,
  oldest first.  The code never reads it.
* `processLoopTrace` is the processing loop with a ghost trace (`pos`, state and `isSilence`
  at the entry of every iteration), `runReads` the list of indices at which `run` reads
  `input`.  Both follow the same control flow as `processLoop`.
-/

namespace JustOneOctaveUp

/-- The C enum `PluginStatus`. -/
inductive PluginStatus where
  | FIRST_RUN
  | RISING_EDGE
  | FALLING_EDGE
  deriving DecidableEq, Repr

/-- The C struct `Octaver` (the port pointers are arguments of `run`), plus the ghost
history `pushed`. -/
structure Octaver (α : Type) where
  direction : α
  inputBuffer : Nat → α
  inputBufferStart : Nat
  inputBufferEnd : Nat
  inputBufferMaxSize : Nat
  inputBufferLastEdgeFlip : Nat
  PluginStatus : PluginStatus
  pushed : List α

/-- Addition of two `uint32_t`. -/
def u32add (a b : Nat) : Nat := (a + b) % 4294967296

/-- Subtraction of two `uint32_t` (both below `2 ^ 32`). -/
def u32sub (a b : Nat) : Nat := (a + 4294967296 - b) % 4294967296

section RingBuffer

variable {α : Type}

/-- The function `getBufferFilledSize`: `((end + maxSize) - start) % maxSize` in `uint32_t` arithmetic. -/
def getBufferFilledSize (octaver : Octaver α) : Nat :=
  u32sub (u32add octaver.inputBufferEnd octaver.inputBufferMaxSize) octaver.inputBufferStart
    % octaver.inputBufferMaxSize

/-- The function `raiseIndex`: `(index + 1) % maxSize`. -/
def raiseIndex (index : Nat) (octaver : Octaver α) : Nat :=
  u32add index 1 % octaver.inputBufferMaxSize

/-- The function `decreaseIndex`: `(index + maxSize - 1) % maxSize`. -/
def decreaseIndex (index : Nat) (octaver : Octaver α) : Nat :=
  u32sub (u32add index octaver.inputBufferMaxSize) 1 % octaver.inputBufferMaxSize

/-- The function `pushBuffer`: store the sample at `inputBufferEnd`, then raise `inputBufferEnd`. -/
def pushBuffer (octaver : Octaver α) (sample : α) : Octaver α :=
  { octaver with
    inputBuffer := fun i => if i = octaver.inputBufferEnd then sample else octaver.inputBuffer i
    inputBufferEnd := raiseIndex octaver.inputBufferEnd octaver
    pushed := octaver.pushed ++ [sample] }

/-- The function `popBuffer`: read the sample at `inputBufferStart`, then raise `inputBufferStart`. -/
def popBuffer (octaver : Octaver α) : α × Octaver α :=
  (octaver.inputBuffer octaver.inputBufferStart,
   { octaver with inputBufferStart := raiseIndex octaver.inputBufferStart octaver })

/-- The assignments of the `if (isSilence)` block at the end of `run`. -/
def silenceReset (octaver : Octaver α) : Octaver α :=
  { octaver with
    PluginStatus := PluginStatus.FIRST_RUN
    inputBufferStart := 0
    inputBufferEnd := 0
    inputBufferLastEdgeFlip := 0 }

end RingBuffer

section Core

variable {α : Type} [LinearOrderedField α]

/-- The function `instantiate`: the zero-initialised instance with capacity 8192. -/
def instantiate : Octaver α :=
  { direction := 1
    inputBuffer := fun _ => 0
    inputBufferStart := 0
    inputBufferEnd := 0
    inputBufferMaxSize := 8192
    inputBufferLastEdgeFlip := 0
    PluginStatus := PluginStatus.FIRST_RUN
    pushed := [] }

/-- The macro `DB_CO(g)`: `(g) > -90.0f ? powf(10.0f, (g)*0.05f) : 0.0f`. -/
def DB_CO (powf : α → α → α) (g : α) : α :=
  if g > -90 then powf 10 (g * 0.05) else 0

/-- The `while (inputBufferLastEdgeFlip != bufferEnd)` loop of `run`: push the inverted sample
at `inputBufferLastEdgeFlip`, then raise `inputBufferLastEdgeFlip`. -/
def replayLoop (bufferEnd : Nat) : Nat → Octaver α → Option (Octaver α)
  | 0, octaver =>
    if octaver.inputBufferLastEdgeFlip ≠ bufferEnd then none else some octaver
  | fuel + 1, octaver =>
    if octaver.inputBufferLastEdgeFlip ≠ bufferEnd then
      let value := octaver.inputBuffer octaver.inputBufferLastEdgeFlip * -1
      let o1 := pushBuffer octaver value
      replayLoop bufferEnd fuel
        { o1 with inputBufferLastEdgeFlip := raiseIndex o1.inputBufferLastEdgeFlip o1 }
    else some octaver

/-- The body of the `if` taken on an edge flip: replay the half wave stored since the last
flip, move `inputBufferLastEdgeFlip` to the write position and toggle the status. -/
def edgeFlip (fuel : Nat) (octaver : Octaver α) : Option (Octaver α) :=
  let bufferEnd := octaver.inputBufferEnd
  match replayLoop bufferEnd fuel octaver with
  | none => none
  | some o1 =>
    let o2 := { o1 with inputBufferLastEdgeFlip := o1.inputBufferEnd }
    some { o2 with
      PluginStatus :=
        if o2.PluginStatus = PluginStatus.RISING_EDGE then PluginStatus.FALLING_EDGE
        else PluginStatus.RISING_EDGE }

/-- The condition of the edge-flip `if`, evaluated after `pos++`. -/
def edgeCondition (input : Nat → α) (pos : Nat) (octaver : Octaver α) : Prop :=
  (octaver.PluginStatus = PluginStatus.RISING_EDGE ∧
      (input pos < 0 ∨ input (u32sub pos 1) < 0)) ∨
  (octaver.PluginStatus = PluginStatus.FALLING_EDGE ∧
      (input pos ≥ 0 ∨ input (u32sub pos 1) ≥ 0))

instance (input : Nat → α) (pos : Nat) (octaver : Octaver α) :
    Decidable (edgeCondition input pos octaver) := by
  unfold edgeCondition; infer_instance

/-- One iteration of the first `for` loop of `run`, entered with `pos < n_samples`.  Returns
the state, `isSilence` and `pos` as they are at the end of the body (before the `pos++` of the
loop header). -/
def processIter (fuel : Nat) (input : Nat → α) (coef : α) (pos : Nat) (octaver : Octaver α)
    (isSilence : Nat) : Option (Octaver α × Nat × Nat) :=
  let o1 :=
    if octaver.PluginStatus = PluginStatus.FIRST_RUN then
      { octaver with
        PluginStatus :=
          if input 0 ≥ 0 then PluginStatus.RISING_EDGE else PluginStatus.FALLING_EDGE }
    else octaver
  let value1 := input pos * 0.5 * coef
  let value2 := input pos * 0.5 * coef
  let pos1 := u32add pos 1
  let isSilence1 :=
    if value1 > 0.0001 ∨ value1 < -0.0001 ∨ value2 > 0.0001 ∨ value2 < -0.0001 then 0
    else isSilence
  let o2 := pushBuffer o1
    ((value1 + value2) * (if o1.PluginStatus = PluginStatus.RISING_EDGE then 1 else -1))
  if edgeCondition input pos1 o2 then
    match edgeFlip fuel o2 with
    | none => none
    | some o3 => some (o3, isSilence1, pos1)
  else some (o2, isSilence1, pos1)

/-- The first `for (pos = 0; pos < n_samples; pos++)` loop of `run`.  `rfuel` bounds each
replay, the recursion argument bounds the number of iterations. -/
def processLoop (rfuel : Nat) (input : Nat → α) (coef : α) (n_samples : Nat) :
    Nat → Nat → Octaver α → Nat → Option (Octaver α × Nat)
  | 0, pos, octaver, isSilence =>
    if pos < n_samples then none else some (octaver, isSilence)
  | fuel + 1, pos, octaver, isSilence =>
    if pos < n_samples then
      match processIter rfuel input coef pos octaver isSilence with
      | none => none
      | some (o1, isSilence1, pos1) =>
        processLoop rfuel input coef n_samples fuel (u32add pos1 1) o1 isSilence1
    else some (octaver, isSilence)

/-- One position of the second `for` loop of `run`: the new state and `output[pos]`. -/
def outputStep (input : Nat → α) (pos : Nat) (octaver : Octaver α) : Octaver α × α :=
  if getBufferFilledSize octaver > 0 then
    let r := popBuffer octaver
    (r.2, r.1 * 0.75 + input pos * 0.25)
  else
    (octaver, input pos * 0.25)

/-- The second `for` loop of `run` over the positions `0 .. n - 1`: the state after position
`n - 1` and the values written to `output[0 .. n - 1]`. -/
def outputLoop (input : Nat → α) : Nat → Octaver α → Octaver α × List α
  | 0, octaver => (octaver, [])
  | n + 1, octaver =>
    let r := outputLoop input n octaver
    let s := outputStep input n r.1
    (s.1, r.2 ++ [s.2])

/-- The function `run`: the processing loop, the output loop, then the silence reset.  Returns the new
state and the written output block. -/
def run (powf : α → α → α) (fuel : Nat) (octaver : Octaver α) (gain : α) (input : Nat → α)
    (n_samples : Nat) : Option (Octaver α × List α) :=
  let coef := DB_CO powf gain
  match processLoop fuel input coef n_samples fuel 0 octaver 1 with
  | none => none
  | some (o1, isSilence) =>
    let r := outputLoop input n_samples o1
    if isSilence ≠ 0 then some (silenceReset r.1, r.2) else some (r.1, r.2)

end Core

/-! ## Specification vocabulary -/

section Vocabulary

variable {α : Type}

/-- Well-formed ring-buffer indices: the capacity is 8192 and `inputBufferStart`,
`inputBufferEnd` and `inputBufferLastEdgeFlip` are valid indices into `inputBuffer`. -/
def Inv (o : Octaver α) : Prop :=
  o.inputBufferMaxSize = 8192 ∧ o.inputBufferStart < 8192 ∧ o.inputBufferEnd < 8192 ∧
    o.inputBufferLastEdgeFlip < 8192

/-- The post-reset state of the silence gate: status `FIRST_RUN` and all three indices 0. -/
def IsReset (o : Octaver α) : Prop :=
  o.PluginStatus = PluginStatus.FIRST_RUN ∧ o.inputBufferStart = 0 ∧ o.inputBufferEnd = 0 ∧
    o.inputBufferLastEdgeFlip = 0

/-- Scenario driver: `pushBuffer` called once for each sample of the list, in order. -/
def pushAll (o : Octaver α) (samples : List α) : Octaver α :=
  samples.foldl pushBuffer o

/-- Scenario driver: `popBuffer` called `k` times; the returned samples in call order and the
final state. -/
def popMany : Nat → Octaver α → List α × Octaver α
  | 0, o => ([], o)
  | k + 1, o =>
    let r := popBuffer o
    let rest := popMany k r.2
    (r.1 :: rest.1, rest.2)

end Vocabulary

section Scenarios

variable {α : Type} [LinearOrderedField α]

/-- States at block boundaries: `instantiate`, followed by any number of returning `run`
calls with arbitrary gain, input block and block length. -/
inductive Reachable (powf : α → α → α) : Octaver α → Prop where
  | init : Reachable powf instantiate
  | step {o o1 : Octaver α} {out : List α} (fuel : Nat) (gain : α) (input : Nat → α)
      (n_samples : Nat) :
      Reachable powf o → run powf fuel o gain input n_samples = some (o1, out) →
      Reachable powf o1

/-- Scenario driver: the host feeds the signal `x` to `run` in consecutive blocks of the
given lengths; `off` is the index in `x` of the first sample of the next block. -/
def runBlocks (powf : α → α → α) (fuel : Nat) (gain : α) (x : Nat → α) :
    List Nat → Nat → Octaver α → Option (Octaver α)
  | [], _, o => some o
  | n :: ns, off, o =>
    match run powf fuel o gain (fun i => x (off + i)) n with
    | none => none
    | some r => runBlocks powf fuel gain x ns (off + n) r.1

/-- Number of sign changes of a sample stream: the adjacent pairs of which one sample is
strictly negative and the other strictly positive. -/
def signChanges : List α → Nat
  | a :: b :: rest =>
    (if (a < 0 ∧ 0 < b) ∨ (0 < a ∧ b < 0) then 1 else 0) + signChanges (b :: rest)
  | _ => 0

/-- State of the doubling while a signal with half waves of `h` consulted samples is
processed, after the `r`-th consulted sample (counted from 0) of half wave `q`: the status
follows the parity of `q`; the samples stored since the last flip (`r + 1` in the first half
wave, `r` later) are all positive; the push history ends in a positive sample and has `2 q`
sign changes. -/
def HalfWaveState (q r : Nat) (o : Octaver α) : Prop :=
  Inv o ∧
  o.PluginStatus
    = (if q % 2 = 0 then PluginStatus.RISING_EDGE else PluginStatus.FALLING_EDGE) ∧
  (o.inputBufferEnd + 8192 - o.inputBufferLastEdgeFlip) % 8192
    = (if q = 0 then r + 1 else r) ∧
  (∀ i, i < (if q = 0 then r + 1 else r) →
    0 < o.inputBuffer ((o.inputBufferLastEdgeFlip + i) % 8192)) ∧
  (∃ l a, o.pushed = l ++ [a] ∧ 0 < a) ∧
  signChanges o.pushed = 2 * q

/-- State of the doubling after `J` iterations of the processing loop on a signal with half
waves of `h` consulted samples: the fresh state for `J = 0`, otherwise the state after the
`r`-th consulted sample of half wave `q`, where `J = q * h + r + 1`. -/
def DoublingState (h J : Nat) (o : Octaver α) : Prop :=
  (J = 0 ∧ o.PluginStatus = PluginStatus.FIRST_RUN ∧ Inv o ∧
      o.inputBufferLastEdgeFlip = o.inputBufferEnd ∧ o.pushed = []) ∨
  (∃ q r, r < h ∧ J = q * h + r + 1 ∧ HalfWaveState q r o)

/-- Test signal: `1` in the even and `-1` in the odd half periods of `H` samples. -/
def squareWave (H : Nat) (t : Nat) : ℚ :=
  if (t / H) % 2 = 0 then 1 else -1

end Scenarios

/-! ## Instrumentation of the processing loop -/

section Instrumentation

variable {α : Type} [LinearOrderedField α]

/-- The `if (PluginStatus == FIRST_RUN)` statement at the top of the loop body of `run`: the
state whose status is in force for the push of the iteration. -/
def firstRunStep (input : Nat → α) (octaver : Octaver α) : Octaver α :=
  if octaver.PluginStatus = PluginStatus.FIRST_RUN then
    { octaver with
      PluginStatus :=
        if input 0 ≥ 0 then PluginStatus.RISING_EDGE else PluginStatus.FALLING_EDGE }
  else octaver

/-- The argument of the `pushBuffer` call of the loop body of `run` for the sample
`input[pos]`, in the state left by the `FIRST_RUN` statement:
`(value1 + value2) * (PluginStatus == RISING_EDGE ? 1.0f : -1.0f)`. -/
def pushedFromInput (input : Nat → α) (coef : α) (pos : Nat) (octaver : Octaver α) : α :=
  (input pos * 0.5 * coef + input pos * 0.5 * coef) *
    (if octaver.PluginStatus = PluginStatus.RISING_EDGE then 1 else -1)

/-- Ghost trace of the first `for` loop of `run`: the same loop as `processLoop`, returning
for every iteration executed the triple of `pos`, state and `isSilence` at its entry. -/
def processLoopTrace (rfuel : Nat) (input : Nat → α) (coef : α) (n_samples : Nat) :
    Nat → Nat → Octaver α → Nat → Option (List (Nat × Octaver α × Nat))
  | 0, pos, _, _ =>
    if pos < n_samples then none else some []
  | fuel + 1, pos, octaver, isSilence =>
    if pos < n_samples then
      match processIter rfuel input coef pos octaver isSilence with
      | none => none
      | some (o1, isSilence1, pos1) =>
        match processLoopTrace rfuel input coef n_samples fuel (u32add pos1 1) o1 isSilence1 with
        | none => none
        | some trace => some ((pos, octaver, isSilence) :: trace)
    else some []

/-- Indices of `input` read by the edge-flip condition, in evaluation order with the
short-circuit rules of `&&` and `||`; `pos` is the value after `pos++`. -/
def edgeTestReads (input : Nat → α) (pos : Nat) (status : PluginStatus) : List Nat :=
  if status = PluginStatus.RISING_EDGE then
    (if input pos < 0 then [pos] else [pos, u32sub pos 1])
  else if status = PluginStatus.FALLING_EDGE then
    (if input pos ≥ 0 then [pos] else [pos, u32sub pos 1])
  else []

/-- Indices of `input` read by one iteration of the first `for` loop of `run` entered with
`pos`: `input[0]` in the `FIRST_RUN` statement, `input[pos]` for `value1` and `value2`, then
the reads of the edge-flip condition after `pos++`. -/
def processIterReads (input : Nat → α) (pos : Nat) (octaver : Octaver α) : List Nat :=
  (if octaver.PluginStatus = PluginStatus.FIRST_RUN then [0] else []) ++ [pos, pos] ++
    edgeTestReads input (u32add pos 1) (firstRunStep input octaver).PluginStatus

/-- Indices of `input` read by `run`: those of every iteration of the processing loop,
followed by `input[pos]` for every position of the output loop. -/
def runReads (powf : α → α → α) (fuel : Nat) (octaver : Octaver α) (gain : α)
    (input : Nat → α) (n_samples : Nat) : Option (List Nat) :=
  match processLoopTrace fuel input (DB_CO powf gain) n_samples fuel 0 octaver 1 with
  | none => none
  | some trace =>
    some ((trace.map (fun e => processIterReads input e.1 e.2.1)).flatten ++ List.range n_samples)

/-- The edge-flip condition as the specification words it: the sign test of
`edgeCondition`, applied to the samples scaled by `0.5 * coef`. -/
def scaledEdgeCondition (input : Nat → α) (coef : α) (pos : Nat) (octaver : Octaver α) : Prop :=
  (octaver.PluginStatus = PluginStatus.RISING_EDGE ∧
      (input pos * 0.5 * coef < 0 ∨ input (u32sub pos 1) * 0.5 * coef < 0)) ∨
  (octaver.PluginStatus = PluginStatus.FALLING_EDGE ∧
      (input pos * 0.5 * coef ≥ 0 ∨ input (u32sub pos 1) * 0.5 * coef ≥ 0))

end Instrumentation

/-! ## Ring-buffer arithmetic -/

section IndexLemmas

variable {α : Type}

theorem getBufferFilledSize_eq (o : Octaver α) (hmax : o.inputBufferMaxSize = 8192)
    (hs : o.inputBufferStart < 4294967296) :
    getBufferFilledSize o
      = (o.inputBufferEnd % 8192 + 8192 - o.inputBufferStart % 8192) % 8192 := by
  simp only [getBufferFilledSize, u32add, u32sub, hmax]
  omega

theorem raiseIndex_eq (i : Nat) (o : Octaver α) (hmax : o.inputBufferMaxSize = 8192) :
    raiseIndex i o = (i + 1) % 8192 := by
  simp only [raiseIndex, u32add, hmax]
  omega

theorem u32_mod_capacity (x : Nat) : x % 4294967296 % 8192 = x % 8192 := by
  omega

theorem raiseIndex_lt (i : Nat) (o : Octaver α) (hmax : o.inputBufferMaxSize = 8192) :
    raiseIndex i o < 8192 := by
  simp only [raiseIndex, hmax]
  exact Nat.mod_lt _ (by norm_num)

theorem pushBuffer_inv (o : Octaver α) (x : α) (h : Inv o) : Inv (pushBuffer o x) := by
  obtain ⟨hmax, hs, _, hl⟩ := h
  exact ⟨hmax, hs, raiseIndex_lt _ o hmax, hl⟩

theorem popBuffer_inv (o : Octaver α) (h : Inv o) : Inv (popBuffer o).2 := by
  obtain ⟨hmax, _, he, hl⟩ := h
  exact ⟨hmax, raiseIndex_lt _ o hmax, he, hl⟩

theorem silenceReset_inv (o : Octaver α) (h : Inv o) : Inv (silenceReset o) := by
  obtain ⟨hmax, _, _, _⟩ := h
  exact ⟨hmax, by simp [silenceReset], by simp [silenceReset], by simp [silenceReset]⟩

/-- Effect of a run of pushes on a buffer of capacity 8192: the write index advances by the
number of pushes, each of the last 8192 pushed samples sits at its slot, and slots that were
not written keep their content. -/
theorem pushAll_spec (samples : List α) :
    ∀ o : Octaver α, o.inputBufferMaxSize = 8192 → o.inputBufferEnd < 8192 →
      (pushAll o samples).inputBufferMaxSize = 8192 ∧
      (pushAll o samples).inputBufferStart = o.inputBufferStart ∧
      (pushAll o samples).inputBufferEnd = (o.inputBufferEnd + samples.length) % 8192 ∧
      (∀ j, j < samples.length → samples.length ≤ j + 8192 →
        some ((pushAll o samples).inputBuffer ((o.inputBufferEnd + j) % 8192)) = samples[j]?) ∧
      (∀ i, (∀ j, j < samples.length → i ≠ (o.inputBufferEnd + j) % 8192) →
        (pushAll o samples).inputBuffer i = o.inputBuffer i) := by
  induction samples with
  | nil =>
    intro o hmax he
    refine ⟨hmax, rfl, ?_, ?_, ?_⟩
    · simp only [pushAll, List.foldl_nil, List.length_nil]; omega
    · intro j hj; simp at hj
    · intro i _; rfl
  | cons x xs ih =>
    intro o hmax he
    have hend : (pushBuffer o x).inputBufferEnd = (o.inputBufferEnd + 1) % 8192 :=
      raiseIndex_eq _ o hmax
    obtain ⟨h1, h2, h3, h4, h5⟩ := ih (pushBuffer o x) hmax (by rw [hend]; omega)
    have hfold : pushAll o (x :: xs) = pushAll (pushBuffer o x) xs := rfl
    rw [hfold, hend] at *
    simp only [List.length_cons]
    refine ⟨h1, h2, by rw [h3]; omega, ?_, ?_⟩
    · intro j hj hlen
      rcases Nat.eq_zero_or_pos j with h0 | hpos
      · subst h0
        rw [h5 _ (by intro j hj; omega)]
        simp [pushBuffer, Nat.mod_eq_of_lt he]
      · obtain ⟨j, rfl⟩ : ∃ u, j = u + 1 := ⟨j - 1, by omega⟩
        have := h4 j (by omega) (by omega)
        rw [List.getElem?_cons_succ, ← this]
        congr 2
        omega
    · intro i hi
      rw [h5 i (by intro j hj; have := hi (j + 1) (by omega); omega)]
      have := hi 0 (by omega)
      simp only [pushBuffer]
      rw [if_neg (by omega)]

/-- A run of pops returns the stored samples from `inputBufferStart` on, in index order
modulo 8192. -/
theorem popMany_spec (k : Nat) :
    ∀ o : Octaver α, o.inputBufferMaxSize = 8192 → o.inputBufferStart < 8192 →
      (popMany k o).1
        = (List.range k).map (fun i => o.inputBuffer ((o.inputBufferStart + i) % 8192)) := by
  induction k with
  | zero => intro o _ _; rfl
  | succ k ih =>
    intro o hmax hs
    have hstart : (popBuffer o).2.inputBufferStart = (o.inputBufferStart + 1) % 8192 :=
      raiseIndex_eq _ o hmax
    simp only [popMany]
    rw [ih (popBuffer o).2 hmax (by rw [hstart]; omega), hstart, List.range_succ_eq_map,
      List.map_cons, List.map_map]
    congr 1
    · simp [popBuffer, Nat.mod_eq_of_lt hs]
    · apply List.map_congr_left
      intro i _
      simp only [Function.comp, popBuffer]
      congr 1
      omega

end IndexLemmas

/-! ## The output loop -/

section Lemmas

variable {α : Type} [LinearOrderedField α]

theorem outputStep_maxSize (input : Nat → α) (pos : Nat) (o : Octaver α) :
    (outputStep input pos o).1.inputBufferMaxSize = o.inputBufferMaxSize := by
  unfold outputStep
  split <;> rfl

theorem outputStep_end (input : Nat → α) (pos : Nat) (o : Octaver α) :
    (outputStep input pos o).1.inputBufferEnd = o.inputBufferEnd := by
  unfold outputStep
  split <;> rfl

theorem outputStep_start_lt (input : Nat → α) (pos : Nat) (o : Octaver α)
    (hmax : o.inputBufferMaxSize = 8192) (hs : o.inputBufferStart < 4294967296) :
    (outputStep input pos o).1.inputBufferStart < 4294967296 := by
  unfold outputStep
  split
  · have := raiseIndex_lt o.inputBufferStart o hmax
    simp only [popBuffer]
    omega
  · exact hs

theorem outputLoop_maxSize (input : Nat → α) (n : Nat) (o : Octaver α) :
    (outputLoop input n o).1.inputBufferMaxSize = o.inputBufferMaxSize := by
  induction n with
  | zero => rfl
  | succ n ih => simp only [outputLoop, outputStep_maxSize, ih]

theorem outputLoop_end (input : Nat → α) (n : Nat) (o : Octaver α) :
    (outputLoop input n o).1.inputBufferEnd = o.inputBufferEnd := by
  induction n with
  | zero => rfl
  | succ n ih => simp only [outputLoop, outputStep_end, ih]

theorem outputLoop_start_lt (input : Nat → α) (n : Nat) (o : Octaver α)
    (hmax : o.inputBufferMaxSize = 8192) (hs : o.inputBufferStart < 4294967296) :
    (outputLoop input n o).1.inputBufferStart < 4294967296 := by
  induction n with
  | zero => exact hs
  | succ n ih =>
    simp only [outputLoop]
    exact outputStep_start_lt input n _ (by rw [outputLoop_maxSize, hmax]) ih

theorem outputLoop_length (input : Nat → α) (n : Nat) (o : Octaver α) :
    (outputLoop input n o).2.length = n := by
  induction n with
  | zero => rfl
  | succ n ih => simp [outputLoop, ih]

/-- The value written at position `pos` is the one `outputStep` computes in the state reached
after the positions before `pos`. -/
theorem outputLoop_getElem? (input : Nat → α) (n pos : Nat) (o : Octaver α) (h : pos < n) :
    (outputLoop input n o).2[pos]?
      = some (outputStep input pos (outputLoop input pos o).1).2 := by
  induction n with
  | zero => omega
  | succ n ih =>
    simp only [outputLoop]
    by_cases hp : pos < n
    · rw [List.getElem?_append_left (by rw [outputLoop_length]; exact hp)]
      exact ih hp
    · have hpn : pos = n := by omega
      subst hpn
      rw [List.getElem?_append_right (by rw [outputLoop_length])]
      simp [outputLoop_length]

/-! ## The replay loop -/

/-- Effect of the replay loop.  `k` is the number of samples between `inputBufferLastEdgeFlip`
and `bufferEnd`; the samples already written since the loop started and the `k` samples still
to be written fit into the buffer together. -/
theorem replayLoop_spec (bufferEnd : Nat) (hb : bufferEnd < 8192) :
    ∀ (k fuel : Nat) (o : Octaver α), o.inputBufferMaxSize = 8192 →
      o.inputBufferLastEdgeFlip < 8192 → o.inputBufferEnd < 8192 →
      (o.inputBufferLastEdgeFlip + k) % 8192 = bufferEnd →
      (o.inputBufferEnd + 8192 - bufferEnd) % 8192 + k < 8192 → k ≤ fuel →
      ∃ o1, replayLoop bufferEnd fuel o = some o1 ∧
        o1.inputBufferMaxSize = 8192 ∧ o1.inputBufferStart = o.inputBufferStart ∧
        o1.PluginStatus = o.PluginStatus ∧ o1.direction = o.direction ∧
        o1.inputBufferEnd = (o.inputBufferEnd + k) % 8192 ∧
        o1.inputBufferLastEdgeFlip = bufferEnd ∧
        o1.pushed = o.pushed ++ (List.range k).map
          (fun t => o.inputBuffer ((o.inputBufferLastEdgeFlip + t) % 8192) * -1) ∧
        (∀ t, t < k → o1.inputBuffer ((o.inputBufferEnd + t) % 8192)
          = o.inputBuffer ((o.inputBufferLastEdgeFlip + t) % 8192) * -1) ∧
        (∀ i, (∀ t, t < k → i ≠ (o.inputBufferEnd + t) % 8192) →
          o1.inputBuffer i = o.inputBuffer i) := by
  intro k
  induction k with
  | zero =>
    intro fuel o hmax hL hE hk _ _
    have hLb : o.inputBufferLastEdgeFlip = bufferEnd := by omega
    refine ⟨o, ?_, hmax, rfl, rfl, rfl, by omega, hLb, by simp, ?_, ?_⟩
    · cases fuel <;> simp [replayLoop, hLb]
    · intro t ht; omega
    · intro i _; rfl
  | succ k ih =>
    intro fuel o hmax hL hE hk hj hf
    obtain ⟨fuel, rfl⟩ : ∃ f, fuel = f + 1 := ⟨fuel - 1, by omega⟩
    have hne : o.inputBufferLastEdgeFlip ≠ bufferEnd := by omega
    simp only [replayLoop, if_pos hne]
    obtain ⟨o1, hrun, h1, h2, h3, h4, h5, h6, h7, h8, h9⟩ :=
      ih fuel
        { pushBuffer o (o.inputBuffer o.inputBufferLastEdgeFlip * -1) with
          inputBufferLastEdgeFlip := raiseIndex
            (pushBuffer o (o.inputBuffer o.inputBufferLastEdgeFlip * -1)).inputBufferLastEdgeFlip
            (pushBuffer o (o.inputBuffer o.inputBufferLastEdgeFlip * -1)) }
        hmax (by simp only [pushBuffer, raiseIndex, u32add, hmax]; omega)
        (by simp only [pushBuffer, raiseIndex, u32add, hmax]; omega)
        (by simp only [pushBuffer, raiseIndex, u32add, hmax]; omega)
        (by simp only [pushBuffer, raiseIndex, u32add, hmax]; omega)
        (by omega)
    simp only [pushBuffer, raiseIndex, u32add, hmax, u32_mod_capacity]
      at hrun h1 h2 h3 h4 h5 h6 h7 h8 h9 ⊢
    have hread : ∀ t, t < k →
        (if (o.inputBufferLastEdgeFlip + 1 + t) % 8192 = o.inputBufferEnd
          then o.inputBuffer o.inputBufferLastEdgeFlip * -1
          else o.inputBuffer ((o.inputBufferLastEdgeFlip + 1 + t) % 8192))
        = o.inputBuffer ((o.inputBufferLastEdgeFlip + (t + 1)) % 8192) := by
      intro t ht
      have hne2 : (o.inputBufferLastEdgeFlip + 1 + t) % 8192 ≠ o.inputBufferEnd := by omega
      rw [if_neg hne2, show o.inputBufferLastEdgeFlip + 1 + t
        = o.inputBufferLastEdgeFlip + (t + 1) by omega]
    have hmod : ∀ t, ((o.inputBufferLastEdgeFlip + 1) % 8192 + t) % 8192
        = (o.inputBufferLastEdgeFlip + 1 + t) % 8192 := by intro t; omega
    refine ⟨o1, hrun, h1, h2, h3, h4, by rw [h5]; omega, h6, ?_, ?_, ?_⟩
    · rw [h7, List.range_succ_eq_map, List.map_cons, List.map_map, List.append_assoc]
      simp only [List.singleton_append, Nat.add_zero, Nat.mod_eq_of_lt hL]
      congr 2
      apply List.map_congr_left
      intro t ht
      rw [List.mem_range] at ht
      simp only [Function.comp, hmod]
      rw [hread t ht]
    · intro t ht
      rcases Nat.eq_zero_or_pos t with h0 | hpos
      · subst h0
        rw [h9 _ (by intro t ht; omega)]
        simp [Nat.mod_eq_of_lt hE, Nat.mod_eq_of_lt hL]
      · obtain ⟨t, rfl⟩ : ∃ u, t = u + 1 := ⟨t - 1, by omega⟩
        have := h8 t (by omega)
        rw [hmod] at this
        rw [hread t (by omega)] at this
        rw [← this]
        congr 1
        omega
    · intro i hi
      rw [h9 i (by intro t ht; have := hi (t + 1) (by omega); omega)]
      have := hi 0 (by omega)
      rw [if_neg (by omega)]

/-- Effect of the edge-flip branch in a state with well-formed indices: with
`k = (inputBufferEnd - inputBufferLastEdgeFlip) mod 8192` the replay pushes the `k` inverted
samples of the last half wave, then moves the flip index and toggles the status. -/
theorem edgeFlip_spec (fuel : Nat) (o : Octaver α) (hmax : o.inputBufferMaxSize = 8192)
    (hL : o.inputBufferLastEdgeFlip < 8192) (hE : o.inputBufferEnd < 8192)
    (hf : (o.inputBufferEnd + 8192 - o.inputBufferLastEdgeFlip) % 8192 ≤ fuel) :
    ∃ o1, edgeFlip fuel o = some o1 ∧
      o1.inputBufferMaxSize = 8192 ∧ o1.inputBufferStart = o.inputBufferStart ∧
      o1.PluginStatus = (if o.PluginStatus = PluginStatus.RISING_EDGE
        then PluginStatus.FALLING_EDGE else PluginStatus.RISING_EDGE) ∧
      o1.direction = o.direction ∧
      o1.inputBufferEnd = (o.inputBufferEnd
        + (o.inputBufferEnd + 8192 - o.inputBufferLastEdgeFlip) % 8192) % 8192 ∧
      o1.inputBufferLastEdgeFlip = o1.inputBufferEnd ∧
      o1.pushed = o.pushed ++
        (List.range ((o.inputBufferEnd + 8192 - o.inputBufferLastEdgeFlip) % 8192)).map
          (fun t => o.inputBuffer ((o.inputBufferLastEdgeFlip + t) % 8192) * -1) ∧
      (∀ t, t < (o.inputBufferEnd + 8192 - o.inputBufferLastEdgeFlip) % 8192 →
        o1.inputBuffer ((o.inputBufferEnd + t) % 8192)
          = o.inputBuffer ((o.inputBufferLastEdgeFlip + t) % 8192) * -1) ∧
      (∀ i, (∀ t, t < (o.inputBufferEnd + 8192 - o.inputBufferLastEdgeFlip) % 8192 →
          i ≠ (o.inputBufferEnd + t) % 8192) → o1.inputBuffer i = o.inputBuffer i) := by
  obtain ⟨o1, hrun, h1, h2, h3, h4, h5, h6, h7, h8, h9⟩ :=
    replayLoop_spec o.inputBufferEnd hE
      ((o.inputBufferEnd + 8192 - o.inputBufferLastEdgeFlip) % 8192) fuel o hmax hL hE
      (by omega) (by omega) hf
  refine ⟨{ o1 with
      inputBufferLastEdgeFlip := o1.inputBufferEnd
      PluginStatus :=
        if o1.PluginStatus = PluginStatus.RISING_EDGE then PluginStatus.FALLING_EDGE
        else PluginStatus.RISING_EDGE },
    by simp only [edgeFlip, hrun], h1, h2, ?_, h4, h5, rfl, h7, h8, h9⟩
  simp only [h3]

/-! ## Counting sign changes -/

theorem signChanges_snoc (l : List α) (a b : α) :
    signChanges (l ++ [a] ++ [b])
      = signChanges (l ++ [a]) + (if (a < 0 ∧ 0 < b) ∨ (0 < a ∧ b < 0) then 1 else 0) := by
  induction l with
  | nil => simp [signChanges]
  | cons c l ih =>
    cases l with
    | nil => simp [signChanges]
    | cons d l =>
      show (if (c < 0 ∧ 0 < d) ∨ (0 < c ∧ d < 0) then 1 else 0)
          + signChanges ((d :: l) ++ [a] ++ [b])
        = (if (c < 0 ∧ 0 < d) ∨ (0 < c ∧ d < 0) then 1 else 0)
          + signChanges ((d :: l) ++ [a]) + _
      rw [ih, Nat.add_assoc]

/-- Appending negative samples after a negative sample adds no sign change. -/
theorem signChanges_append_neg (ys : List α) :
    ∀ (l : List α) (a : α), a < 0 → (∀ y ∈ ys, y < 0) →
      signChanges (l ++ [a] ++ ys) = signChanges (l ++ [a]) := by
  induction ys with
  | nil => intro l a _ _; simp
  | cons y ys ih =>
    intro l a ha hys
    have hy : y < 0 := hys y (List.mem_cons_self _ _)
    have hrest : ∀ z ∈ ys, z < 0 := fun z hz => hys z (List.mem_cons_of_mem _ hz)
    have e : l ++ [a] ++ y :: ys = (l ++ [a]) ++ [y] ++ ys := by simp
    rw [e, ih (l ++ [a]) y hy hrest, signChanges_snoc]
    rw [if_neg]
    · rfl
    · rintro (⟨_, h⟩ | ⟨h, _⟩)
      · exact absurd h (not_lt.mpr hy.le)
      · exact absurd h (not_lt.mpr ha.le)

/-- A positive sample, then a run of negative samples, then a positive sample: two sign
changes more. -/
theorem signChanges_neg_run_pos (l : List α) (a v p : α) (ys : List α) (ha : 0 < a)
    (hv : v < 0) (hys : ∀ y ∈ ys, y < 0) (hp : 0 < p) :
    signChanges (l ++ [a] ++ [v] ++ ys ++ [p]) = signChanges (l ++ [a]) + 2 := by
  have hav : (a < 0 ∧ 0 < v) ∨ (0 < a ∧ v < 0) := Or.inr ⟨ha, hv⟩
  rcases List.eq_nil_or_concat ys with hnil | ⟨ys1, y, hcat⟩
  · subst hnil
    have hvp : (v < 0 ∧ 0 < p) ∨ (0 < v ∧ p < 0) := Or.inl ⟨hv, hp⟩
    rw [List.append_nil, signChanges_snoc, signChanges_snoc, if_pos hvp, if_pos hav]
  · rw [List.concat_eq_append] at hcat
    subst hcat
    have hy : y < 0 := hys y (by simp)
    have hyp : (y < 0 ∧ 0 < p) ∨ (0 < y ∧ p < 0) := Or.inl ⟨hy, hp⟩
    have e : l ++ [a] ++ [v] ++ (ys1 ++ [y]) ++ [p]
        = (l ++ [a] ++ [v] ++ ys1) ++ [y] ++ [p] := by simp
    have e2 : l ++ [a] ++ [v] ++ ys1 ++ [y] = (l ++ [a]) ++ [v] ++ (ys1 ++ [y]) := by simp
    rw [e, signChanges_snoc, if_pos hyp, e2,
      signChanges_append_neg (ys1 ++ [y]) (l ++ [a]) v hv hys, signChanges_snoc,
      if_pos hav]

/-! ## The processing loop -/

/-- One iteration of the processing loop in a state with well-formed indices: it returns,
keeps the indices well formed, leaves a status other than `FIRST_RUN` and does not move
`inputBufferStart`. -/
theorem processIter_spec (rfuel : Nat) (input : Nat → α) (coef : α) (pos : Nat)
    (o : Octaver α) (s : Nat) (hinv : Inv o) (hf : 8192 ≤ rfuel) :
    ∃ o1, processIter rfuel input coef pos o s
        = some (o1,
            (if input pos * 0.5 * coef > 0.0001 ∨ input pos * 0.5 * coef < -0.0001 ∨
                input pos * 0.5 * coef > 0.0001 ∨ input pos * 0.5 * coef < -0.0001
              then 0 else s),
            u32add pos 1) ∧
      Inv o1 ∧ o1.PluginStatus ≠ PluginStatus.FIRST_RUN ∧
      o1.inputBufferStart = o.inputBufferStart := by
  obtain ⟨hmax, hs, he, hl⟩ := hinv
  unfold processIter
  generalize ho1 : (if o.PluginStatus = PluginStatus.FIRST_RUN then
      { o with PluginStatus :=
          if input 0 ≥ 0 then PluginStatus.RISING_EDGE else PluginStatus.FALLING_EDGE }
    else o) = o1
  have ho1max : o1.inputBufferMaxSize = 8192 := by
    rw [← ho1]; split <;> exact hmax
  have ho1s : o1.inputBufferStart = o.inputBufferStart := by
    rw [← ho1]; split <;> rfl
  have ho1l : o1.inputBufferLastEdgeFlip < 8192 := by
    rw [← ho1]; split <;> exact hl
  have ho1st : o1.PluginStatus ≠ PluginStatus.FIRST_RUN := by
    rw [← ho1]
    split
    · simp only; split <;> simp
    · assumption
  simp only []
  generalize ho2 : pushBuffer o1 ((input pos * 0.5 * coef + input pos * 0.5 * coef) *
    (if o1.PluginStatus = PluginStatus.RISING_EDGE then 1 else -1)) = o2
  have ho2max : o2.inputBufferMaxSize = 8192 := by rw [← ho2]; exact ho1max
  have ho2s : o2.inputBufferStart = o.inputBufferStart := by rw [← ho2]; exact ho1s
  have ho2l : o2.inputBufferLastEdgeFlip < 8192 := by rw [← ho2]; exact ho1l
  have ho2e : o2.inputBufferEnd < 8192 := by
    rw [← ho2]; exact raiseIndex_lt _ o1 ho1max
  have ho2st : o2.PluginStatus ≠ PluginStatus.FIRST_RUN := by rw [← ho2]; exact ho1st
  by_cases hc : edgeCondition input (u32add pos 1) o2
  · obtain ⟨o3, hflip, h1, h2, h3, _, h5, h6, _, _, _⟩ :=
      edgeFlip_spec rfuel o2 ho2max ho2l ho2e (by omega)
    refine ⟨o3, by simp only [if_pos hc, hflip], ⟨h1, by omega, by omega, by omega⟩, ?_,
      by omega⟩
    rw [h3]; split <;> simp
  · exact ⟨o2, by simp only [if_neg hc], ⟨ho2max, by omega, ho2e, ho2l⟩, ho2st, ho2s⟩

/-- The processing loop exits when `pos` has reached `n_samples`. -/
theorem processLoop_done (rfuel : Nat) (input : Nat → α) (coef : α) (n fuel pos : Nat)
    (o : Octaver α) (s : Nat) (h : ¬ pos < n) :
    processLoop rfuel input coef n fuel pos o s = some (o, s) := by
  cases fuel <;> simp only [processLoop, if_neg h]

/-- The processing loop runs one iteration and continues after the `pos++` of its header. -/
theorem processLoop_step (rfuel : Nat) (input : Nat → α) (coef : α) (n fuel pos : Nat)
    (o o1 : Octaver α) (s s1 pos1 : Nat) (h : pos < n)
    (hiter : processIter rfuel input coef pos o s = some (o1, s1, pos1)) :
    processLoop rfuel input coef n (fuel + 1) pos o s
      = processLoop rfuel input coef n fuel (u32add pos1 1) o1 s1 := by
  simp only [processLoop, if_pos h, hiter]

/-- An iteration entered with status `FIRST_RUN` first sets the status from `input[0]`. -/
theorem processIter_first_run (rfuel : Nat) (input : Nat → α) (coef : α) (pos : Nat)
    (o : Octaver α) (s : Nat) (hst : o.PluginStatus = PluginStatus.FIRST_RUN) :
    processIter rfuel input coef pos o s
      = processIter rfuel input coef pos
          { o with PluginStatus :=
              if input 0 ≥ 0 then PluginStatus.RISING_EDGE else PluginStatus.FALLING_EDGE }
          s := by
  have hne : (if input 0 ≥ 0 then PluginStatus.RISING_EDGE else PluginStatus.FALLING_EDGE)
      ≠ PluginStatus.FIRST_RUN := by split <;> simp
  simp only [processIter, if_pos hst, if_neg hne]

/-- An iteration without edge flip pushes the combined value and nothing else. -/
theorem processIter_noflip (rfuel : Nat) (input : Nat → α) (coef : α) (pos : Nat)
    (o : Octaver α) (s : Nat) (hst : o.PluginStatus ≠ PluginStatus.FIRST_RUN)
    (hc : ¬ edgeCondition input (u32add pos 1)
      (pushBuffer o ((input pos * 0.5 * coef + input pos * 0.5 * coef) *
        (if o.PluginStatus = PluginStatus.RISING_EDGE then 1 else -1)))) :
    processIter rfuel input coef pos o s
      = some (pushBuffer o ((input pos * 0.5 * coef + input pos * 0.5 * coef) *
            (if o.PluginStatus = PluginStatus.RISING_EDGE then 1 else -1)),
          (if input pos * 0.5 * coef > 0.0001 ∨ input pos * 0.5 * coef < -0.0001 ∨
              input pos * 0.5 * coef > 0.0001 ∨ input pos * 0.5 * coef < -0.0001
            then 0 else s),
          u32add pos 1) := by
  simp only [processIter, if_neg hst, if_neg hc]

/-- An iteration with edge flip pushes the combined value and then takes the flip branch. -/
theorem processIter_flip (rfuel : Nat) (input : Nat → α) (coef : α) (pos : Nat)
    (o o1 : Octaver α) (s : Nat) (hst : o.PluginStatus ≠ PluginStatus.FIRST_RUN)
    (hc : edgeCondition input (u32add pos 1)
      (pushBuffer o ((input pos * 0.5 * coef + input pos * 0.5 * coef) *
        (if o.PluginStatus = PluginStatus.RISING_EDGE then 1 else -1))))
    (hflip : edgeFlip rfuel
      (pushBuffer o ((input pos * 0.5 * coef + input pos * 0.5 * coef) *
        (if o.PluginStatus = PluginStatus.RISING_EDGE then 1 else -1))) = some o1) :
    processIter rfuel input coef pos o s
      = some (o1,
          (if input pos * 0.5 * coef > 0.0001 ∨ input pos * 0.5 * coef < -0.0001 ∨
              input pos * 0.5 * coef > 0.0001 ∨ input pos * 0.5 * coef < -0.0001
            then 0 else s),
          u32add pos 1) := by
  simp only [processIter, if_neg hst, if_pos hc, hflip]

/-- Whenever the replay loop returns, it has kept the indices well formed. -/
theorem replayLoop_inv (bufferEnd : Nat) :
    ∀ (fuel : Nat) (o o1 : Octaver α), Inv o → replayLoop bufferEnd fuel o = some o1 →
      Inv o1 := by
  intro fuel
  induction fuel with
  | zero =>
    intro o o1 hinv h
    simp only [replayLoop] at h
    split at h
    · simp at h
    · simp only [Option.some.injEq] at h; rw [← h]; exact hinv
  | succ fuel ih =>
    intro o o1 hinv h
    simp only [replayLoop] at h
    split at h
    · refine ih _ o1 ?_ h
      have hp := pushBuffer_inv o (o.inputBuffer o.inputBufferLastEdgeFlip * -1) hinv
      exact ⟨hp.1, hp.2.1, hp.2.2.1, raiseIndex_lt _ _ hp.1⟩
    · simp only [Option.some.injEq] at h; rw [← h]; exact hinv

/-- Whenever the edge-flip branch returns, it has kept the indices well formed. -/
theorem edgeFlip_inv (fuel : Nat) (o o1 : Octaver α) (hinv : Inv o)
    (h : edgeFlip fuel o = some o1) : Inv o1 := by
  simp only [edgeFlip] at h
  split at h
  · simp at h
  · rename_i o2 hr
    have h2 := replayLoop_inv _ fuel o o2 hinv hr
    simp only [Option.some.injEq] at h
    rw [← h]
    exact ⟨h2.1, h2.2.1, h2.2.2.1, h2.2.2.1⟩

/-- Whenever an iteration of the processing loop returns, it has kept the indices well
formed. -/
theorem processIter_inv (rfuel : Nat) (input : Nat → α) (coef : α) (pos : Nat)
    (o o1 : Octaver α) (s s1 pos1 : Nat) (hinv : Inv o)
    (h : processIter rfuel input coef pos o s = some (o1, s1, pos1)) : Inv o1 := by
  unfold processIter at h
  simp only [] at h
  generalize ho2 : (if o.PluginStatus = PluginStatus.FIRST_RUN then
      { o with PluginStatus :=
          if input 0 ≥ 0 then PluginStatus.RISING_EDGE else PluginStatus.FALLING_EDGE }
    else o) = o2 at h
  have hfirst : Inv o2 := by
    rw [← ho2]
    split
    · exact hinv
    · exact hinv
  generalize ho3 : pushBuffer o2 ((input pos * 0.5 * coef + input pos * 0.5 * coef) *
    (if o2.PluginStatus = PluginStatus.RISING_EDGE then 1 else -1)) = o3 at h
  have hpush : Inv o3 := by
    rw [← ho3]; exact pushBuffer_inv _ _ hfirst
  by_cases hc : edgeCondition input (u32add pos 1) o3
  · rw [if_pos hc] at h
    split at h
    · simp at h
    · rename_i o4 hflip
      simp only [Option.some.injEq, Prod.mk.injEq] at h
      rw [← h.1]
      exact edgeFlip_inv _ _ _ hpush hflip
  · rw [if_neg hc] at h
    simp only [Option.some.injEq, Prod.mk.injEq] at h
    rw [← h.1]
    exact hpush

/-- Whenever the processing loop returns, it has kept the indices well formed. -/
theorem processLoop_inv (rfuel : Nat) (input : Nat → α) (coef : α) (n : Nat) :
    ∀ (fuel pos : Nat) (o o1 : Octaver α) (s s1 : Nat), Inv o →
      processLoop rfuel input coef n fuel pos o s = some (o1, s1) → Inv o1 := by
  intro fuel
  induction fuel with
  | zero =>
    intro pos o o1 s s1 hinv h
    simp only [processLoop] at h
    split at h
    · simp at h
    · simp only [Option.some.injEq, Prod.mk.injEq] at h; rw [← h.1]; exact hinv
  | succ fuel ih =>
    intro pos o o1 s s1 hinv h
    simp only [processLoop] at h
    split at h
    · split at h
      · simp at h
      · rename_i o2 s2 pos2 hiter
        exact ih _ o2 o1 s2 s1 (processIter_inv _ _ _ _ _ _ _ _ _ hinv hiter) h
    · simp only [Option.some.injEq, Prod.mk.injEq] at h; rw [← h.1]; exact hinv

theorem outputStep_inv (input : Nat → α) (pos : Nat) (o : Octaver α) (h : Inv o) :
    Inv (outputStep input pos o).1 := by
  unfold outputStep
  split
  · exact popBuffer_inv o h
  · exact h

theorem outputLoop_inv (input : Nat → α) (n : Nat) (o : Octaver α) (h : Inv o) :
    Inv (outputLoop input n o).1 := by
  induction n with
  | zero => exact h
  | succ n ih => exact outputStep_inv input n _ ih

theorem outputStep_flip (input : Nat → α) (pos : Nat) (o : Octaver α) :
    (outputStep input pos o).1.inputBufferLastEdgeFlip = o.inputBufferLastEdgeFlip := by
  unfold outputStep
  split <;> rfl

theorem outputLoop_flip (input : Nat → α) (n : Nat) (o : Octaver α) :
    (outputLoop input n o).1.inputBufferLastEdgeFlip = o.inputBufferLastEdgeFlip := by
  induction n with
  | zero => rfl
  | succ n ih => simp only [outputLoop, outputStep_flip, ih]

theorem outputStep_buffer (input : Nat → α) (pos : Nat) (o : Octaver α) :
    (outputStep input pos o).1.inputBuffer = o.inputBuffer := by
  unfold outputStep
  split <;> rfl

theorem outputLoop_buffer (input : Nat → α) (n : Nat) (o : Octaver α) :
    (outputLoop input n o).1.inputBuffer = o.inputBuffer := by
  induction n with
  | zero => rfl
  | succ n ih => simp only [outputLoop, outputStep_buffer, ih]

theorem outputStep_pushed (input : Nat → α) (pos : Nat) (o : Octaver α) :
    (outputStep input pos o).1.pushed = o.pushed := by
  unfold outputStep
  split <;> rfl

theorem outputLoop_pushed (input : Nat → α) (n : Nat) (o : Octaver α) :
    (outputLoop input n o).1.pushed = o.pushed := by
  induction n with
  | zero => rfl
  | succ n ih => simp only [outputLoop, outputStep_pushed, ih]

theorem outputStep_status (input : Nat → α) (pos : Nat) (o : Octaver α) :
    (outputStep input pos o).1.PluginStatus = o.PluginStatus := by
  unfold outputStep
  split <;> rfl

theorem outputLoop_status (input : Nat → α) (n : Nat) (o : Octaver α) :
    (outputLoop input n o).1.PluginStatus = o.PluginStatus := by
  induction n with
  | zero => rfl
  | succ n ih => simp only [outputLoop, outputStep_status, ih]

/-- The function `run` in terms of its three phases. -/
theorem run_eq_of_processLoop (powf : α → α → α) (fuel : Nat) (o o1 : Octaver α) (gain : α)
    (input : Nat → α) (n s1 : Nat)
    (h : processLoop fuel input (DB_CO powf gain) n fuel 0 o 1 = some (o1, s1)) :
    run powf fuel o gain input n
      = some (if s1 ≠ 0 then silenceReset (outputLoop input n o1).1
          else (outputLoop input n o1).1, (outputLoop input n o1).2) := by
  simp only [run, h]
  split <;> rfl

/-- The function `run` on an empty block performs the silence reset and nothing else. -/
theorem run_empty (powf : α → α → α) (fuel : Nat) (o : Octaver α) (gain : α)
    (input : Nat → α) : run powf fuel o gain input 0 = some (silenceReset o, []) := by
  rw [run_eq_of_processLoop powf fuel o o gain input 0 1
    (processLoop_done _ _ _ _ _ _ _ _ (by omega))]
  rfl

/-- The function `run` on a block of two samples whose only iteration clears `isSilence`. -/
theorem run_two (powf : α → α → α) (fuel : Nat) (o o1 : Octaver α) (gain : α)
    (input : Nat → α)
    (hiter : processIter (fuel + 1) input (DB_CO powf gain) 0 o 1 = some (o1, 0, 1)) :
    run powf (fuel + 1) o gain input 2
      = some ((outputLoop input 2 o1).1, (outputLoop input 2 o1).2) := by
  have hloop : processLoop (fuel + 1) input (DB_CO powf gain) 2 (fuel + 1) 0 o 1
      = some (o1, 0) := by
    rw [processLoop_step (fuel + 1) input (DB_CO powf gain) 2 fuel 0 o o1 1 0 1 (by omega) hiter]
    exact processLoop_done _ _ _ _ _ _ _ _ (by decide)
  rw [run_eq_of_processLoop powf (fuel + 1) o o1 gain input 2 0 hloop]
  rfl

/-- Whenever `run` returns, it has kept the indices well formed. -/
theorem run_inv (powf : α → α → α) (fuel : Nat) (o o1 : Octaver α) (gain : α)
    (input : Nat → α) (n : Nat) (out : List α) (hinv : Inv o)
    (h : run powf fuel o gain input n = some (o1, out)) : Inv o1 := by
  simp only [run] at h
  split at h
  · simp at h
  · rename_i o2 s2 hloop
    have h2 := outputLoop_inv input n o2 (processLoop_inv _ _ _ _ _ _ _ _ _ _ hinv hloop)
    split at h
    · simp only [Option.some.injEq, Prod.mk.injEq] at h
      rw [← h.1]; exact silenceReset_inv _ h2
    · simp only [Option.some.injEq, Prod.mk.injEq] at h
      rw [← h.1]; exact h2

theorem instantiate_inv : Inv (instantiate : Octaver α) :=
  ⟨rfl, by simp [instantiate], by simp [instantiate], by simp [instantiate]⟩

theorem reachable_inv (powf : α → α → α) (o : Octaver α) (h : Reachable powf o) : Inv o := by
  induction h with
  | init => exact instantiate_inv
  | step fuel gain input n _ hrun ih => exact run_inv powf fuel _ _ gain input n _ ih hrun

/-- Loop rule for the processing loop: when the counter cannot wrap (`n + 1 < 2 ^ 32`), an
invariant `Q` kept by every iteration holds when the loop exits, and the loop does exit if
the fuel covers the remaining iterations. -/
theorem processLoop_rule (rfuel : Nat) (input : Nat → α) (coef : α) (n : Nat)
    (Q : Nat → Octaver α → Nat → Prop) (hn : n + 1 < 4294967296)
    (hstep : ∀ pos o s, pos < n → Q pos o s →
      ∃ o1 s1, processIter rfuel input coef pos o s = some (o1, s1, pos + 1) ∧
        Q (pos + 2) o1 s1) :
    ∀ (fuel pos : Nat) (o : Octaver α) (s : Nat), n ≤ pos + 2 * fuel → Q pos o s →
      ∃ o1 s1 pos1, processLoop rfuel input coef n fuel pos o s = some (o1, s1) ∧
        n ≤ pos1 ∧ Q pos1 o1 s1 := by
  intro fuel
  induction fuel with
  | zero =>
    intro pos o s hfuel hQ
    exact ⟨o, s, pos, by simp only [processLoop, if_neg (show ¬ pos < n by omega)],
      by omega, hQ⟩
  | succ fuel ih =>
    intro pos o s hfuel hQ
    by_cases hlt : pos < n
    · obtain ⟨o1, s1, hiter, hQ1⟩ := hstep pos o s hlt hQ
      have hadd : u32add (pos + 1) 1 = pos + 2 := by
        simp only [u32add]; omega
      simp only [processLoop, if_pos hlt, hiter, hadd]
      exact ih (pos + 2) o1 s1 (by omega) hQ1
    · exact ⟨o, s, pos, by simp only [processLoop, if_neg hlt], by omega, hQ⟩

/-- The processing loop on a block of `n` samples, entered in a state with well-formed
indices: it returns, and `isSilence` is still set exactly when no consulted sample
`input[2 i]`, scaled by `0.5 * coef`, lies outside `[-0.0001, 0.0001]`. -/
theorem processLoop_silence (input : Nat → α) (coef : α) (n fuel : Nat) (o : Octaver α)
    (hinv : Inv o) (hn : n + 1 < 4294967296) (hf : 8192 ≤ fuel) (hf2 : n ≤ 2 * fuel) :
    ∃ o1 s1, processLoop fuel input coef n fuel 0 o 1 = some (o1, s1) ∧ Inv o1 ∧
      (0 < n → o1.PluginStatus ≠ PluginStatus.FIRST_RUN) ∧
      (s1 ≠ 0 ↔ ∀ i, 2 * i < n → |input (2 * i) * 0.5 * coef| ≤ 0.0001) := by
  obtain ⟨o1, s1, pos1, hloop, hge, hpar, hlt, hinv1, hst, hsil⟩ :=
    processLoop_rule fuel input coef n
      (fun pos o1 s1 => pos % 2 = 0 ∧ pos < n + 2 ∧ Inv o1 ∧
        (0 < pos → o1.PluginStatus ≠ PluginStatus.FIRST_RUN) ∧
        (s1 ≠ 0 ↔ ∀ i, 2 * i < pos → |input (2 * i) * 0.5 * coef| ≤ 0.0001))
      hn
      (by
        intro pos o2 s2 hpos ⟨hpar, _, hinv2, _, hsil⟩
        obtain ⟨o3, hiter, hinv3, hst3, _⟩ := processIter_spec fuel input coef pos o2 s2 hinv2 hf
        have hadd : u32add pos 1 = pos + 1 := by simp only [u32add]; omega
        rw [hadd] at hiter
        refine ⟨o3, _, hiter, by omega, by omega, hinv3, fun _ => hst3, ?_⟩
        obtain ⟨j, rfl⟩ : ∃ j, pos = 2 * j := ⟨pos / 2, by omega⟩
        have hall : (∀ i, 2 * i < 2 * j + 2 → |input (2 * i) * 0.5 * coef| ≤ 0.0001) ↔
            (∀ i, 2 * i < 2 * j → |input (2 * i) * 0.5 * coef| ≤ 0.0001) ∧
              |input (2 * j) * 0.5 * coef| ≤ 0.0001 := by
          constructor
          · intro h
            exact ⟨fun i hi => h i (by omega), h j (by omega)⟩
          · intro h i hi
            by_cases hij : i = j
            · rw [hij]; exact h.2
            · exact h.1 i (by omega)
        rw [hall, ← hsil, abs_le]
        by_cases hq : input (2 * j) * 0.5 * coef > 0.0001 ∨
            input (2 * j) * 0.5 * coef < -0.0001 ∨ input (2 * j) * 0.5 * coef > 0.0001 ∨
            input (2 * j) * 0.5 * coef < -0.0001
        · rw [if_pos hq]
          constructor
          · intro h; exact absurd rfl h
          · intro h
            rcases hq with hq | hq | hq | hq
            · exact absurd h.2.2 (not_le.mpr hq)
            · exact absurd h.2.1 (not_le.mpr hq)
            · exact absurd h.2.2 (not_le.mpr hq)
            · exact absurd h.2.1 (not_le.mpr hq)
        · rw [if_neg hq]
          simp only [not_or, not_lt, gt_iff_lt] at hq
          constructor
          · intro h; exact ⟨h, hq.2.1, hq.1⟩
          · intro h; exact h.1)
      fuel 0 o 1 (by omega)
      ⟨rfl, by omega, hinv, fun h => absurd h (lt_irrefl 0), by simp⟩
  refine ⟨o1, s1, hloop, hinv1, fun h => hst (by omega), ?_⟩
  rw [hsil]
  constructor
  · intro h i hi; exact h i (by omega)
  · intro h i hi; exact h i (by omega)

/-- The function `run` on a block of `n` samples, entered in a state with well-formed indices: it
returns, and the state it leaves is the post-reset state exactly when no consulted sample
`input[2 i]`, scaled by `0.5 * coef`, lies outside `[-0.0001, 0.0001]`. -/
theorem run_reset_iff (powf : α → α → α) (fuel : Nat) (o : Octaver α) (gain : α)
    (input : Nat → α) (n : Nat) (hinv : Inv o) (hn : n + 1 < 4294967296) (hf : 8192 ≤ fuel)
    (hf2 : n ≤ 2 * fuel) :
    ∃ o1 out, run powf fuel o gain input n = some (o1, out) ∧
      (IsReset o1 ↔ ∀ i, 2 * i < n → |input (2 * i) * 0.5 * DB_CO powf gain| ≤ 0.0001) := by
  obtain ⟨o1, s1, hloop, _, hst, hsil⟩ :=
    processLoop_silence input (DB_CO powf gain) n fuel o hinv hn hf hf2
  refine ⟨_, _, run_eq_of_processLoop powf fuel o o1 gain input n s1 hloop, ?_⟩
  rw [← hsil]
  by_cases hs : s1 ≠ 0
  · rw [if_pos hs]
    exact ⟨fun _ => hs, fun _ => ⟨rfl, rfl, rfl, rfl⟩⟩
  · rw [if_neg hs]
    constructor
    · intro hr
      exfalso
      have hn0 : 0 < n := by
        by_contra h0
        have hz : n = 0 := by omega
        exact hs (hsil.mpr (fun i hi => by omega))
      have := hr.1
      rw [outputLoop_status] at this
      exact hst hn0 this
    · intro h; exact absurd h hs

/-! ## Frequency doubling -/

/-- A consulted sample above the silence threshold clears `isSilence`. -/
theorem silence_flag_cleared (v : α) (s : Nat) (hamp : 0.0001 < |v|) :
    (if v > 0.0001 ∨ v < -0.0001 ∨ v > 0.0001 ∨ v < -0.0001 then 0 else s) = 0 := by
  rw [if_pos]
  rcases lt_abs.mp hamp with h | h
  · exact Or.inl h
  · exact Or.inr (Or.inl (by linarith))

/-- The value pushed for a sample whose sign agrees with the status is positive. -/
theorem pushed_value_pos (x coef : α) (q : Nat) (hcoef : 0 < coef)
    (hsgn : (q % 2 = 0 → 0 < x) ∧ (q % 2 = 1 → x < 0)) :
    0 < (x * 0.5 * coef + x * 0.5 * coef) *
      (if (if q % 2 = 0 then PluginStatus.RISING_EDGE else PluginStatus.FALLING_EDGE)
        = PluginStatus.RISING_EDGE then 1 else -1) := by
  rcases Nat.mod_two_eq_zero_or_one q with h0 | h1
  · have hx := hsgn.1 h0
    rw [if_pos h0, if_pos rfl]
    have : 0 < x * 0.5 * coef := by positivity
    linarith
  · have hx := hsgn.2 h1
    have hq : ¬ q % 2 = 0 := by omega
    rw [if_neg hq, if_neg (show ¬ PluginStatus.FALLING_EDGE = PluginStatus.RISING_EDGE
      by decide)]
    have : x * 0.5 * coef < 0 := by
      have h5 : (0 : α) < 0.5 := by norm_num
      have := mul_pos (mul_pos (neg_pos.mpr hx) h5) hcoef
      linarith
    linarith

/-- The value pushed for a sample whose sign disagrees with the status is negative. -/
theorem pushed_value_neg (x coef : α) (q : Nat) (hcoef : 0 < coef)
    (hsgn : (q % 2 = 0 → x < 0) ∧ (q % 2 = 1 → 0 < x)) :
    (x * 0.5 * coef + x * 0.5 * coef) *
      (if (if q % 2 = 0 then PluginStatus.RISING_EDGE else PluginStatus.FALLING_EDGE)
        = PluginStatus.RISING_EDGE then 1 else -1) < 0 := by
  rcases Nat.mod_two_eq_zero_or_one q with h0 | h1
  · have hx := hsgn.1 h0
    rw [if_pos h0, if_pos rfl]
    have : x * 0.5 * coef < 0 := by
      have h5 : (0 : α) < 0.5 := by norm_num
      have := mul_pos (mul_pos (neg_pos.mpr hx) h5) hcoef
      linarith
    linarith
  · have hx := hsgn.2 h1
    have hq : ¬ q % 2 = 0 := by omega
    rw [if_neg hq, if_neg (show ¬ PluginStatus.FALLING_EDGE = PluginStatus.RISING_EDGE
      by decide)]
    have : 0 < x * 0.5 * coef := by positivity
    linarith

/-- An iteration on a further sample of the current half wave: no flip, one more positive
sample stored. -/
theorem processIter_same_half_wave (rfuel : Nat) (input : Nat → α) (coef : α) (pos : Nat)
    (o : Octaver α) (s q r : Nat) (hP : HalfWaveState q r o)
    (hk : (if q = 0 then r + 1 else r) + 1 < 8192) (hcoef : 0 < coef)
    (hpos : pos + 1 < 4294967296)
    (hcur : (q % 2 = 0 → 0 < input pos) ∧ (q % 2 = 1 → input pos < 0))
    (hnext : (q % 2 = 0 → 0 < input (pos + 1)) ∧ (q % 2 = 1 → input (pos + 1) < 0))
    (hamp : 0.0001 < |input pos * 0.5 * coef|) :
    ∃ o1, processIter rfuel input coef pos o s = some (o1, 0, pos + 1) ∧
      HalfWaveState q (r + 1) o1 := by
  obtain ⟨⟨hmax, hs, he, hl⟩, hst, hlen, hbuf, ⟨l, a, hpushed, ha⟩, hsc⟩ := hP
  have hadd : u32add pos 1 = pos + 1 := by simp only [u32add]; omega
  have hsub : u32sub (pos + 1) 1 = pos := by simp only [u32sub]; omega
  have hne : o.PluginStatus ≠ PluginStatus.FIRST_RUN := by
    rw [hst]; split <;> decide
  have hv := pushed_value_pos (input pos) coef q hcoef hcur
  rw [← hst] at hv
  have hc : ¬ edgeCondition input (u32add pos 1)
      (pushBuffer o ((input pos * 0.5 * coef + input pos * 0.5 * coef) *
        (if o.PluginStatus = PluginStatus.RISING_EDGE then 1 else -1))) := by
    rw [hadd]
    simp only [edgeCondition, hsub, pushBuffer, hst]
    rcases Nat.mod_two_eq_zero_or_one q with h0 | h1
    · have h1 := hcur.1 h0
      have h2 := hnext.1 h0
      rw [if_pos h0]
      rintro (⟨_, h | h⟩ | ⟨h, _⟩)
      · exact absurd h (not_lt.mpr h2.le)
      · exact absurd h (not_lt.mpr h1.le)
      · exact absurd h (by decide)
    · have h3 := hcur.2 h1
      have h4 := hnext.2 h1
      have hq : ¬ q % 2 = 0 := by omega
      rw [if_neg hq]
      rintro (⟨h, _⟩ | ⟨_, h | h⟩)
      · exact absurd h (by decide)
      · exact absurd h (not_le.mpr h4)
      · exact absurd h (not_le.mpr h3)
  refine ⟨pushBuffer o ((input pos * 0.5 * coef + input pos * 0.5 * coef) *
    (if o.PluginStatus = PluginStatus.RISING_EDGE then 1 else -1)), ?_, ?_⟩
  · rw [processIter_noflip rfuel input coef pos o s hne hc, silence_flag_cleared _ _ hamp,
      hadd]
  · have hend : raiseIndex o.inputBufferEnd o = (o.inputBufferEnd + 1) % 8192 :=
      raiseIndex_eq _ o hmax
    have hk1 : (if q = 0 then r + 1 + 1 else r + 1) = (if q = 0 then r + 1 else r) + 1 := by
      split <;> rfl
    refine ⟨⟨hmax, hs, raiseIndex_lt _ o hmax, hl⟩, hst, ?_, ?_, ?_, ?_⟩
    · simp only [pushBuffer]
      rw [hend, hk1]
      generalize (if q = 0 then r + 1 else r) = k at hlen hk
      omega
    · intro i hi
      simp only [pushBuffer]
      rw [hk1] at hi
      generalize (if q = 0 then r + 1 else r) = k at hlen hk hi hbuf
      by_cases hik : i = k
      · rw [if_pos (by omega)]
        exact hv
      · rw [if_neg (by omega)]
        exact hbuf i (by omega)
    · exact ⟨o.pushed, _, rfl, hv⟩
    · simp only [pushBuffer]
      rw [hpushed, signChanges_snoc, ← hpushed, hsc, if_neg]
      · rfl
      · rintro (⟨h, _⟩ | ⟨_, h⟩)
        · exact absurd h (not_lt.mpr ha.le)
        · exact absurd h (not_lt.mpr hv.le)

/-- An iteration on the first consulted sample of the next half wave: the sample is pushed
with the old polarity (negative), the edge flips, and the replay appends the stored half
wave inverted.  Two sign changes are added to the push history. -/
theorem processIter_next_half_wave (rfuel : Nat) (input : Nat → α) (coef : α) (pos : Nat)
    (o : Octaver α) (s q r : Nat) (hP : HalfWaveState q r o)
    (hk : (if q = 0 then r + 1 else r) + 1 < 8192) (hf : 8192 ≤ rfuel) (hcoef : 0 < coef)
    (hpos : pos + 1 < 4294967296)
    (hcur : (q % 2 = 0 → input pos < 0) ∧ (q % 2 = 1 → 0 < input pos))
    (hnext : (q % 2 = 0 → input (pos + 1) < 0) ∧ (q % 2 = 1 → 0 < input (pos + 1)))
    (hamp : 0.0001 < |input pos * 0.5 * coef|) :
    ∃ o1, processIter rfuel input coef pos o s = some (o1, 0, pos + 1) ∧
      HalfWaveState (q + 1) 0 o1 := by
  obtain ⟨⟨hmax, hs, he, hl⟩, hst, hlen, hbuf, ⟨l, a, hpushed, ha⟩, hsc⟩ := hP
  generalize hkdef : (if q = 0 then r + 1 else r) = k at hlen hk hbuf
  have hadd : u32add pos 1 = pos + 1 := by simp only [u32add]; omega
  have hsub : u32sub (pos + 1) 1 = pos := by simp only [u32sub]; omega
  have hne : o.PluginStatus ≠ PluginStatus.FIRST_RUN := by
    rw [hst]; split <;> decide
  have hv := pushed_value_neg (input pos) coef q hcoef hcur
  rw [← hst] at hv
  generalize hvdef : (input pos * 0.5 * coef + input pos * 0.5 * coef) *
    (if o.PluginStatus = PluginStatus.RISING_EDGE then 1 else -1) = v at hv
  have hc : edgeCondition input (u32add pos 1) (pushBuffer o v) := by
    rw [hadd]
    simp only [edgeCondition, hsub, pushBuffer, hst]
    rcases Nat.mod_two_eq_zero_or_one q with h0 | h1
    · rw [if_pos h0]
      exact Or.inl ⟨rfl, Or.inl (hnext.1 h0)⟩
    · have hq : ¬ q % 2 = 0 := by omega
      rw [if_neg hq]
      exact Or.inr ⟨rfl, Or.inl (hnext.2 h1).le⟩
  have h2E : (pushBuffer o v).inputBufferEnd = (o.inputBufferEnd + 1) % 8192 :=
    raiseIndex_eq _ o hmax
  have h2L : (pushBuffer o v).inputBufferLastEdgeFlip = o.inputBufferLastEdgeFlip := rfl
  have h2buf : ∀ i, (pushBuffer o v).inputBuffer i
      = if i = o.inputBufferEnd then v else o.inputBuffer i := fun _ => rfl
  have h2pushed : (pushBuffer o v).pushed = o.pushed ++ [v] := rfl
  have h2st : (pushBuffer o v).PluginStatus = o.PluginStatus := rfl
  have h2start : (pushBuffer o v).inputBufferStart = o.inputBufferStart := rfl
  have hk2 : ((pushBuffer o v).inputBufferEnd + 8192
      - (pushBuffer o v).inputBufferLastEdgeFlip) % 8192 = k + 1 := by
    rw [h2E, h2L]; omega
  obtain ⟨o3, hflip, h1, h2, h3, _, h5, h6, h7, _, _⟩ :=
    edgeFlip_spec rfuel (pushBuffer o v) hmax (by rw [h2L]; exact hl)
      (by rw [h2E]; omega) (by rw [hk2]; omega)
  rw [hk2] at h5 h7
  rw [h2st] at h3
  rw [h2L, h2pushed] at h7
  refine ⟨o3, ?_, ?_⟩
  · rw [processIter_flip rfuel input coef pos o o3 s hne (by rw [hvdef]; exact hc)
      (by rw [hvdef]; exact hflip), silence_flag_cleared _ _ hamp, hadd]
  · have hys : ∀ y ∈ (List.range k).map
        (fun t => (pushBuffer o v).inputBuffer ((o.inputBufferLastEdgeFlip + t) % 8192) * -1),
        y < 0 := by
      intro y hy
      rw [List.mem_map] at hy
      obtain ⟨t, ht, rfl⟩ := hy
      rw [List.mem_range] at ht
      rw [h2buf, if_neg (by omega)]
      have := hbuf t ht
      linarith
    have hp : 0 < (pushBuffer o v).inputBuffer ((o.inputBufferLastEdgeFlip + k) % 8192) * -1 := by
      rw [h2buf, if_pos (by omega)]
      linarith
    have hlist : o3.pushed = l ++ [a] ++ [v]
        ++ (List.range k).map
          (fun t => (pushBuffer o v).inputBuffer ((o.inputBufferLastEdgeFlip + t) % 8192) * -1)
        ++ [(pushBuffer o v).inputBuffer ((o.inputBufferLastEdgeFlip + k) % 8192) * -1] := by
      rw [h7, hpushed, List.range_succ, List.map_append]
      simp
    refine ⟨⟨h1, by omega, by omega, by omega⟩, ?_, ?_, ?_, ⟨_, _, hlist, hp⟩, ?_⟩
    · rw [h3, hst]
      rcases Nat.mod_two_eq_zero_or_one q with h0 | h1
      · have hq : ¬ (q + 1) % 2 = 0 := by omega
        rw [if_pos h0, if_pos rfl, if_neg hq]
      · have hq : ¬ q % 2 = 0 := by omega
        have hq1 : (q + 1) % 2 = 0 := by omega
        rw [if_neg hq, if_neg (show ¬ PluginStatus.FALLING_EDGE = PluginStatus.RISING_EDGE
          by decide), if_pos hq1]
    · rw [h6, if_neg (by omega)]
      omega
    · intro i hi
      rw [if_neg (by omega)] at hi
      omega
    · rw [hlist, signChanges_neg_run_pos l a v _ _ ha hv hys hp, ← hpushed, hsc]
      ring

/-- The very first iteration on a signal that starts positive: the status becomes
`RISING_EDGE` and one positive sample is stored. -/
theorem processIter_first_sample (rfuel : Nat) (input : Nat → α) (coef : α) (o : Octaver α)
    (s : Nat) (hinv : Inv o) (hst : o.PluginStatus = PluginStatus.FIRST_RUN)
    (hLE : o.inputBufferLastEdgeFlip = o.inputBufferEnd) (hpushed : o.pushed = [])
    (hcoef : 0 < coef) (h0 : 0 < input 0) (h1 : 0 < input 1)
    (hamp : 0.0001 < |input 0 * 0.5 * coef|) :
    ∃ o1, processIter rfuel input coef 0 o s = some (o1, 0, 1) ∧ HalfWaveState 0 0 o1 := by
  obtain ⟨hmax, hs, he, hl⟩ := hinv
  have hadd : u32add 0 1 = 1 := by decide
  have hsub : u32sub 1 1 = 0 := by decide
  have hrise : (if input 0 ≥ 0 then PluginStatus.RISING_EDGE else PluginStatus.FALLING_EDGE)
      = PluginStatus.RISING_EDGE := if_pos h0.le
  have hv : 0 < (input 0 * 0.5 * coef + input 0 * 0.5 * coef) * 1 := by
    have : 0 < input 0 * 0.5 * coef := by positivity
    linarith
  rw [processIter_first_run rfuel input coef 0 o s hst, hrise]
  have hc : ¬ edgeCondition input (u32add 0 1)
      (pushBuffer { o with PluginStatus := PluginStatus.RISING_EDGE }
        ((input 0 * 0.5 * coef + input 0 * 0.5 * coef) *
          (if ({ o with PluginStatus := PluginStatus.RISING_EDGE } : Octaver α).PluginStatus
            = PluginStatus.RISING_EDGE then 1 else -1))) := by
    rw [hadd]
    simp only [edgeCondition, hsub, pushBuffer]
    rintro (⟨_, h | h⟩ | ⟨h, _⟩)
    · exact absurd h (not_lt.mpr h1.le)
    · exact absurd h (not_lt.mpr h0.le)
    · exact absurd h (by decide)
  rw [processIter_noflip rfuel input coef 0 _ s (by simp) hc, silence_flag_cleared _ _ hamp,
    hadd]
  refine ⟨_, rfl, ⟨hmax, hs, raiseIndex_lt _ _ hmax, hl⟩, rfl, ?_, ?_, ⟨[], _, ?_, hv⟩, ?_⟩
  · simp only [pushBuffer, raiseIndex, u32add, hmax, hLE, if_true]
    omega
  · intro i hi
    have hi0 : i = 0 := by simpa using hi
    subst hi0
    simp only [pushBuffer, hLE]
    rw [if_pos (by omega)]
    simpa using hv
  · simp only [pushBuffer, hpushed]
    simp
  · simp [pushBuffer, hpushed, signChanges]

/-- The output loop moves only `inputBufferStart`, so it keeps the doubling state. -/
theorem outputLoop_doublingState (input : Nat → α) (n h J : Nat) (o : Octaver α)
    (hP : DoublingState h J o) : DoublingState h J (outputLoop input n o).1 := by
  rcases hP with ⟨hJ, hst, hinv, hLE, hpushed⟩ | ⟨q, r, hr, hJ, hinv, hst, hlen, hbuf, hp, hsc⟩
  · exact Or.inl ⟨hJ, by rw [outputLoop_status, hst], outputLoop_inv input n o hinv,
      by rw [outputLoop_flip, outputLoop_end, hLE], by rw [outputLoop_pushed, hpushed]⟩
  · refine Or.inr ⟨q, r, hr, hJ, outputLoop_inv input n o hinv, ?_, ?_, ?_, ?_, ?_⟩
    · rw [outputLoop_status, hst]
    · rw [outputLoop_flip, outputLoop_end, hlen]
    · rw [outputLoop_flip, outputLoop_buffer]; exact hbuf
    · rw [outputLoop_pushed]; exact hp
    · rw [outputLoop_pushed]; exact hsc

/-- One block of the doubling scenario: `run` on the next `n` samples (`n` even and
positive) of a signal whose consulted samples and their successors are positive in even and
negative in odd half waves advances the doubling state by `n / 2` iterations. -/
theorem run_doubling (powf : α → α → α) (fuel : Nat) (gain : α) (x : Nat → α) (h J n : Nat)
    (o : Octaver α) (hh : 0 < h) (hcap : h + 1 < 8192) (hcoef : 0 < DB_CO powf gain)
    (hx : ∀ q r, r < h →
      ((q % 2 = 0 → 0 < x (2 * (q * h + r))) ∧ (q % 2 = 1 → x (2 * (q * h + r)) < 0)) ∧
      ((q % 2 = 0 → 0 < x (2 * (q * h + r) + 1)) ∧ (q % 2 = 1 → x (2 * (q * h + r) + 1) < 0)))
    (hamp : ∀ t, 0.0001 < |x t * 0.5 * DB_CO powf gain|)
    (hn2 : n % 2 = 0) (hn0 : 0 < n) (hn : n + 1 < 4294967296) (hf : 8192 ≤ fuel)
    (hf2 : n ≤ 2 * fuel) (hP : DoublingState h J o) :
    ∃ o1 out, run powf fuel o gain (fun i => x (2 * J + i)) n = some (o1, out) ∧
      DoublingState h (J + n / 2) o1 := by
  obtain ⟨o1, s1, pos1, hloop, hge, hpar, hle, hP1, hs1⟩ :=
    processLoop_rule fuel (fun i => x (2 * J + i)) (DB_CO powf gain) n
      (fun pos o1 s1 => pos % 2 = 0 ∧ pos ≤ n ∧ DoublingState h (J + pos / 2) o1 ∧
        (0 < pos → s1 = 0))
      hn
      (by
        intro pos o2 s2 hpos ⟨hpar, _, hP2, _⟩
        have hidx : 2 * J + pos = 2 * (J + pos / 2) := by omega
        have hJ2 : J + (pos + 2) / 2 = J + pos / 2 + 1 := by omega
        beta_reduce
        rw [hJ2]
        generalize J + pos / 2 = K at hP2 hidx
        rcases hP2 with ⟨hK, hst, hinv, hLE, hpushed⟩ |
          ⟨q, r, hr, hK, hP3⟩
        · have hJ0 : J = 0 := by omega
          have hp0 : pos = 0 := by omega
          subst hJ0 hp0
          have hx0 := hx 0 0 hh
          simp only [Nat.zero_mul, Nat.add_zero, Nat.mul_zero, Nat.zero_add] at hx0
          obtain ⟨o3, hiter, hP3⟩ := processIter_first_sample fuel
            (fun i => x (2 * 0 + i)) (DB_CO powf gain) o2 s2 hinv hst hLE hpushed hcoef
            (by simpa using hx0.1.1 trivial) (by simpa using hx0.2.1 trivial) (hamp _)
          exact ⟨o3, 0, hiter, by omega, by omega,
            Or.inr ⟨0, 0, hh, by omega, hP3⟩, fun _ => rfl⟩
        · by_cases hlast : r + 1 < h
          · have hxq := hx q (r + 1) hlast
            have e1 : 2 * J + pos = 2 * (q * h + (r + 1)) := by omega
            have e2 : 2 * J + (pos + 1) = 2 * (q * h + (r + 1)) + 1 := by omega
            obtain ⟨o3, hiter, hP4⟩ := processIter_same_half_wave fuel
              (fun i => x (2 * J + i)) (DB_CO powf gain) pos o2 s2 q r hP3
              (by split <;> omega) hcoef (by omega)
              (by simp only [e1]; exact hxq.1) (by simp only [e2]; exact hxq.2) (hamp _)
            exact ⟨o3, 0, hiter, by omega, by omega,
              Or.inr ⟨q, r + 1, hlast, by omega, hP4⟩, fun _ => rfl⟩
          · have hxq := hx (q + 1) 0 hh
            have hmul : (q + 1) * h = q * h + h := Nat.succ_mul q h
            have e1 : 2 * J + pos = 2 * ((q + 1) * h + 0) := by omega
            have e2 : 2 * J + (pos + 1) = 2 * ((q + 1) * h + 0) + 1 := by omega
            obtain ⟨o3, hiter, hP4⟩ := processIter_next_half_wave fuel
              (fun i => x (2 * J + i)) (DB_CO powf gain) pos o2 s2 q r hP3
              (by split <;> omega) hf hcoef (by omega)
              (by
                simp only [e1]
                exact ⟨fun hq => hxq.1.2 (by omega), fun hq => hxq.1.1 (by omega)⟩)
              (by
                simp only [e2]
                exact ⟨fun hq => hxq.2.2 (by omega), fun hq => hxq.2.1 (by omega)⟩)
              (hamp _)
            exact ⟨o3, 0, hiter, by omega, by omega,
              Or.inr ⟨q + 1, 0, hh, by omega, hP4⟩, fun _ => rfl⟩)
      fuel 0 o 1 (by omega)
      ⟨rfl, by omega, by simpa using hP, fun h0 => absurd h0 (lt_irrefl 0)⟩
  have hpn : pos1 = n := by omega
  subst hpn
  have hs0 : s1 = 0 := hs1 hn0
  refine ⟨_, _, run_eq_of_processLoop powf fuel o o1 gain _ pos1 s1 hloop, ?_⟩
  rw [if_neg (by rw [hs0]; simp)]
  exact outputLoop_doublingState _ _ _ _ _ hP1

/-- The doubling scenario over a list of blocks. -/
theorem runBlocks_doubling (powf : α → α → α) (fuel : Nat) (gain : α) (x : Nat → α) (h : Nat)
    (hh : 0 < h) (hcap : h + 1 < 8192) (hcoef : 0 < DB_CO powf gain)
    (hx : ∀ q r, r < h →
      ((q % 2 = 0 → 0 < x (2 * (q * h + r))) ∧ (q % 2 = 1 → x (2 * (q * h + r)) < 0)) ∧
      ((q % 2 = 0 → 0 < x (2 * (q * h + r) + 1)) ∧ (q % 2 = 1 → x (2 * (q * h + r) + 1) < 0)))
    (hamp : ∀ t, 0.0001 < |x t * 0.5 * DB_CO powf gain|) (hf : 8192 ≤ fuel) :
    ∀ (ns : List Nat) (J : Nat) (o : Octaver α),
      (∀ n ∈ ns, n % 2 = 0 ∧ 0 < n ∧ n + 1 < 4294967296 ∧ n ≤ 2 * fuel) →
      DoublingState h J o →
      ∃ o1, runBlocks powf fuel gain x ns (2 * J) o = some o1 ∧
        DoublingState h (J + ns.sum / 2) o1 := by
  intro ns
  induction ns with
  | nil => intro J o _ hP; exact ⟨o, rfl, by simpa using hP⟩
  | cons n ns ih =>
    intro J o hns hP
    obtain ⟨hn2, hn0, hn, hf2⟩ := hns n (List.mem_cons_self _ _)
    obtain ⟨o1, out, hrun, hP1⟩ :=
      run_doubling powf fuel gain x h J n o hh hcap hcoef hx hamp hn2 hn0 hn hf hf2 hP
    obtain ⟨o2, hrest, hP2⟩ := ih (J + n / 2) o1
      (fun m hm => hns m (List.mem_cons_of_mem _ hm)) hP1
    have hoff : 2 * J + n = 2 * (J + n / 2) := by omega
    refine ⟨o2, ?_, ?_⟩
    · simp only [runBlocks, hrun, hoff]
      exact hrest
    · have hsum : J + (n :: ns).sum / 2 = J + n / 2 + ns.sum / 2 := by
        simp only [List.sum_cons]; omega
      rw [hsum]; exact hP2

/-- Sign changes of a signal that is positive in even and negative in odd half periods of
`H` samples: one per completed half period. -/
theorem squareWave_signChanges (x : Nat → α) (H : Nat)
    (hpos : ∀ t, (t / H) % 2 = 0 → 0 < x t) (hneg : ∀ t, (t / H) % 2 = 1 → x t < 0) :
    ∀ N, signChanges ((List.range N).map x) = (N - 1) / H := by
  have key : ∀ N, signChanges ((List.range (N + 1)).map x) = N / H := by
    intro N
    induction N with
    | zero => simp [signChanges]
    | succ N ih =>
      rw [List.range_succ, List.map_append, List.range_succ, List.map_append] at *
      simp only [List.map_cons, List.map_nil] at *
      rw [signChanges_snoc, ih, Nat.succ_div]
      congr 1
      by_cases hd : H ∣ N + 1
      · have hdiv : (N + 1) / H = N / H + 1 := Nat.succ_div_of_dvd hd
        rw [if_pos hd]
        rcases Nat.mod_two_eq_zero_or_one (N / H) with h0 | h1
        · rw [if_pos (Or.inr ⟨hpos N h0, hneg (N + 1) (by rw [hdiv]; omega)⟩)]
        · rw [if_pos (Or.inl ⟨hneg N h1, hpos (N + 1) (by rw [hdiv]; omega)⟩)]
      · have hdiv : (N + 1) / H = N / H := Nat.succ_div_of_not_dvd hd
        rw [if_neg hd]
        rcases Nat.mod_two_eq_zero_or_one (N / H) with h0 | h1
        · have h1 := hpos N h0
          have h2 := hpos (N + 1) (by rw [hdiv]; exact h0)
          rw [if_neg]
          rintro (⟨h, _⟩ | ⟨_, h⟩)
          · exact absurd h (not_lt.mpr h1.le)
          · exact absurd h (not_lt.mpr h2.le)
        · have h3 := hneg N h1
          have h4 := hneg (N + 1) (by rw [hdiv]; exact h1)
          rw [if_neg]
          rintro (⟨_, h⟩ | ⟨h, _⟩)
          · exact absurd h (not_lt.mpr h4.le)
          · exact absurd h (not_lt.mpr h3.le)
  intro N
  cases N with
  | zero => simp [signChanges]
  | succ N => rw [key N]; simp

/-- A sum of even numbers is even. -/
theorem sum_even_of_forall_even (ns : List Nat) (h : ∀ n ∈ ns, n % 2 = 0) :
    ns.sum % 2 = 0 := by
  induction ns with
  | nil => rfl
  | cons n ns ih =>
    have h1 := h n (List.mem_cons_self _ _)
    have h2 := ih (fun m hm => h m (List.mem_cons_of_mem _ hm))
    simp only [List.sum_cons]
    omega

end Lemmas

/-! ## The loop body, traces and reads -/

section LoopBodyLemmas

variable {α : Type} [LinearOrderedField α]

/-- The loop body in terms of its named parts. -/
theorem processIter_eq (rfuel : Nat) (input : Nat → α) (coef : α) (pos : Nat) (o : Octaver α)
    (s : Nat) :
    processIter rfuel input coef pos o s
      = (if edgeCondition input (u32add pos 1)
            (pushBuffer (firstRunStep input o)
              (pushedFromInput input coef pos (firstRunStep input o))) then
          match edgeFlip rfuel (pushBuffer (firstRunStep input o)
              (pushedFromInput input coef pos (firstRunStep input o))) with
          | none => none
          | some o3 =>
            some (o3,
              (if input pos * 0.5 * coef > 0.0001 ∨ input pos * 0.5 * coef < -0.0001 ∨
                  input pos * 0.5 * coef > 0.0001 ∨ input pos * 0.5 * coef < -0.0001
                then 0 else s),
              u32add pos 1)
        else
          some (pushBuffer (firstRunStep input o)
              (pushedFromInput input coef pos (firstRunStep input o)),
            (if input pos * 0.5 * coef > 0.0001 ∨ input pos * 0.5 * coef < -0.0001 ∨
                input pos * 0.5 * coef > 0.0001 ∨ input pos * 0.5 * coef < -0.0001
              then 0 else s),
            u32add pos 1)) := rfl

theorem firstRunStep_status_ne (input : Nat → α) (o : Octaver α) :
    (firstRunStep input o).PluginStatus ≠ PluginStatus.FIRST_RUN := by
  unfold firstRunStep
  split
  · simp only; split <;> decide
  · assumption

theorem firstRunStep_of_ne (input : Nat → α) (o : Octaver α)
    (h : o.PluginStatus ≠ PluginStatus.FIRST_RUN) : firstRunStep input o = o := by
  unfold firstRunStep
  rw [if_neg h]

theorem firstRunStep_inv (input : Nat → α) (o : Octaver α) (h : Inv o) :
    Inv (firstRunStep input o) := by
  unfold firstRunStep
  split
  · exact h
  · exact h

theorem firstRunStep_pushed (input : Nat → α) (o : Octaver α) :
    (firstRunStep input o).pushed = o.pushed := by
  unfold firstRunStep
  split <;> rfl

end LoopBodyLemmas

section StatusLemmas

variable {α : Type} [LinearOrderedField α]

/-- Whenever the edge-flip branch returns, the status it leaves is not `FIRST_RUN`. -/
theorem edgeFlip_status_ne (fuel : Nat) (o o1 : Octaver α) (h : edgeFlip fuel o = some o1) :
    o1.PluginStatus ≠ PluginStatus.FIRST_RUN := by
  simp only [edgeFlip] at h
  split at h
  · simp at h
  · simp only [Option.some.injEq] at h
    rw [← h]
    simp only
    split <;> decide

/-- Whenever an iteration of the processing loop returns, the status it leaves is not
`FIRST_RUN`. -/
theorem processIter_status_ne (rfuel : Nat) (input : Nat → α) (coef : α) (pos : Nat)
    (o o1 : Octaver α) (s s1 pos1 : Nat)
    (h : processIter rfuel input coef pos o s = some (o1, s1, pos1)) :
    o1.PluginStatus ≠ PluginStatus.FIRST_RUN := by
  rw [processIter_eq] at h
  split at h
  · split at h
    · simp at h
    · rename_i o3 hflip
      simp only [Option.some.injEq, Prod.mk.injEq] at h
      rw [← h.1]
      exact edgeFlip_status_ne _ _ _ hflip
  · simp only [Option.some.injEq, Prod.mk.injEq] at h
    rw [← h.1]
    exact firstRunStep_status_ne input o

/-- Whenever the processing loop returns from a state whose status is not `FIRST_RUN`, the
status it leaves is not `FIRST_RUN`. -/
theorem processLoop_status_ne (rfuel : Nat) (input : Nat → α) (coef : α) (n : Nat) :
    ∀ (fuel pos : Nat) (o o1 : Octaver α) (s s1 : Nat),
      o.PluginStatus ≠ PluginStatus.FIRST_RUN →
      processLoop rfuel input coef n fuel pos o s = some (o1, s1) →
      o1.PluginStatus ≠ PluginStatus.FIRST_RUN := by
  intro fuel
  induction fuel with
  | zero =>
    intro pos o o1 s s1 hst h
    simp only [processLoop] at h
    split at h
    · simp at h
    · simp only [Option.some.injEq, Prod.mk.injEq] at h; rw [← h.1]; exact hst
  | succ fuel ih =>
    intro pos o o1 s s1 hst h
    simp only [processLoop] at h
    split at h
    · split at h
      · simp at h
      · rename_i o2 s2 pos2 hiter
        exact ih _ o2 o1 s2 s1 (processIter_status_ne _ _ _ _ _ _ _ _ _ hiter) h
    · simp only [Option.some.injEq, Prod.mk.injEq] at h; rw [← h.1]; exact hst

/-- Whenever the processing loop returns on a non-empty block, the status it leaves is not
`FIRST_RUN`: the first iteration has replaced it. -/
theorem processLoop_status_ne_of_pos (rfuel : Nat) (input : Nat → α) (coef : α) (n fuel : Nat)
    (o o1 : Octaver α) (s s1 : Nat) (hn : 0 < n)
    (h : processLoop rfuel input coef n fuel 0 o s = some (o1, s1)) :
    o1.PluginStatus ≠ PluginStatus.FIRST_RUN := by
  cases fuel with
  | zero => simp [processLoop, hn] at h
  | succ fuel =>
    simp only [processLoop, if_pos hn] at h
    split at h
    · simp at h
    · rename_i o2 s2 pos2 hiter
      exact processLoop_status_ne _ _ _ _ _ _ o2 o1 s2 s1
        (processIter_status_ne _ _ _ _ _ _ _ _ _ hiter) h

/-- Whenever `run` returns, its result is that of the output loop on the state the processing
loop returned, with the silence reset applied exactly when `isSilence` is still set. -/
theorem run_cases (powf : α → α → α) (fuel : Nat) (o o1 : Octaver α) (gain : α)
    (input : Nat → α) (n : Nat) (out : List α)
    (h : run powf fuel o gain input n = some (o1, out)) :
    ∃ o2 s2, processLoop fuel input (DB_CO powf gain) n fuel 0 o 1 = some (o2, s2) ∧
      out = (outputLoop input n o2).2 ∧
      ((s2 ≠ 0 ∧ o1 = silenceReset (outputLoop input n o2).1) ∨
       (s2 = 0 ∧ o1 = (outputLoop input n o2).1)) := by
  simp only [run] at h
  split at h
  · simp at h
  · rename_i o2 s2 hloop
    refine ⟨o2, s2, hloop, ?_⟩
    split at h
    · rename_i hs
      simp only [Option.some.injEq, Prod.mk.injEq] at h
      exact ⟨h.2.symm, Or.inl ⟨hs, h.1.symm⟩⟩
    · rename_i hs
      simp only [Option.some.injEq, Prod.mk.injEq] at h
      exact ⟨h.2.symm, Or.inr ⟨by simpa using hs, h.1.symm⟩⟩

/-- At block boundaries a status `FIRST_RUN` comes with all three indices at 0. -/
theorem reachable_first_run (powf : α → α → α) (o : Octaver α) (h : Reachable powf o) :
    o.PluginStatus = PluginStatus.FIRST_RUN →
      o.inputBufferStart = 0 ∧ o.inputBufferEnd = 0 ∧ o.inputBufferLastEdgeFlip = 0 := by
  induction h with
  | init => intro _; exact ⟨rfl, rfl, rfl⟩
  | step fuel gain input n _ hrun _ =>
    intro hst
    obtain ⟨o2, s2, hloop, _, hcase | hcase⟩ := run_cases powf fuel _ _ gain input n _ hrun
    · rw [hcase.2]; exact ⟨rfl, rfl, rfl⟩
    · exfalso
      have hn : 0 < n := by
        by_contra h0
        have hz : n = 0 := by omega
        subst hz
        rw [processLoop_done _ _ _ _ _ _ _ _ (by omega)] at hloop
        simp only [Option.some.injEq, Prod.mk.injEq] at hloop
        omega
      have := processLoop_status_ne_of_pos _ _ _ _ _ _ _ _ _ hn hloop
      rw [hcase.2, outputLoop_status] at hst
      exact this hst

end StatusLemmas

section PopLemmas

variable {α : Type}

/-- A run of pops moves `inputBufferStart` by the number of pops and nothing else. -/
theorem popMany_state (k : Nat) :
    ∀ o : Octaver α, o.inputBufferMaxSize = 8192 → o.inputBufferStart < 8192 →
      (popMany k o).2.inputBufferMaxSize = 8192 ∧
      (popMany k o).2.inputBufferEnd = o.inputBufferEnd ∧
      (popMany k o).2.inputBufferStart = (o.inputBufferStart + k) % 8192 := by
  induction k with
  | zero => intro o hmax hs; exact ⟨hmax, rfl, by simp only [popMany]; omega⟩
  | succ k ih =>
    intro o hmax hs
    have hstart : (popBuffer o).2.inputBufferStart = (o.inputBufferStart + 1) % 8192 :=
      raiseIndex_eq _ o hmax
    obtain ⟨h1, h2, h3⟩ := ih (popBuffer o).2 hmax (by rw [hstart]; omega)
    simp only [popMany]
    refine ⟨h1, by rw [h2]; rfl, ?_⟩
    rw [h3, hstart]
    omega

end PopLemmas

section EdgeLemmas

variable {α : Type} [LinearOrderedField α]

/-- One iteration of the processing loop in a state with well-formed indices: the first
sample it appends to the push history is `pushedFromInput`, and the status it leaves differs
from the status in force for the push exactly when the edge-flip condition holds. -/
theorem processIter_push_flip (rfuel : Nat) (input : Nat → α) (coef : α) (pos : Nat)
    (o : Octaver α) (s : Nat) (hinv : Inv o) (hf : 8192 ≤ rfuel) :
    ∃ o1 s1 rest, processIter rfuel input coef pos o s = some (o1, s1, u32add pos 1) ∧
      o1.pushed = o.pushed ++ pushedFromInput input coef pos (firstRunStep input o) :: rest ∧
      (o1.PluginStatus ≠ (firstRunStep input o).PluginStatus ↔
        edgeCondition input (u32add pos 1) (firstRunStep input o)) := by
  have hinv1 := firstRunStep_inv input o hinv
  have hne := firstRunStep_status_ne input o
  generalize hq : firstRunStep input o = q at hinv1 hne
  have hp : o.pushed = q.pushed := by rw [← hq, firstRunStep_pushed]
  obtain ⟨hmax, hs, he, hl⟩ := hinv1
  rw [processIter_eq, hq]
  have hcond : edgeCondition input (u32add pos 1)
      (pushBuffer q (pushedFromInput input coef pos q))
      ↔ edgeCondition input (u32add pos 1) q := Iff.rfl
  by_cases hc : edgeCondition input (u32add pos 1) q
  · obtain ⟨o3, hflip, _, _, h3, _, _, _, h7, _, _⟩ :=
      edgeFlip_spec rfuel (pushBuffer q (pushedFromInput input coef pos q)) hmax hl
        (raiseIndex_lt _ q hmax) (by
          have := Nat.mod_lt ((pushBuffer q (pushedFromInput input coef pos q)).inputBufferEnd
            + 8192 - (pushBuffer q
              (pushedFromInput input coef pos q)).inputBufferLastEdgeFlip)
            (show 8192 > 0 by norm_num)
          omega)
    rw [if_pos (hcond.mpr hc), hflip]
    have hrest : ∃ rest, o3.pushed
        = o.pushed ++ pushedFromInput input coef pos q :: rest :=
      ⟨_, by rw [h7, hp]; exact List.append_assoc _ [_] _⟩
    obtain ⟨rest, hrest⟩ := hrest
    refine ⟨o3, _, rest, rfl, hrest, ?_⟩
    · constructor
      · intro _; exact hc
      · intro _
        rw [h3]
        show (if q.PluginStatus = PluginStatus.RISING_EDGE then PluginStatus.FALLING_EDGE
          else PluginStatus.RISING_EDGE) ≠ q.PluginStatus
        split
        · rename_i h; rw [h]; decide
        · rename_i h; exact fun h2 => h h2.symm
  · rw [if_neg (fun h => hc (hcond.mp h))]
    refine ⟨_, _, [], rfl, ?_, ?_⟩
    · rw [hp]; rfl
    · constructor
      · intro h; exact absurd rfl h
      · intro h; exact absurd h hc

/-- For a positive coefficient the sign tests on the raw and on the scaled samples agree. -/
theorem edgeCondition_iff_scaled (input : Nat → α) (coef : α) (pos : Nat) (o : Octaver α)
    (hcoef : 0 < coef) :
    edgeCondition input pos o ↔ scaledEdgeCondition input coef pos o := by
  have h5 : (0 : α) < 0.5 * coef := by positivity
  have hneg : ∀ x : α, x * 0.5 * coef < 0 ↔ x < 0 := by
    intro x
    rw [mul_assoc]
    constructor
    · intro h
      by_contra hx
      have := mul_nonneg (not_lt.mp hx) h5.le
      linarith
    · intro h
      exact mul_neg_of_neg_of_pos h h5
  have hnn : ∀ x : α, x * 0.5 * coef ≥ 0 ↔ x ≥ 0 := by
    intro x
    constructor
    · intro h
      by_contra hx
      have := (hneg x).mpr (not_le.mp hx)
      linarith
    · intro h
      by_contra hx
      have := (hneg x).mp (not_le.mp hx)
      linarith
  simp only [edgeCondition, scaledEdgeCondition, hneg, hnn]

end EdgeLemmas

section TraceLemmas

variable {α : Type} [LinearOrderedField α]

/-- The trace of the processing loop on a block whose counter cannot wrap, entered with an
even `pos` in a state with well-formed indices: one entry per pair of positions left, the
`i`-th entered with `pos + 2 i`, and every entry but the first with a status other than
`FIRST_RUN`. -/
theorem processLoopTrace_spec (rfuel : Nat) (input : Nat → α) (coef : α) (n : Nat)
    (hn : n + 1 < 4294967296) (hf : 8192 ≤ rfuel) :
    ∀ (fuel pos : Nat) (o : Octaver α) (s : Nat), pos % 2 = 0 → n ≤ pos + 2 * fuel → Inv o →
      ∃ tr, processLoopTrace rfuel input coef n fuel pos o s = some tr ∧
        tr.length = (n + 1 - pos) / 2 ∧
        ∀ i e, tr[i]? = some e →
          e.1 = pos + 2 * i ∧ Inv e.2.1 ∧
          (0 < i → e.2.1.PluginStatus ≠ PluginStatus.FIRST_RUN) ∧
          (i = 0 → e = (pos, o, s)) := by
  intro fuel
  induction fuel with
  | zero =>
    intro pos o s _ hfuel _
    refine ⟨[], by simp only [processLoopTrace, if_neg (show ¬ pos < n by omega)], ?_, ?_⟩
    · simp only [List.length_nil]; omega
    · intro i e h; simp at h
  | succ fuel ih =>
    intro pos o s hpar hfuel hinv
    by_cases hlt : pos < n
    · obtain ⟨o1, hiter, hinv1, hst1, _⟩ := processIter_spec rfuel input coef pos o s hinv hf
      have hadd : u32add (u32add pos 1) 1 = pos + 2 := by
        simp only [u32add]; omega
      generalize (if input pos * 0.5 * coef > 0.0001 ∨ input pos * 0.5 * coef < -0.0001 ∨
        input pos * 0.5 * coef > 0.0001 ∨ input pos * 0.5 * coef < -0.0001 then 0 else s)
        = s1 at hiter
      obtain ⟨tr, htr, hlen, hent⟩ := ih (pos + 2) o1 s1 (by omega) (by omega) hinv1
      refine ⟨(pos, o, s) :: tr, ?_, ?_, ?_⟩
      · simp only [processLoopTrace, if_pos hlt, hiter, hadd, htr]
      · simp only [List.length_cons, hlen]; omega
      · intro i e he
        cases i with
        | zero =>
          simp only [List.getElem?_cons_zero, Option.some.injEq] at he
          subst he
          exact ⟨by omega, hinv, fun h => absurd h (lt_irrefl 0), fun _ => rfl⟩
        | succ j =>
          rw [List.getElem?_cons_succ] at he
          obtain ⟨h1, h2, h3, h4⟩ := hent j e he
          refine ⟨by omega, h2, fun _ => ?_, fun h => by omega⟩
          rcases Nat.eq_zero_or_pos j with hj | hj
          · rw [h4 hj]; exact hst1
          · exact h3 hj
    · refine ⟨[], by simp only [processLoopTrace, if_neg hlt], ?_, ?_⟩
      · simp only [List.length_nil]; omega
      · intro i e h; simp at h

/-- An iteration of the processing loop depends on the input only through `input[0]`,
`input[pos]` and the signs of the two samples of the edge-flip condition. -/
theorem processIter_congr (rfuel : Nat) (input input1 : Nat → α) (coef : α) (pos : Nat)
    (o : Octaver α) (s : Nat) (h0 : input1 0 = input 0) (hpos : input1 pos = input pos)
    (hsign : ∀ i, input1 i < 0 ↔ input i < 0) :
    processIter rfuel input1 coef pos o s = processIter rfuel input coef pos o s := by
  have hfirst : firstRunStep input1 o = firstRunStep input o := by
    simp only [firstRunStep, h0]
  have hval : ∀ q : Octaver α, pushedFromInput input1 coef pos q
      = pushedFromInput input coef pos q := by
    intro q; simp only [pushedFromInput, hpos]
  have hge : ∀ i, input1 i ≥ 0 ↔ input i ≥ 0 := by
    intro i
    constructor
    · intro h; exact not_lt.mp (fun h2 => absurd ((hsign i).mpr h2) (not_lt.mpr h))
    · intro h; exact not_lt.mp (fun h2 => absurd ((hsign i).mp h2) (not_lt.mpr h))
  have hcond : ∀ (p : Nat) (q : Octaver α),
      edgeCondition input1 p q = edgeCondition input p q := by
    intro p q
    simp only [edgeCondition, hsign, hge]
  rw [processIter_eq, processIter_eq]
  simp only [hfirst, hval, hcond, hpos]

/-- An iteration of the processing loop leaves `pos` incremented once. -/
theorem processIter_pos (rfuel : Nat) (input : Nat → α) (coef : α) (pos : Nat)
    (o o1 : Octaver α) (s s1 pos1 : Nat)
    (h : processIter rfuel input coef pos o s = some (o1, s1, pos1)) :
    pos1 = u32add pos 1 := by
  rw [processIter_eq] at h
  split at h
  · split at h
    · simp at h
    · simp only [Option.some.injEq, Prod.mk.injEq] at h
      exact h.2.2.symm
  · simp only [Option.some.injEq, Prod.mk.injEq] at h
    exact h.2.2.symm

/-- The processing loop, entered with an even `pos`, depends on the odd-indexed input samples
only through their signs. -/
theorem processLoop_congr (rfuel : Nat) (input input1 : Nat → α) (coef : α) (n : Nat)
    (heven : ∀ i, i % 2 = 0 → input1 i = input i)
    (hodd : ∀ i, i % 2 = 1 → (input1 i < 0 ↔ input i < 0)) :
    ∀ (fuel pos : Nat) (o : Octaver α) (s : Nat), pos % 2 = 0 →
      processLoop rfuel input1 coef n fuel pos o s
        = processLoop rfuel input coef n fuel pos o s := by
  have hsign : ∀ i, input1 i < 0 ↔ input i < 0 := by
    intro i
    rcases Nat.mod_two_eq_zero_or_one i with h | h
    · rw [heven i h]
    · exact hodd i h
  intro fuel
  induction fuel with
  | zero => intro pos o s _; simp only [processLoop]
  | succ fuel ih =>
    intro pos o s hpar
    simp only [processLoop]
    rw [processIter_congr rfuel input input1 coef pos o s (heven 0 rfl) (heven pos hpar) hsign]
    split
    · cases hiter : processIter rfuel input coef pos o s with
      | none => rfl
      | some r =>
        obtain ⟨o1, s1, pos1⟩ := r
        have hp := processIter_pos _ _ _ _ _ _ _ _ _ hiter
        simp only
        exact ih _ o1 s1 (by rw [hp]; simp only [u32add]; omega)
    · rfl

theorem edgeTestReads_mem (input : Nat → α) (p : Nat) (st : PluginStatus) (j : Nat)
    (h : j ∈ edgeTestReads input p st) : j = p ∨ j = u32sub p 1 := by
  unfold edgeTestReads at h
  split at h
  · split at h
    · exact Or.inl (List.mem_singleton.mp h)
    · simpa only [List.mem_cons, List.mem_singleton, List.not_mem_nil, or_false] using h
  · split at h
    · split at h
      · exact Or.inl (List.mem_singleton.mp h)
      · simpa only [List.mem_cons, List.mem_singleton, List.not_mem_nil, or_false] using h
    · exact absurd h (List.not_mem_nil j)

theorem edgeTestReads_head (input : Nat → α) (p : Nat) (st : PluginStatus)
    (h : st ≠ PluginStatus.FIRST_RUN) : (edgeTestReads input p st).head? = some p := by
  unfold edgeTestReads
  cases st with
  | FIRST_RUN => exact absurd rfl h
  | RISING_EDGE => simp only [if_true]; split <;> rfl
  | FALLING_EDGE =>
    rw [if_neg (by decide), if_pos rfl]
    split <;> rfl

end TraceLemmas

section FirstPushLemmas

variable {α : Type} [LinearOrderedField α]

/-- The processing loop on a non-empty block whose counter cannot wrap, entered in a state
with well-formed indices: it returns, and the push history it leaves continues the one it was
entered with by the value pushed for `input[0]` in the first iteration. -/
theorem processLoop_first_push (input : Nat → α) (coef : α) (n fuel : Nat) (o : Octaver α)
    (hinv : Inv o) (hn : n + 1 < 4294967296) (hf : 8192 ≤ fuel) (hf2 : n ≤ 2 * fuel)
    (hn1 : 1 ≤ n) :
    ∃ o1 s1 rest, processLoop fuel input coef n fuel 0 o 1 = some (o1, s1) ∧
      o1.pushed = o.pushed ++ pushedFromInput input coef 0 (firstRunStep input o) :: rest := by
  obtain ⟨o1, s1, pos1, hloop, hge, hinv1, _, hpush⟩ :=
    processLoop_rule fuel input coef n
      (fun pos o1 _ => Inv o1 ∧ (pos = 0 → o1 = o) ∧
        (0 < pos → ∃ rest, o1.pushed
          = o.pushed ++ pushedFromInput input coef 0 (firstRunStep input o) :: rest))
      hn
      (by
        intro pos o2 s2 hpos ⟨hinv2, h0, hrest⟩
        obtain ⟨o3, s3, rest3, hiter, hp3, _⟩ :=
          processIter_push_flip fuel input coef pos o2 s2 hinv2 hf
        have hadd : u32add pos 1 = pos + 1 := by simp only [u32add]; omega
        rw [hadd] at hiter
        have hinv3 := processIter_inv _ _ _ _ _ _ _ _ _ hinv2 hiter
        refine ⟨o3, s3, hiter, hinv3, fun h => by omega, fun _ => ?_⟩
        rcases Nat.eq_zero_or_pos pos with hp | hp
        · subst hp
          rw [h0 rfl] at hp3
          exact ⟨rest3, hp3⟩
        · obtain ⟨rest, hr⟩ := hrest hp
          exact ⟨rest ++ pushedFromInput input coef pos (firstRunStep input o2) :: rest3, by
            rw [hp3, hr]; simp⟩)
      fuel 0 o 1 (by omega) ⟨hinv, fun _ => rfl, fun h => absurd h (lt_irrefl 0)⟩
  obtain ⟨rest, hr⟩ := hpush (by omega)
  exact ⟨o1, s1, rest, hloop, hr⟩

end FirstPushLemmas

/-! ## Concrete blocks on the fresh instance -/

section ScenarioLemmas

/-- A position of the output loop at which the buffer is non-empty raises
`inputBufferStart`. -/
theorem outputStep_start_pop {α : Type} [LinearOrderedField α] (input : Nat → α) (pos : Nat)
    (o : Octaver α) (hmax : o.inputBufferMaxSize = 8192) (hs : o.inputBufferStart < 8192)
    (he : o.inputBufferEnd < 8192) (hne : o.inputBufferStart ≠ o.inputBufferEnd) :
    (outputStep input pos o).1.inputBufferStart = (o.inputBufferStart + 1) % 8192 := by
  have hfill : getBufferFilledSize o > 0 := by
    rw [getBufferFilledSize_eq o hmax (by omega)]; omega
  simp only [outputStep, if_pos hfill, popBuffer, raiseIndex_eq _ o hmax]

/-- First iteration of the block `1, 1` on the fresh instance at gain 0 dB (coefficient 1):
the status becomes `RISING_EDGE`, the value `1` is pushed, no edge flips and `isSilence` is
cleared. -/
theorem processIter_fresh_loud :
    processIter 8192 (fun _ => (1 : ℚ)) (DB_CO (fun _ _ => (1 : ℚ)) 0) 0 instantiate 1
      = some (pushBuffer { (instantiate : Octaver ℚ) with
          PluginStatus := PluginStatus.RISING_EDGE } 1, 0, 1) := by
  have hcoef : DB_CO (fun _ _ => (1 : ℚ)) 0 = 1 := by norm_num [DB_CO]
  rw [hcoef, processIter_first_run _ _ _ _ _ _ rfl, processIter_noflip]
  · norm_num [instantiate, u32add]
  · norm_num [instantiate]
    decide
  · norm_num [edgeCondition, pushBuffer, instantiate, u32add, u32sub]
    decide

/-- The processing loop of the block `1, 1` on the fresh instance at gain 0 dB. -/
theorem processLoop_fresh_loud :
    processLoop 8192 (fun _ => (1 : ℚ)) (DB_CO (fun _ _ => (1 : ℚ)) 0) 2 8192 0 instantiate 1
      = some (pushBuffer { (instantiate : Octaver ℚ) with
          PluginStatus := PluginStatus.RISING_EDGE } 1, 0) := by
  rw [processLoop_step 8192 _ _ 2 8191 0 _ _ 1 0 1 (by omega) processIter_fresh_loud]
  exact processLoop_done _ _ _ _ _ _ _ _ (by decide)

/-- The block `1, 1` on the fresh instance at gain 0 dB: `run` returns without silence
reset; the pushed sample is popped at position 0. -/
theorem run_fresh_loud :
    run (fun _ _ => (1 : ℚ)) 8192 instantiate 0 (fun _ => 1) 2
      = some ((outputLoop (fun _ => (1 : ℚ)) 2 (pushBuffer { (instantiate : Octaver ℚ) with
            PluginStatus := PluginStatus.RISING_EDGE } 1)).1,
          (outputLoop (fun _ => (1 : ℚ)) 2 (pushBuffer { (instantiate : Octaver ℚ) with
            PluginStatus := PluginStatus.RISING_EDGE } 1)).2) :=
  run_two (fun _ _ => (1 : ℚ)) 8191 instantiate _ 0 (fun _ => (1 : ℚ)) processIter_fresh_loud

/-- The block `1, -1` after the block `1, 1`: the only iteration pushes `1`, the edge flips
and the two samples stored since the last flip are replayed inverted; the output loop then
pops two of the three unread samples. -/
theorem run_flip_block :
    ∃ o2 out, run (fun _ _ => (1 : ℚ)) 8192
        (outputLoop (fun _ => (1 : ℚ)) 2 (pushBuffer { (instantiate : Octaver ℚ) with
            PluginStatus := PluginStatus.RISING_EDGE } 1)).1 0
        (fun i => if i = 0 then 1 else -1) 2 = some (o2, out) ∧
      o2.inputBufferMaxSize = 8192 ∧ o2.inputBufferStart = 3 ∧ o2.inputBufferEnd = 4 ∧
      o2.inputBufferLastEdgeFlip = 4 ∧ o2.PluginStatus = PluginStatus.FALLING_EDGE ∧
      o2.pushed = [1, 1, -1, -1] := by
  have hcoef : DB_CO (fun _ _ => (1 : ℚ)) 0 = 1 := by norm_num [DB_CO]
  have hst : (outputLoop (fun _ => (1 : ℚ)) 2 (pushBuffer { (instantiate : Octaver ℚ) with
      PluginStatus := PluginStatus.RISING_EDGE } 1)).1.PluginStatus
        = PluginStatus.RISING_EDGE := by
    rw [outputLoop_status]; rfl
  obtain ⟨o3, hflip, hmax, hstart, hstatus, _, hend, hlef, hpushed, _, _⟩ :=
    edgeFlip_spec 8192
      (pushBuffer (outputLoop (fun _ => (1 : ℚ)) 2 (pushBuffer { (instantiate : Octaver ℚ) with
        PluginStatus := PluginStatus.RISING_EDGE } 1)).1 1)
      rfl (by decide) (by decide) (by decide)
  have hiter : processIter (8191 + 1) (fun i => if i = 0 then (1 : ℚ) else -1)
      (DB_CO (fun _ _ => (1 : ℚ)) 0) 0
      (outputLoop (fun _ => (1 : ℚ)) 2 (pushBuffer { (instantiate : Octaver ℚ) with
        PluginStatus := PluginStatus.RISING_EDGE } 1)).1 1 = some (o3, 0, 1) := by
    rw [hcoef, processIter_flip _ _ _ _ _ o3 _ (by rw [hst]; decide)]
    · norm_num [u32add]
    · rw [hst]
      norm_num [edgeCondition, u32add, u32sub]
      left
      rfl
    · rw [hst]
      norm_num
      exact hflip
  have hrun := run_two (fun _ _ => (1 : ℚ)) 8191 _ _ 0
    (fun i => if i = 0 then (1 : ℚ) else -1) hiter
  refine ⟨_, _, hrun, ?_, ?_, ?_, ?_, ?_, ?_⟩
  · rw [outputLoop_maxSize, hmax]
  · have hs3 : o3.inputBufferStart = 1 := by rw [hstart]; rfl
    have he3 : o3.inputBufferEnd = 4 := by rw [hend]; rfl
    have h0 := outputStep_start_pop (fun i => if i = 0 then (1 : ℚ) else -1) 0 o3 hmax
      (by omega) (by omega) (by omega)
    have h1 := outputStep_start_pop (fun i => if i = 0 then (1 : ℚ) else -1) 1
      (outputStep (fun i => if i = 0 then (1 : ℚ) else -1) 0 o3).1
      (by rw [outputStep_maxSize, hmax]) (by omega) (by rw [outputStep_end]; omega)
      (by rw [outputStep_end]; omega)
    rw [h0, hs3] at h1
    exact h1
  · rw [outputLoop_end, hend]; rfl
  · rw [outputLoop_flip, hlef, hend]; rfl
  · rw [outputLoop_status, hstatus]; rfl
  · rw [outputLoop_pushed, hpushed]
    have hk : ((pushBuffer (outputLoop (fun _ => (1 : ℚ)) 2
        (pushBuffer { (instantiate : Octaver ℚ) with
          PluginStatus := PluginStatus.RISING_EDGE } 1)).1 1).inputBufferEnd + 8192
        - (pushBuffer (outputLoop (fun _ => (1 : ℚ)) 2
        (pushBuffer { (instantiate : Octaver ℚ) with
          PluginStatus := PluginStatus.RISING_EDGE } 1)).1 1).inputBufferLastEdgeFlip) % 8192
        = 2 := by rfl
    rw [hk]
    simp [List.range_succ, pushBuffer, outputLoop_buffer, outputLoop_pushed, outputLoop_end,
      outputLoop_flip, instantiate, raiseIndex, u32add]

/-- A block of two zero samples after the block `1, 1`: the only iteration pushes `0`, no
edge flips, `isSilence` stays set and `run` ends with the silence reset. -/
theorem run_silent_block :
    ∃ o2 out, run (fun _ _ => (1 : ℚ)) 8192
        (outputLoop (fun _ => (1 : ℚ)) 2 (pushBuffer { (instantiate : Octaver ℚ) with
            PluginStatus := PluginStatus.RISING_EDGE } 1)).1 0
        (fun _ => 0) 2 = some (o2, out) ∧
      o2.PluginStatus = PluginStatus.FIRST_RUN ∧ o2.pushed = [1, 0] ∧
      o2.inputBuffer 0 = 1 := by
  have hcoef : DB_CO (fun _ _ => (1 : ℚ)) 0 = 1 := by norm_num [DB_CO]
  have hst : (outputLoop (fun _ => (1 : ℚ)) 2 (pushBuffer { (instantiate : Octaver ℚ) with
      PluginStatus := PluginStatus.RISING_EDGE } 1)).1.PluginStatus
        = PluginStatus.RISING_EDGE := by
    rw [outputLoop_status]; rfl
  have hiter : processIter 8192 (fun _ => (0 : ℚ)) (DB_CO (fun _ _ => (1 : ℚ)) 0) 0
      (outputLoop (fun _ => (1 : ℚ)) 2 (pushBuffer { (instantiate : Octaver ℚ) with
        PluginStatus := PluginStatus.RISING_EDGE } 1)).1 1
      = some (pushBuffer (outputLoop (fun _ => (1 : ℚ)) 2
          (pushBuffer { (instantiate : Octaver ℚ) with
            PluginStatus := PluginStatus.RISING_EDGE } 1)).1 0, 1, 1) := by
    rw [hcoef, processIter_noflip _ _ _ _ _ _ (by rw [hst]; decide)]
    · norm_num [u32add]
    · rw [hst]
      norm_num [edgeCondition, u32add, u32sub]
      intro h
      exact absurd h (by decide)
  have hloop : processLoop 8192 (fun _ => (0 : ℚ)) (DB_CO (fun _ _ => (1 : ℚ)) 0) 2 8192 0
      (outputLoop (fun _ => (1 : ℚ)) 2 (pushBuffer { (instantiate : Octaver ℚ) with
        PluginStatus := PluginStatus.RISING_EDGE } 1)).1 1
      = some (pushBuffer (outputLoop (fun _ => (1 : ℚ)) 2
          (pushBuffer { (instantiate : Octaver ℚ) with
            PluginStatus := PluginStatus.RISING_EDGE } 1)).1 0, 1) := by
    rw [processLoop_step 8192 _ _ 2 8191 0 _ _ 1 1 1 (by omega) hiter]
    exact processLoop_done _ _ _ _ _ _ _ _ (by decide)
  refine ⟨_, _, run_eq_of_processLoop _ 8192 _ _ 0 _ 2 1 hloop, ?_, ?_, ?_⟩
  · rfl
  · rw [if_pos (by decide)]
    simp only [silenceReset, outputLoop_pushed, pushBuffer]
    rfl
  · rw [if_pos (by decide)]
    simp only [silenceReset, outputLoop_buffer, pushBuffer, outputLoop_end]
    rfl

end ScenarioLemmas

/-! ## Claims -/

section Claims

variable {α : Type} [LinearOrderedField α]

/-- C1, as stated, fails when an empty block (length 0, an even length) is among the blocks:
for the square wave with `H = 2` at coefficient 1, processed from `instantiate` in blocks of
lengths 2, 0, 2, all hypotheses of the claim hold, the four processed input samples contain
one sign change, and the stream of pushed samples is `1, 1`, without any sign change in the
second input half period. -/
theorem C1_frequency_doubling_counterexample :
    2 % 2 = 0 ∧ 2 / 2 + 1 < 8192 ∧ 0 < DB_CO (fun _ _ => (1 : ℚ)) 0 ∧
    (∀ t, (t / 2) % 2 = 0 → 0 < squareWave 2 t) ∧
    (∀ t, (t / 2) % 2 = 1 → squareWave 2 t < 0) ∧
    (∀ t, 0.0001 < |squareWave 2 t * 0.5 * DB_CO (fun _ _ => (1 : ℚ)) 0|) ∧
    (∀ n ∈ [2, 0, 2], n % 2 = 0) ∧
    signChanges ((List.range 4).map (squareWave 2)) = 1 ∧
    ∃ o, runBlocks (fun _ _ => (1 : ℚ)) 8192 0 (squareWave 2) [2, 0, 2] 0 instantiate = some o ∧
      o.pushed = [1, 1] ∧ signChanges o.pushed = 0 := by
  have hcoef : DB_CO (fun _ _ => (1 : ℚ)) 0 = 1 := by norm_num [DB_CO]
  have hwave : ∀ t, squareWave 2 t = 1 ∨ squareWave 2 t = -1 := by
    intro t
    unfold squareWave
    split
    · exact Or.inl rfl
    · exact Or.inr rfl
  have hiter1 : processIter (8191 + 1) (fun i => squareWave 2 (0 + i))
      (DB_CO (fun _ _ => (1 : ℚ)) 0) 0 instantiate 1
      = some (pushBuffer { (instantiate : Octaver ℚ) with
          PluginStatus := PluginStatus.RISING_EDGE } 1, 0, 1) := by
    rw [hcoef, processIter_first_run _ _ _ _ _ _ rfl, processIter_noflip]
    · norm_num [instantiate, u32add, squareWave]
    · norm_num [instantiate, squareWave]
      decide
    · norm_num [edgeCondition, pushBuffer, instantiate, squareWave, u32add, u32sub]
      decide
  have hrun1 := run_two (fun _ _ => (1 : ℚ)) 8191 instantiate _ 0
    (fun i => squareWave 2 (0 + i)) hiter1
  have hiter3 : ∀ o : Octaver ℚ, processIter (8191 + 1) (fun i => squareWave 2 (0 + 2 + 0 + i))
      (DB_CO (fun _ _ => (1 : ℚ)) 0) 0 (silenceReset o) 1
      = some (pushBuffer { silenceReset o with
          PluginStatus := PluginStatus.FALLING_EDGE } 1, 0, 1) := by
    intro o
    rw [hcoef, processIter_first_run _ _ _ _ _ _ rfl, processIter_noflip]
    · have hne : ¬ PluginStatus.FALLING_EDGE = PluginStatus.RISING_EDGE := by decide
      norm_num [silenceReset, u32add, squareWave, hne]
    · norm_num [silenceReset, squareWave]
      decide
    · have hne : ¬ PluginStatus.FALLING_EDGE = PluginStatus.RISING_EDGE := by decide
      norm_num [edgeCondition, pushBuffer, silenceReset, squareWave, u32add, u32sub, hne]
  have hrun3 := fun o : Octaver ℚ => run_two (fun _ _ => (1 : ℚ)) 8191 (silenceReset o) _ 0
    (fun i => squareWave 2 (0 + 2 + 0 + i)) (hiter3 o)
  refine ⟨by decide, by decide, by rw [hcoef]; norm_num, ?_, ?_, ?_, by decide, ?_, ?_⟩
  · intro t ht
    simp [squareWave, ht]
  · intro t ht
    simp [squareWave, ht]
  · intro t
    rw [hcoef]
    rcases hwave t with h | h <;> rw [h] <;> norm_num [abs_of_neg, abs_of_pos]
  · norm_num [List.range_succ, signChanges, squareWave]
  · have hrb : ∃ o, runBlocks (fun _ _ => (1 : ℚ)) 8192 0 (squareWave 2) [2, 0, 2] 0
        instantiate = some o ∧ o.pushed = [1, 1] := by
      simp only [runBlocks]
      rw [show (8192 : Nat) = 8191 + 1 from rfl, hrun1]
      simp only [run_empty, hrun3]
      refine ⟨_, rfl, ?_⟩
      simp only [outputLoop_pushed, pushBuffer, silenceReset, instantiate]
      rfl
    obtain ⟨o, hrun, hpushed⟩ := hrb
    refine ⟨o, hrun, hpushed, ?_⟩
    rw [hpushed]
    norm_num [signChanges]

/-- C1 (frequency doubling, amended): let the signal `x` be strictly positive in the even and
strictly negative in the odd half periods of `H` samples (`H` even, `H / 2 + 1 < 8192`), with
gain coefficient `> 0` and every scaled sample above the silence threshold, and let it be
processed by `run` from the `instantiate` state in non-empty blocks of even length.  Then
every call returns, and after any number of blocks, `N` samples in total, the stream of
samples pushed into the ring buffer has `2 * ((N - 1) / H)` sign changes, twice as many as
the `N` input samples processed so far: none during the first half wave and exactly two more
in each further input half period. -/
theorem C1_frequency_doubling_amended (powf : α → α → α) (fuel : Nat) (gain : α) (x : Nat → α)
    (H : Nat) (ns : List Nat) (hH2 : H % 2 = 0) (hH0 : 0 < H) (hcap : H / 2 + 1 < 8192)
    (hcoef : 0 < DB_CO powf gain)
    (hpos : ∀ t, (t / H) % 2 = 0 → 0 < x t) (hneg : ∀ t, (t / H) % 2 = 1 → x t < 0)
    (hamp : ∀ t, 0.0001 < |x t * 0.5 * DB_CO powf gain|)
    (hblocks : ∀ n ∈ ns, n % 2 = 0 ∧ 0 < n ∧ n < 4294967296 ∧ n ≤ 2 * fuel)
    (hfuel : 8192 ≤ fuel) :
    ∃ o, runBlocks powf fuel gain x ns 0 instantiate = some o ∧
      signChanges o.pushed = 2 * ((ns.sum - 1) / H) ∧
      signChanges ((List.range ns.sum).map x) = (ns.sum - 1) / H ∧
      signChanges o.pushed = 2 * signChanges ((List.range ns.sum).map x) := by
  obtain ⟨h, hHh⟩ : ∃ h, H = 2 * h := ⟨H / 2, by omega⟩
  have hh : 0 < h := by omega
  have hdivq : ∀ q r, r < h → (2 * (q * h + r)) / H = q ∧ (2 * (q * h + r) + 1) / H = q := by
    intro q r hr
    have hm : q * H = 2 * (q * h) := by rw [hHh]; ring
    have hm1 : (q + 1) * H = 2 * (q * h) + 2 * h := by rw [hHh]; ring
    constructor
    · exact Nat.div_eq_of_lt_le (by omega) (by omega)
    · exact Nat.div_eq_of_lt_le (by omega) (by omega)
  have hx : ∀ q r, r < h →
      ((q % 2 = 0 → 0 < x (2 * (q * h + r))) ∧ (q % 2 = 1 → x (2 * (q * h + r)) < 0)) ∧
      ((q % 2 = 0 → 0 < x (2 * (q * h + r) + 1)) ∧
        (q % 2 = 1 → x (2 * (q * h + r) + 1) < 0)) := by
    intro q r hr
    obtain ⟨d1, d2⟩ := hdivq q r hr
    exact ⟨⟨fun hq => hpos _ (by rw [d1]; exact hq), fun hq => hneg _ (by rw [d1]; exact hq)⟩,
      ⟨fun hq => hpos _ (by rw [d2]; exact hq), fun hq => hneg _ (by rw [d2]; exact hq)⟩⟩
  obtain ⟨o, hrun, hP⟩ := runBlocks_doubling powf fuel gain x h hh (by omega) hcoef hx hamp
    hfuel ns 0 instantiate
    (fun n hn => ⟨(hblocks n hn).1, (hblocks n hn).2.1,
      by have := (hblocks n hn).1; have := (hblocks n hn).2.2.1; omega, (hblocks n hn).2.2.2⟩)
    (Or.inl ⟨rfl, rfl, instantiate_inv, rfl, rfl⟩)
  have hin := squareWave_signChanges x H hpos hneg ns.sum
  have heven := sum_even_of_forall_even ns (fun n hn => (hblocks n hn).1)
  have hcount : signChanges o.pushed = 2 * ((ns.sum - 1) / H) := by
    rcases hP with ⟨hJ, _, _, _, hpushed⟩ | ⟨q, r, hr, hJ, _, _, _, _, _, hsc⟩
    · have hz : ns.sum - 1 = 0 := by omega
      rw [hpushed, hz, Nat.zero_div]
      rfl
    · have hm : q * H = 2 * (q * h) := by rw [hHh]; ring
      have hm1 : (q + 1) * H = 2 * (q * h) + 2 * h := by rw [hHh]; ring
      have hq : (ns.sum - 1) / H = q := Nat.div_eq_of_lt_le (by omega) (by omega)
      rw [hsc, hq]
  exact ⟨o, by simpa using hrun, hcount, hin, by rw [hcount, hin]⟩

/-- Witness for the amended C1: the square wave with `H = 4` at coefficient 1, processed in
two blocks of four samples. -/
theorem C1_frequency_doubling_amended_witness :
    4 % 2 = 0 ∧ 0 < 4 ∧ 4 / 2 + 1 < 8192 ∧ 0 < DB_CO (fun _ _ => (1 : ℚ)) 0 ∧
    (∀ t, (t / 4) % 2 = 0 → 0 < squareWave 4 t) ∧
    (∀ t, (t / 4) % 2 = 1 → squareWave 4 t < 0) ∧
    (∀ t, 0.0001 < |squareWave 4 t * 0.5 * DB_CO (fun _ _ => (1 : ℚ)) 0|) ∧
    (∀ n ∈ [4, 4], n % 2 = 0 ∧ 0 < n ∧ n < 4294967296 ∧ n ≤ 2 * 8192) ∧ 8192 ≤ 8192 ∧
    ∃ o, runBlocks (fun _ _ => (1 : ℚ)) 8192 0 (squareWave 4) [4, 4] 0 instantiate = some o ∧
      signChanges o.pushed = 2 * (([4, 4].sum - 1) / 4) ∧
      signChanges ((List.range [4, 4].sum).map (squareWave 4)) = ([4, 4].sum - 1) / 4 ∧
      signChanges o.pushed = 2 * signChanges ((List.range [4, 4].sum).map (squareWave 4)) := by
  have hcoef : DB_CO (fun _ _ => (1 : ℚ)) 0 = 1 := by norm_num [DB_CO]
  have hpos : ∀ t, (t / 4) % 2 = 0 → 0 < squareWave 4 t := by
    intro t ht
    simp [squareWave, ht]
  have hneg : ∀ t, (t / 4) % 2 = 1 → squareWave 4 t < 0 := by
    intro t ht
    simp [squareWave, ht]
  have hamp : ∀ t, 0.0001 < |squareWave 4 t * 0.5 * DB_CO (fun _ _ => (1 : ℚ)) 0| := by
    intro t
    rw [hcoef]
    unfold squareWave
    split <;> norm_num [abs_of_neg, abs_of_pos]
  have hblocks : ∀ n ∈ [4, 4], n % 2 = 0 ∧ 0 < n ∧ n < 4294967296 ∧ n ≤ 2 * 8192 := by
    intro n hn
    simp only [List.mem_cons, List.mem_singleton, List.not_mem_nil, or_false, or_self] at hn
    subst hn
    decide
  exact ⟨by decide, by decide, by decide, by rw [hcoef]; norm_num, hpos, hneg, hamp, hblocks,
    le_refl _,
    C1_frequency_doubling_amended (fun _ _ => (1 : ℚ)) 8192 0 (squareWave 4) 4 [4, 4]
      (by decide) (by decide) (by decide) (by rw [hcoef]; norm_num) hpos hneg hamp hblocks
      (le_refl _)⟩

/-- C2 (mixed output): at every position `pos` of the output loop of `run` at which
`getBufferFilledSize > 0`, `output[pos]` is `popped * 0.75 + input[pos] * 0.25`, where `popped`
is the sample stored at `inputBufferStart`, and `getBufferFilledSize` is one less after that
position than before it. -/
theorem C2_mixed_output (input : Nat → α) (o : Octaver α) (n pos : Nat)
    (hmax : o.inputBufferMaxSize = 8192)
    (hs : o.inputBufferStart < 4294967296)
    (hpos : pos < n)
    (hfill : getBufferFilledSize (outputLoop input pos o).1 > 0) :
    (outputLoop input n o).2[pos]?
        = some ((outputLoop input pos o).1.inputBuffer
              (outputLoop input pos o).1.inputBufferStart * 0.75 + input pos * 0.25) ∧
      getBufferFilledSize (outputLoop input (pos + 1) o).1 + 1
        = getBufferFilledSize (outputLoop input pos o).1 := by
  have hmax1 : (outputLoop input pos o).1.inputBufferMaxSize = 8192 := by
    rw [outputLoop_maxSize, hmax]
  have hs1 := outputLoop_start_lt input pos o hmax hs
  refine ⟨?_, ?_⟩
  · rw [outputLoop_getElem? input n pos o hpos]
    simp only [outputStep, if_pos hfill, popBuffer]
  · have hstep : (outputLoop input (pos + 1) o).1
        = (popBuffer (outputLoop input pos o).1).2 := by
      simp only [outputLoop, outputStep, if_pos hfill]
    rw [hstep]
    rw [getBufferFilledSize_eq _ hmax1 hs1] at hfill ⊢
    have hr := raiseIndex_eq (outputLoop input pos o).1.inputBufferStart
      (outputLoop input pos o).1 hmax1
    rw [getBufferFilledSize_eq (popBuffer (outputLoop input pos o).1).2 hmax1
      (by simp only [popBuffer]; rw [hr]; omega)]
    simp only [popBuffer]
    rw [hr]
    omega

/-- Witness for C2: one sample `1` pushed onto the fresh instance, dry input `2`. -/
theorem C2_mixed_output_witness :
    (pushBuffer (instantiate : Octaver ℚ) 1).inputBufferMaxSize = 8192 ∧
    (pushBuffer (instantiate : Octaver ℚ) 1).inputBufferStart < 4294967296 ∧
    0 < 1 ∧
    getBufferFilledSize
      (outputLoop (fun _ => (2 : ℚ)) 0 (pushBuffer (instantiate : Octaver ℚ) 1)).1 > 0 ∧
    ((outputLoop (fun _ => (2 : ℚ)) 1 (pushBuffer (instantiate : Octaver ℚ) 1)).2[0]?
        = some ((outputLoop (fun _ => (2 : ℚ)) 0
              (pushBuffer (instantiate : Octaver ℚ) 1)).1.inputBuffer
            (outputLoop (fun _ => (2 : ℚ)) 0
              (pushBuffer (instantiate : Octaver ℚ) 1)).1.inputBufferStart * 0.75
            + (fun _ => (2 : ℚ)) 0 * 0.25) ∧
      getBufferFilledSize
          (outputLoop (fun _ => (2 : ℚ)) (0 + 1) (pushBuffer (instantiate : Octaver ℚ) 1)).1 + 1
        = getBufferFilledSize
          (outputLoop (fun _ => (2 : ℚ)) 0 (pushBuffer (instantiate : Octaver ℚ) 1)).1) :=
  ⟨rfl, by decide, by decide, by decide,
    C2_mixed_output (fun _ => (2 : ℚ)) (pushBuffer (instantiate : Octaver ℚ) 1) 1 0 rfl
      (by decide) (by decide) (by decide)⟩

/-- C3 (underrun fallback): at every position `pos` of the output loop of `run` at which
`getBufferFilledSize == 0`, `output[pos]` is `input[pos] * 0.25` and the state (indices and
stored samples) is left unchanged by that position. -/
theorem C3_underrun_fallback (input : Nat → α) (o : Octaver α) (n pos : Nat)
    (hpos : pos < n)
    (hfill : getBufferFilledSize (outputLoop input pos o).1 = 0) :
    (outputLoop input n o).2[pos]? = some (input pos * 0.25) ∧
      (outputLoop input (pos + 1) o).1 = (outputLoop input pos o).1 := by
  have hnot : ¬ getBufferFilledSize (outputLoop input pos o).1 > 0 := by omega
  refine ⟨?_, ?_⟩
  · rw [outputLoop_getElem? input n pos o hpos]
    simp only [outputStep, if_neg hnot]
  · simp only [outputLoop, outputStep, if_neg hnot]

/-- Witness for C3: the fresh instance has nothing buffered. -/
theorem C3_underrun_fallback_witness :
    0 < 1 ∧
    getBufferFilledSize (outputLoop (fun _ => (2 : ℚ)) 0 (instantiate : Octaver ℚ)).1 = 0 ∧
    ((outputLoop (fun _ => (2 : ℚ)) 1 (instantiate : Octaver ℚ)).2[0]?
        = some ((fun _ => (2 : ℚ)) 0 * 0.25) ∧
      (outputLoop (fun _ => (2 : ℚ)) (0 + 1) (instantiate : Octaver ℚ)).1
        = (outputLoop (fun _ => (2 : ℚ)) 0 (instantiate : Octaver ℚ)).1) :=
  ⟨by decide, by decide,
    C3_underrun_fallback (fun _ => (2 : ℚ)) (instantiate : Octaver ℚ) 1 0 (by decide)
      (by decide)⟩

/-- C4 (silence scenario): from every state with well-formed indices (in particular every
reachable one, with any status, indices and buffer contents), for any gain, `run` on a block
consisting only of zero samples returns and leaves `inputBufferStart == inputBufferEnd ==
inputBufferLastEdgeFlip == 0` and `PluginStatus == FIRST_RUN`. -/
theorem C4_silence_scenario (powf : α → α → α) (fuel : Nat) (o : Octaver α) (gain : α)
    (input : Nat → α) (n : Nat) (hinv : Inv o) (hn : n + 1 < 4294967296) (hf : 8192 ≤ fuel)
    (hf2 : n ≤ 2 * fuel) (hzero : ∀ i, i < n → input i = 0) :
    ∃ o1 out, run powf fuel o gain input n = some (o1, out) ∧
      o1.inputBufferStart = 0 ∧ o1.inputBufferEnd = 0 ∧ o1.inputBufferLastEdgeFlip = 0 ∧
      o1.PluginStatus = PluginStatus.FIRST_RUN := by
  obtain ⟨o1, out, hrun, hiff⟩ := run_reset_iff powf fuel o gain input n hinv hn hf hf2
  have hr : IsReset o1 := by
    rw [hiff]
    intro i hi
    rw [hzero (2 * i) hi]
    norm_num
  exact ⟨o1, out, hrun, hr.2.1, hr.2.2.1, hr.2.2.2, hr.1⟩

/-- Witness for C4: a block of four zero samples after three samples were pushed. -/
theorem C4_silence_scenario_witness :
    Inv (pushBuffer (pushBuffer (pushBuffer (instantiate : Octaver ℚ) 1) 2) 3) ∧
    4 + 1 < 4294967296 ∧ 8192 ≤ 8192 ∧ 4 ≤ 2 * 8192 ∧
    (∀ i, i < 4 → (fun _ => (0 : ℚ)) i = 0) ∧
    ∃ o1 out, run (fun _ _ => (1 : ℚ)) 8192
        (pushBuffer (pushBuffer (pushBuffer (instantiate : Octaver ℚ) 1) 2) 3) 0
        (fun _ => (0 : ℚ)) 4 = some (o1, out) ∧
      o1.inputBufferStart = 0 ∧ o1.inputBufferEnd = 0 ∧ o1.inputBufferLastEdgeFlip = 0 ∧
      o1.PluginStatus = PluginStatus.FIRST_RUN :=
  ⟨pushBuffer_inv _ _ (pushBuffer_inv _ _ (pushBuffer_inv _ _ instantiate_inv)),
    by decide, by decide, by decide, fun _ _ => rfl,
    C4_silence_scenario (fun _ _ => (1 : ℚ)) 8192
      (pushBuffer (pushBuffer (pushBuffer (instantiate : Octaver ℚ) 1) 2) 3) 0
      (fun _ => (0 : ℚ)) 4
      (pushBuffer_inv _ _ (pushBuffer_inv _ _ (pushBuffer_inv _ _ instantiate_inv)))
      (by decide) (by decide) (by decide) (fun _ _ => rfl)⟩

/-- C5, as stated, fails: on the fresh instance with coefficient 1, the two-sample block
`0.00015, 0.00015` makes `run` perform the silence reset although the combined value
`value1 + value2 = 0.00015` does not have magnitude below `0.0001`. -/
theorem C5_silence_threshold_counterexample :
    (∃ o1 out, run (fun _ _ => (1 : ℚ)) 8192 instantiate 0 (fun _ => 0.00015) 2
        = some (o1, out) ∧ IsReset o1) ∧
    ¬ (∀ i, 2 * i < 2 →
        |(fun _ => (0.00015 : ℚ)) (2 * i) * 0.5 * DB_CO (fun _ _ => (1 : ℚ)) 0
          + (fun _ => (0.00015 : ℚ)) (2 * i) * 0.5 * DB_CO (fun _ _ => (1 : ℚ)) 0| < 0.0001) := by
  constructor
  · obtain ⟨o1, out, hrun, hiff⟩ := run_reset_iff (fun _ _ => (1 : ℚ)) 8192 instantiate 0
      (fun _ => 0.00015) 2 instantiate_inv (by decide) (by decide) (by decide)
    refine ⟨o1, out, hrun, hiff.mpr ?_⟩
    intro i _
    norm_num [DB_CO, abs_le]
  · intro h
    have h0 := h 0 (by decide)
    norm_num [DB_CO, abs_lt] at h0

/-- C5 (silence threshold, amended): `run` performs the silence reset at the end of a block
if and only if every half value `value1 = value2 = input[pos] * 0.5 * coef` computed in that
block has magnitude at most `0.0001`; equivalently, every combined value `value1 + value2`
has magnitude at most `0.0002`. -/
theorem C5_silence_threshold_amended (powf : α → α → α) (fuel : Nat) (o : Octaver α) (gain : α)
    (input : Nat → α) (n : Nat) (hinv : Inv o) (hn : n + 1 < 4294967296) (hf : 8192 ≤ fuel)
    (hf2 : n ≤ 2 * fuel) :
    ∃ o1 out, run powf fuel o gain input n = some (o1, out) ∧
      (IsReset o1 ↔ ∀ i, 2 * i < n → |input (2 * i) * 0.5 * DB_CO powf gain| ≤ 0.0001) ∧
      (IsReset o1 ↔ ∀ i, 2 * i < n →
        |input (2 * i) * 0.5 * DB_CO powf gain + input (2 * i) * 0.5 * DB_CO powf gain|
          ≤ 0.0002) := by
  obtain ⟨o1, out, hrun, hiff⟩ := run_reset_iff powf fuel o gain input n hinv hn hf hf2
  refine ⟨o1, out, hrun, hiff, ?_⟩
  rw [hiff]
  have key : ∀ v : α, |v + v| ≤ 0.0002 ↔ |v| ≤ 0.0001 := by
    intro v
    rw [abs_le, abs_le]
    constructor
    · intro h; constructor <;> [skip; skip] <;> norm_num at h ⊢ <;> linarith [h.1, h.2]
    · intro h; constructor <;> [skip; skip] <;> norm_num at h ⊢ <;> linarith [h.1, h.2]
  constructor
  · intro h i hi; exact (key _).mpr (h i hi)
  · intro h i hi; exact (key _).mp (h i hi)

/-- Witness for the amended C5: the fresh instance and a block of two samples `1`. -/
theorem C5_silence_threshold_amended_witness :
    Inv (instantiate : Octaver ℚ) ∧ 2 + 1 < 4294967296 ∧ 8192 ≤ 8192 ∧ 2 ≤ 2 * 8192 ∧
    ∃ o1 out, run (fun _ _ => (1 : ℚ)) 8192 instantiate 0 (fun _ => 1) 2 = some (o1, out) ∧
      (IsReset o1 ↔ ∀ i, 2 * i < 2 →
        |(fun _ => (1 : ℚ)) (2 * i) * 0.5 * DB_CO (fun _ _ => (1 : ℚ)) 0| ≤ 0.0001) ∧
      (IsReset o1 ↔ ∀ i, 2 * i < 2 →
        |(fun _ => (1 : ℚ)) (2 * i) * 0.5 * DB_CO (fun _ _ => (1 : ℚ)) 0
          + (fun _ => (1 : ℚ)) (2 * i) * 0.5 * DB_CO (fun _ _ => (1 : ℚ)) 0| ≤ 0.0002) :=
  ⟨instantiate_inv, by decide, by decide, by decide,
    C5_silence_threshold_amended (fun _ _ => (1 : ℚ)) 8192 instantiate 0 (fun _ => 1) 2
      instantiate_inv (by decide) (by decide) (by decide)⟩

/-- C6 (ring-buffer invariant): every state reachable from `instantiate` by `run` calls has
`inputBufferStart`, `inputBufferEnd`, `inputBufferLastEdgeFlip < 8192`; in every such state
`getBufferFilledSize < 8192` and the `uint32_t` expression `(end + capacity) - start` neither
overflows nor underflows; and the property is kept at every intermediate point of `run`:
by each `pushBuffer`, each `popBuffer`, each pass of the replay loop, each iteration of the
processing loop and each position of the output loop.  From a reachable state `run` returns
for every block whose loop counter cannot wrap. -/
theorem C6_ring_buffer_invariant (powf : α → α → α) :
    (∀ o, Reachable powf o → Inv o) ∧
    (∀ o : Octaver α, Inv o →
      o.inputBufferStart < 8192 ∧ o.inputBufferEnd < 8192 ∧
      o.inputBufferLastEdgeFlip < 8192 ∧ getBufferFilledSize o < 8192 ∧
      o.inputBufferEnd + o.inputBufferMaxSize < 4294967296 ∧
      o.inputBufferStart ≤ o.inputBufferEnd + o.inputBufferMaxSize ∧
      getBufferFilledSize o
        = (o.inputBufferEnd + o.inputBufferMaxSize - o.inputBufferStart)
            % o.inputBufferMaxSize) ∧
    (∀ (o : Octaver α) (x : α), Inv o → Inv (pushBuffer o x)) ∧
    (∀ o : Octaver α, Inv o → Inv (popBuffer o).2) ∧
    (∀ (bufferEnd fuel : Nat) (o o1 : Octaver α), Inv o →
      replayLoop bufferEnd fuel o = some o1 → Inv o1) ∧
    (∀ (rfuel : Nat) (input : Nat → α) (coef : α) (pos : Nat) (o o1 : Octaver α)
      (s s1 pos1 : Nat), Inv o →
      processIter rfuel input coef pos o s = some (o1, s1, pos1) → Inv o1) ∧
    (∀ (input : Nat → α) (n : Nat) (o : Octaver α), Inv o → Inv (outputLoop input n o).1) ∧
    (∀ (o : Octaver α) (fuel : Nat) (gain : α) (input : Nat → α) (n : Nat),
      Reachable powf o → n + 1 < 4294967296 → 8192 ≤ fuel → n ≤ 2 * fuel →
      ∃ r, run powf fuel o gain input n = some r) := by
  refine ⟨reachable_inv powf, ?_, pushBuffer_inv, popBuffer_inv,
    fun b f o o1 h hr => replayLoop_inv b f o o1 h hr,
    fun rf inp c pos o o1 s s1 pos1 h hr => processIter_inv rf inp c pos o o1 s s1 pos1 h hr,
    fun inp n o h => outputLoop_inv inp n o h, ?_⟩
  · intro o ⟨hmax, hs, he, hl⟩
    refine ⟨hs, he, hl, ?_, by omega, by omega, ?_⟩
    · rw [getBufferFilledSize_eq o hmax (by omega)]; omega
    · rw [getBufferFilledSize_eq o hmax (by omega), hmax]; omega
  · intro o fuel gain input n hr hn hf hf2
    obtain ⟨o1, out, hrun, _⟩ :=
      run_reset_iff powf fuel o gain input n (reachable_inv powf o hr) hn hf hf2
    exact ⟨_, hrun⟩

/-- Witness for C6: the state reached from the fresh instance by the block `1, 1` followed
by the block `1, -1` (one edge flip with a replay of two samples): it has
`inputBufferStart = 3`, `inputBufferEnd = inputBufferLastEdgeFlip = 4` and one unread sample;
the invariant holds there and after a push, a pop, a replay loop, an iteration of the
processing loop and an output loop, and `run` returns from it on a block of four samples. -/
theorem C6_ring_buffer_invariant_witness :
    ∃ o1 out1 o2 out2,
      run (fun _ _ => (1 : ℚ)) 8192 instantiate 0 (fun _ => 1) 2 = some (o1, out1) ∧
      run (fun _ _ => (1 : ℚ)) 8192 o1 0 (fun i => if i = 0 then 1 else -1) 2
        = some (o2, out2) ∧
      Reachable (fun _ _ => (1 : ℚ)) o2 ∧
      o2.inputBufferStart = 3 ∧ o2.inputBufferEnd = 4 ∧ o2.inputBufferLastEdgeFlip = 4 ∧
      o2.pushed = [1, 1, -1, -1] ∧ getBufferFilledSize o2 = 1 ∧
      Inv o2 ∧ getBufferFilledSize o2 < 8192 ∧
      o2.inputBufferEnd + o2.inputBufferMaxSize < 4294967296 ∧
      o2.inputBufferStart ≤ o2.inputBufferEnd + o2.inputBufferMaxSize ∧
      Inv (pushBuffer o2 5) ∧ Inv (popBuffer o2).2 ∧
      (∃ o4, replayLoop 5 8192 (pushBuffer o2 5) = some o4 ∧ Inv o4) ∧
      (∃ o3 s3 pos3, processIter 8192 (fun _ => 1) 1 0 o2 1 = some (o3, s3, pos3) ∧ Inv o3) ∧
      Inv (outputLoop (fun _ => 1) 4 o2).1 ∧
      4 + 1 < 4294967296 ∧ 8192 ≤ 8192 ∧ 4 ≤ 2 * 8192 ∧
      ∃ r, run (fun _ _ => (1 : ℚ)) 8192 o2 0 (fun _ => 1) 4 = some r := by
  obtain ⟨o2, out2, hrun2, hmax, hs, he, hl, _, hp⟩ := run_flip_block
  have hreach : Reachable (fun _ _ => (1 : ℚ)) o2 :=
    Reachable.step 8192 0 _ 2 (Reachable.step 8192 0 _ 2 Reachable.init run_fresh_loud) hrun2
  obtain ⟨hreachable, hbounds, hpush, hpop, hreplay, hiter, hout, hret⟩ :=
    C6_ring_buffer_invariant (fun _ _ => (1 : ℚ))
  have hinv : Inv o2 := hreachable o2 hreach
  obtain ⟨_, _, _, hfill, hover, hunder, _⟩ := hbounds o2 hinv
  obtain ⟨o3, hiter3, _⟩ := processIter_spec 8192 (fun _ => (1 : ℚ)) 1 0 o2 1 hinv (le_refl _)
  have hend5 : (pushBuffer o2 5).inputBufferEnd = 5 := by
    show raiseIndex o2.inputBufferEnd o2 = 5
    rw [raiseIndex_eq _ o2 hmax, he]
  obtain ⟨o4, hreplay4, _⟩ := replayLoop_spec 5 (by decide) 1 8192 (pushBuffer o2 5) hmax
    (by show o2.inputBufferLastEdgeFlip < 8192; omega) (by omega)
    (by show (o2.inputBufferLastEdgeFlip + 1) % 8192 = 5; rw [hl]) (by rw [hend5]; decide)
    (by decide)
  refine ⟨_, _, o2, out2, run_fresh_loud, hrun2, hreach, hs, he, hl, hp, ?_, hinv, hfill,
    hover, hunder, hpush o2 5 hinv, hpop o2 hinv,
    ⟨o4, hreplay4, hreplay 5 8192 _ o4 (hpush o2 5 hinv) hreplay4⟩,
    ⟨o3, _, _, hiter3, hiter 8192 _ 1 0 o2 o3 1 _ _ hinv hiter3⟩, hout _ 4 o2 hinv,
    by decide, by decide, by decide,
    hret o2 8192 0 (fun _ => 1) 4 hreach (by decide) (by decide) (by decide)⟩
  rw [getBufferFilledSize_eq o2 hmax (by omega), hs, he]

end Claims

section RingBufferClaims

variable {α : Type}

/-- C7, as stated, fails: after pushing `0, 1, ..., 8192` onto the fresh (empty) buffer, 8192
pops do not return `1, 2, ..., 8192`; the first pop returns `8192`. -/
theorem C7_wraparound_counterexample :
    (popMany 8192 (pushAll (instantiate : Octaver ℚ)
        ((List.range 8193).map (fun i : Nat => (i : ℚ))))).1
      ≠ ((List.range 8193).map (fun i : Nat => (i : ℚ))).tail := by
  intro h
  have hp := pushAll_spec ((List.range 8193).map (fun i : Nat => (i : ℚ)))
    (instantiate : Octaver ℚ) rfl (by decide)
  obtain ⟨h1, h2, _, h4, _⟩ := hp
  have hpop := popMany_spec 8192 (pushAll (instantiate : Octaver ℚ)
    ((List.range 8193).map (fun i : Nat => (i : ℚ)))) h1 (by rw [h2]; decide)
  rw [hpop] at h
  have h0 := congrArg (fun l => l[0]?) h
  have h8 := h4 8192 (by simp) (by simp)
  simp only [List.getElem?_map, List.getElem?_range (show 0 < 8192 by decide),
    Option.map_some', h2, List.getElem?_tail,
    List.getElem?_range (show 0 + 1 < 8193 by decide)] at h0
  simp only [List.getElem?_map, List.getElem?_range (show 8192 < 8193 by decide),
    Option.map_some'] at h8
  have hz : ((instantiate : Octaver ℚ).inputBufferEnd + 8192) % 8192
      = ((instantiate : Octaver ℚ).inputBufferStart + 0) % 8192 := by decide
  rw [hz] at h8
  rw [h8] at h0
  norm_num at h0

/-- C7 (buffer wraparound, amended): starting from an empty ring buffer (`start == end`) of
capacity 8192, `capacity + 1` pushes of `s_0, ..., s_capacity` followed by `capacity` pops
return `s_capacity, s_1, s_2, ..., s_(capacity-1)` in that order: `s_0` was overwritten by
`s_capacity`, which is returned first. -/
theorem C7_wraparound_amended (o : Octaver α) (samples : List α)
    (hmax : o.inputBufferMaxSize = 8192) (hempty : o.inputBufferStart = o.inputBufferEnd)
    (he : o.inputBufferEnd < 8192) (hlen : samples.length = 8192 + 1) :
    (popMany 8192 (pushAll o samples)).1.length = 8192 ∧
    ∀ i, i < 8192 →
      (popMany 8192 (pushAll o samples)).1[i]? = samples[if i = 0 then 8192 else i]? := by
  obtain ⟨h1, h2, _, h4, _⟩ := pushAll_spec samples o hmax he
  have hpop := popMany_spec 8192 (pushAll o samples) h1 (by rw [h2, hempty]; exact he)
  rw [hpop, h2, hempty]
  refine ⟨by simp, ?_⟩
  intro i hi
  rw [List.getElem?_map, List.getElem?_range hi, Option.map_some']
  by_cases h0 : i = 0
  · subst h0
    rw [if_pos rfl, ← h4 8192 (by omega) (by omega),
      show (o.inputBufferEnd + 8192) % 8192 = (o.inputBufferEnd + 0) % 8192 by omega]
  · rw [if_neg h0, ← h4 i (by omega) (by omega)]

/-- Witness for the amended C7: the fresh instance and the samples `0, 1, ..., 8192`. -/
theorem C7_wraparound_amended_witness :
    (instantiate : Octaver ℚ).inputBufferMaxSize = 8192 ∧
    (instantiate : Octaver ℚ).inputBufferStart = (instantiate : Octaver ℚ).inputBufferEnd ∧
    (instantiate : Octaver ℚ).inputBufferEnd < 8192 ∧
    ((List.range 8193).map (fun i : Nat => (i : ℚ))).length = 8192 + 1 ∧
    ((popMany 8192 (pushAll (instantiate : Octaver ℚ)
        ((List.range 8193).map (fun i : Nat => (i : ℚ))))).1.length = 8192 ∧
     ∀ i, i < 8192 →
      (popMany 8192 (pushAll (instantiate : Octaver ℚ)
        ((List.range 8193).map (fun i : Nat => (i : ℚ))))).1[i]?
        = ((List.range 8193).map (fun i : Nat => (i : ℚ)))[if i = 0 then 8192 else i]?) :=
  ⟨rfl, rfl, by decide, by simp,
    C7_wraparound_amended (instantiate : Octaver ℚ) ((List.range 8193).map (fun i : Nat => (i : ℚ)))
      rfl rfl (by decide) (by simp)⟩

end RingBufferClaims

section Claims

variable {α : Type} [LinearOrderedField α]

/-- C8 (gain law): reading `DB_CO` over the reals with `powf` the real power function,
`coef(0) = 1`, `coef(-90) = 0`, and `coef` is strictly increasing on `g > -90`. -/
theorem C8_gain_law :
    DB_CO (fun x y : ℝ => x ^ y) 0 = 1 ∧
    DB_CO (fun x y : ℝ => x ^ y) (-90) = 0 ∧
    ∀ a b : ℝ, -90 < a → a < b →
      DB_CO (fun x y : ℝ => x ^ y) a < DB_CO (fun x y : ℝ => x ^ y) b := by
  refine ⟨?_, ?_, ?_⟩
  · simp [DB_CO]
  · simp [DB_CO]
  · intro a b ha hab
    have hb : -90 < b := lt_trans ha hab
    simp only [DB_CO, gt_iff_lt, if_pos ha, if_pos hb]
    apply Real.rpow_lt_rpow_of_exponent_lt (by norm_num)
    have : (0 : ℝ) < 0.05 := by norm_num
    nlinarith

/-- Witness for C8: the coefficient at 0 dB is below the coefficient at 20 dB. -/
theorem C8_gain_law_witness :
    (-90 : ℝ) < 0 ∧ (0 : ℝ) < 20 ∧
    DB_CO (fun x y : ℝ => x ^ y) 0 < DB_CO (fun x y : ℝ => x ^ y) 20 :=
  ⟨by norm_num, by norm_num, C8_gain_law.2.2 0 20 (by norm_num) (by norm_num)⟩

/-- C9, as stated, fails: on the fresh instance with coefficient 1, the two-sample block
`0.0001, 0.0001` is classified as silent (the state is reset afterwards), yet `output[0]`
is not `input[0] * 0.25`: the mixer has popped the sample pushed in this very block. -/
theorem C9_block_order_counterexample :
    ∃ o1 out, run (fun _ _ => (1 : ℚ)) 8192 instantiate 0 (fun _ => 0.0001) 2
        = some (o1, out) ∧ IsReset o1 ∧
      out[0]? = some (0.0001 : ℚ) ∧ out[0]? ≠ some ((fun _ => (0.0001 : ℚ)) 0 * 0.25) := by
  have hcoef : DB_CO (fun _ _ => (1 : ℚ)) 0 = 1 := by norm_num [DB_CO]
  have hiter : processIter 8192 (fun _ => (0.0001 : ℚ)) 1 0 instantiate 1
      = some (pushBuffer { (instantiate : Octaver ℚ) with
          PluginStatus := PluginStatus.RISING_EDGE } 0.0001, 1, 1) := by
    rw [processIter_first_run _ _ _ _ _ _ rfl, processIter_noflip]
    · norm_num [instantiate, u32add]
    · norm_num [instantiate]
      decide
    · have hz : ¬ ((0.0001 : ℚ) < 0) := by norm_num
      simp [edgeCondition, pushBuffer, instantiate, hz]
  have hloop : processLoop 8192 (fun _ => (0.0001 : ℚ)) (DB_CO (fun _ _ => (1 : ℚ)) 0) 2
      8192 0 instantiate 1
      = some (pushBuffer { (instantiate : Octaver ℚ) with
          PluginStatus := PluginStatus.RISING_EDGE } 0.0001, 1) := by
    rw [hcoef, processLoop_step 8192 _ 1 2 8191 0 _ _ 1 1 1 (by decide) hiter]
    exact processLoop_done _ _ _ _ _ _ _ _ (by decide)
  refine ⟨_, _, run_eq_of_processLoop _ _ _ _ _ _ _ _ hloop, ?_, ?_, ?_⟩
  · rw [if_pos (by decide)]
    exact ⟨rfl, rfl, rfl, rfl⟩
  · rw [outputLoop_getElem? _ 2 0 _ (by decide)]
    norm_num [outputLoop, outputStep, getBufferFilledSize, popBuffer, pushBuffer, raiseIndex,
      u32add, u32sub, instantiate]
  · rw [outputLoop_getElem? _ 2 0 _ (by decide)]
    norm_num [outputLoop, outputStep, getBufferFilledSize, popBuffer, pushBuffer, raiseIndex,
      u32add, u32sub, instantiate]

/-- C9 (block data-flow order, amended): within one `run` call the OutputMixer acts before
the SilenceGate.  For a block that the silence gate classifies as silent, the mixer reads
the buffer as the processing loop left it, not the reset one: `output[pos]` is
`popped * 0.75 + input[pos] * 0.25` while `getBufferFilledSize > 0` and `input[pos] * 0.25`
once it is 0, and the reset is applied to the state the output loop leaves. -/
theorem C9_block_order_amended (powf : α → α → α) (fuel : Nat) (o : Octaver α) (gain : α)
    (input : Nat → α) (n : Nat) (hinv : Inv o) (hn : n + 1 < 4294967296) (hf : 8192 ≤ fuel)
    (hf2 : n ≤ 2 * fuel)
    (hsilent : ∀ i, 2 * i < n → |input (2 * i) * 0.5 * DB_CO powf gain| ≤ 0.0001) :
    ∃ o1 s1, processLoop fuel input (DB_CO powf gain) n fuel 0 o 1 = some (o1, s1) ∧
      run powf fuel o gain input n
        = some (silenceReset (outputLoop input n o1).1, (outputLoop input n o1).2) ∧
      ∀ pos, pos < n →
        (outputLoop input n o1).2[pos]? =
          some (if getBufferFilledSize (outputLoop input pos o1).1 > 0
            then (outputLoop input pos o1).1.inputBuffer
                (outputLoop input pos o1).1.inputBufferStart * 0.75 + input pos * 0.25
            else input pos * 0.25) := by
  obtain ⟨o1, s1, hloop, _, _, hsil⟩ :=
    processLoop_silence input (DB_CO powf gain) n fuel o hinv hn hf hf2
  have hs1 : s1 ≠ 0 := hsil.mpr hsilent
  refine ⟨o1, s1, hloop, ?_, ?_⟩
  · rw [run_eq_of_processLoop powf fuel o o1 gain input n s1 hloop, if_pos hs1]
  · intro pos hpos
    rw [outputLoop_getElem? input n pos o1 hpos]
    unfold outputStep
    split <;> rfl

/-- Witness for the amended C9: the fresh instance and the silent block `0.0001, 0.0001`. -/
theorem C9_block_order_amended_witness :
    Inv (instantiate : Octaver ℚ) ∧ 2 + 1 < 4294967296 ∧ 8192 ≤ 8192 ∧ 2 ≤ 2 * 8192 ∧
    (∀ i, 2 * i < 2 →
      |(fun _ => (0.0001 : ℚ)) (2 * i) * 0.5 * DB_CO (fun _ _ => (1 : ℚ)) 0| ≤ 0.0001) ∧
    ∃ o1 s1, processLoop 8192 (fun _ => (0.0001 : ℚ)) (DB_CO (fun _ _ => (1 : ℚ)) 0) 2 8192 0
        instantiate 1 = some (o1, s1) ∧
      run (fun _ _ => (1 : ℚ)) 8192 instantiate 0 (fun _ => 0.0001) 2
        = some (silenceReset (outputLoop (fun _ => (0.0001 : ℚ)) 2 o1).1,
            (outputLoop (fun _ => (0.0001 : ℚ)) 2 o1).2) ∧
      ∀ pos, pos < 2 →
        (outputLoop (fun _ => (0.0001 : ℚ)) 2 o1).2[pos]? =
          some (if getBufferFilledSize (outputLoop (fun _ => (0.0001 : ℚ)) pos o1).1 > 0
            then (outputLoop (fun _ => (0.0001 : ℚ)) pos o1).1.inputBuffer
                (outputLoop (fun _ => (0.0001 : ℚ)) pos o1).1.inputBufferStart * 0.75
              + (fun _ => (0.0001 : ℚ)) pos * 0.25
            else (fun _ => (0.0001 : ℚ)) pos * 0.25) :=
  ⟨instantiate_inv, by decide, by decide, by decide,
    fun i _ => by norm_num [DB_CO, abs_le],
    C9_block_order_amended (fun _ _ => (1 : ℚ)) 8192 instantiate 0 (fun _ => 0.0001) 2
      instantiate_inv (by decide) (by decide) (by decide)
      (fun i _ => by norm_num [DB_CO, abs_le])⟩

/-- C10 (half-wave replay): at an edge flip taken in a state with well-formed indices, with `L = inputBufferLastEdgeFlip`,
`E = inputBufferEnd` and `k = (E - L) mod 8192`: the replay returns after exactly `k` pushes,
`k < 8192`; afterwards the sample at index `(E + i) mod 8192` is the negation of the sample
that was at `(L + i) mod 8192` before the replay, for every `i < k` (whatever `k` is, also
beyond 4096); `inputBufferEnd == (E + k) mod 8192`; `inputBufferLastEdgeFlip ==
inputBufferEnd`; and the status has toggled. -/
theorem C10_half_wave_replay (fuel : Nat) (o : Octaver α)
    (hmax : o.inputBufferMaxSize = 8192) (hL : o.inputBufferLastEdgeFlip < 8192)
    (hE : o.inputBufferEnd < 8192)
    (hf : (o.inputBufferEnd + 8192 - o.inputBufferLastEdgeFlip) % 8192 ≤ fuel) :
    ∃ o1, edgeFlip fuel o = some o1 ∧
      (o.inputBufferEnd + 8192 - o.inputBufferLastEdgeFlip) % 8192 < 8192 ∧
      o1.pushed.length = o.pushed.length
        + (o.inputBufferEnd + 8192 - o.inputBufferLastEdgeFlip) % 8192 ∧
      (∀ i, i < (o.inputBufferEnd + 8192 - o.inputBufferLastEdgeFlip) % 8192 →
        o1.inputBuffer ((o.inputBufferEnd + i) % 8192)
          = -o.inputBuffer ((o.inputBufferLastEdgeFlip + i) % 8192)) ∧
      o1.inputBufferEnd = (o.inputBufferEnd
        + (o.inputBufferEnd + 8192 - o.inputBufferLastEdgeFlip) % 8192) % 8192 ∧
      o1.inputBufferLastEdgeFlip = o1.inputBufferEnd ∧
      (o.PluginStatus = PluginStatus.RISING_EDGE →
        o1.PluginStatus = PluginStatus.FALLING_EDGE) ∧
      (o.PluginStatus = PluginStatus.FALLING_EDGE →
        o1.PluginStatus = PluginStatus.RISING_EDGE) := by
  obtain ⟨o1, hflip, _, _, h3, _, h5, h6, h7, h8, _⟩ := edgeFlip_spec fuel o hmax hL hE hf
  refine ⟨o1, hflip, Nat.mod_lt _ (by norm_num), ?_, ?_, h5, h6, ?_, ?_⟩
  · rw [h7]; simp
  · intro i hi
    rw [h8 i hi]; ring
  · intro h; rw [h3, if_pos h]
  · intro h; rw [h3, if_neg (by rw [h]; decide)]

/-- Witness for C10: two samples pushed onto the fresh instance since the last flip. -/
theorem C10_half_wave_replay_witness :
    (pushBuffer (pushBuffer (instantiate : Octaver ℚ) 1) 2).inputBufferMaxSize = 8192 ∧
    (pushBuffer (pushBuffer (instantiate : Octaver ℚ) 1) 2).inputBufferLastEdgeFlip < 8192 ∧
    (pushBuffer (pushBuffer (instantiate : Octaver ℚ) 1) 2).inputBufferEnd < 8192 ∧
    ((pushBuffer (pushBuffer (instantiate : Octaver ℚ) 1) 2).inputBufferEnd + 8192
      - (pushBuffer (pushBuffer (instantiate : Octaver ℚ) 1) 2).inputBufferLastEdgeFlip)
        % 8192 ≤ 2 ∧
    ∃ o1, edgeFlip 2 (pushBuffer (pushBuffer (instantiate : Octaver ℚ) 1) 2) = some o1 ∧
      o1.inputBufferLastEdgeFlip = o1.inputBufferEnd := by
  have h := C10_half_wave_replay 2 (pushBuffer (pushBuffer (instantiate : Octaver ℚ) 1) 2)
    rfl (by decide) (by decide) (by decide)
  obtain ⟨o1, h1, _, _, _, _, h6, _⟩ := h
  exact ⟨rfl, by decide, by decide, by decide, o1, h1, h6⟩

end Claims

section LoopBodyClaims

variable {α : Type} [LinearOrderedField α]

/-- C11, as stated, fails: on the fresh instance with coefficient 1, the block `1, 1` leaves
status `RISING_EDGE` and a push history holding the single value `1`, which is not
`input[0] * 0.5 * coef = 0.5`. -/
theorem C11_pushed_value_counterexample :
    ∃ o1 out, run (fun _ _ => (1 : ℚ)) 8192 instantiate 0 (fun _ => 1) 2 = some (o1, out) ∧
      o1.PluginStatus = PluginStatus.RISING_EDGE ∧ o1.pushed = [1] ∧
      (1 : ℚ) ≠ (fun _ => (1 : ℚ)) 0 * 0.5 * DB_CO (fun _ _ => (1 : ℚ)) 0 := by
  have hcoef : DB_CO (fun _ _ => (1 : ℚ)) 0 = 1 := by norm_num [DB_CO]
  have hiter : processIter (8191 + 1) (fun _ => (1 : ℚ)) (DB_CO (fun _ _ => (1 : ℚ)) 0) 0
      instantiate 1
      = some (pushBuffer { (instantiate : Octaver ℚ) with
          PluginStatus := PluginStatus.RISING_EDGE } 1, 0, 1) := by
    rw [hcoef, processIter_first_run _ _ _ _ _ _ rfl, processIter_noflip]
    · norm_num [instantiate, u32add]
    · norm_num [instantiate]
      decide
    · norm_num [edgeCondition, pushBuffer, instantiate, u32add, u32sub]
      decide
  have hrun := run_two (fun _ _ => (1 : ℚ)) 8191 instantiate _ 0 (fun _ => (1 : ℚ)) hiter
  refine ⟨_, _, hrun, ?_, ?_, ?_⟩
  · rw [outputLoop_status]; rfl
  · rw [outputLoop_pushed]; rfl
  · rw [hcoef]; norm_num

/-- C11 (pushed value scaling, amended): for every consulted input sample `x = input[pos]`,
coefficient and status, the value `run` pushes for that sample (before any replay) is
`value1 + value2 = x * 0.5 * coef + x * 0.5 * coef`, that is `x * coef`, when the status in
force is `RISING_EDGE`, and the negation of it when the status is `FALLING_EDGE`. -/
theorem C11_pushed_value_amended (rfuel : Nat) (input : Nat → α) (coef : α) (pos : Nat)
    (o : Octaver α) (s : Nat) (hinv : Inv o) (hf : 8192 ≤ rfuel) :
    ∃ o1 s1 v rest, processIter rfuel input coef pos o s = some (o1, s1, u32add pos 1) ∧
      o1.pushed = o.pushed ++ v :: rest ∧
      ((firstRunStep input o).PluginStatus = PluginStatus.RISING_EDGE →
        v = input pos * 0.5 * coef + input pos * 0.5 * coef ∧ v = input pos * coef) ∧
      ((firstRunStep input o).PluginStatus = PluginStatus.FALLING_EDGE →
        v = -(input pos * 0.5 * coef + input pos * 0.5 * coef) ∧
        v = -(input pos * coef)) := by
  obtain ⟨o1, s1, rest, hiter, hp, _⟩ := processIter_push_flip rfuel input coef pos o s hinv hf
  refine ⟨o1, s1, _, rest, hiter, hp, ?_, ?_⟩
  · intro h
    simp only [pushedFromInput, if_pos h]
    constructor <;> ring
  · intro h
    have hne : ¬ (firstRunStep input o).PluginStatus = PluginStatus.RISING_EDGE := by
      rw [h]; decide
    simp only [pushedFromInput, if_neg hne]
    constructor <;> ring

/-- Witness for the amended C11: the first iteration on the fresh instance. -/
theorem C11_pushed_value_amended_witness :
    Inv (instantiate : Octaver ℚ) ∧ 8192 ≤ 8192 ∧
    ∃ o1 s1 v rest, processIter 8192 (fun _ => (1 : ℚ)) 1 0 instantiate 1
        = some (o1, s1, u32add 0 1) ∧
      o1.pushed = (instantiate : Octaver ℚ).pushed ++ v :: rest ∧
      ((firstRunStep (fun _ => (1 : ℚ)) instantiate).PluginStatus = PluginStatus.RISING_EDGE →
        v = (fun _ => (1 : ℚ)) 0 * 0.5 * 1 + (fun _ => (1 : ℚ)) 0 * 0.5 * 1 ∧
        v = (fun _ => (1 : ℚ)) 0 * 1) ∧
      ((firstRunStep (fun _ => (1 : ℚ)) instantiate).PluginStatus = PluginStatus.FALLING_EDGE →
        v = -((fun _ => (1 : ℚ)) 0 * 0.5 * 1 + (fun _ => (1 : ℚ)) 0 * 0.5 * 1) ∧
        v = -((fun _ => (1 : ℚ)) 0 * 1)) :=
  ⟨instantiate_inv, le_refl _,
    C11_pushed_value_amended 8192 (fun _ => (1 : ℚ)) 1 0 instantiate 1 instantiate_inv
      (le_refl _)⟩

/-- C12, as stated, fails: at gain `-90` dB the coefficient is 0, so no scaled sample is
negative, yet in status `RISING_EDGE` an iteration on the input `-1, -1` flips the edge: the
status it leaves is `FALLING_EDGE`. -/
theorem C12_edge_detection_counterexample :
    DB_CO (fun _ _ => (1 : ℚ)) (-90) = 0 ∧
    ¬ scaledEdgeCondition (fun _ => (-1 : ℚ)) (DB_CO (fun _ _ => (1 : ℚ)) (-90)) (u32add 0 1)
        { (instantiate : Octaver ℚ) with PluginStatus := PluginStatus.RISING_EDGE } ∧
    ∃ o1 s1, processIter 8192 (fun _ => (-1 : ℚ)) (DB_CO (fun _ _ => (1 : ℚ)) (-90)) 0
        { (instantiate : Octaver ℚ) with PluginStatus := PluginStatus.RISING_EDGE } 1
        = some (o1, s1, u32add 0 1) ∧
      o1.PluginStatus = PluginStatus.FALLING_EDGE := by
  have hcoef : DB_CO (fun _ _ => (1 : ℚ)) (-90) = 0 := by norm_num [DB_CO]
  refine ⟨hcoef, ?_, ?_⟩
  · rw [hcoef]
    have hne : ¬ PluginStatus.RISING_EDGE = PluginStatus.FALLING_EDGE := by decide
    simp [scaledEdgeCondition, hne]
  · obtain ⟨o1, s1, _, hiter, _, hflip⟩ := processIter_push_flip 8192 (fun _ => (-1 : ℚ))
      (DB_CO (fun _ _ => (1 : ℚ)) (-90)) 0
      { (instantiate : Octaver ℚ) with PluginStatus := PluginStatus.RISING_EDGE } 1
      ⟨rfl, by decide, by decide, by decide⟩ (le_refl _)
    have hq : firstRunStep (fun _ => (-1 : ℚ))
        { (instantiate : Octaver ℚ) with PluginStatus := PluginStatus.RISING_EDGE }
        = { (instantiate : Octaver ℚ) with PluginStatus := PluginStatus.RISING_EDGE } :=
      firstRunStep_of_ne _ _ (by decide)
    rw [hq] at hflip
    have hc : edgeCondition (fun _ => (-1 : ℚ)) (u32add 0 1)
        { (instantiate : Octaver ℚ) with PluginStatus := PluginStatus.RISING_EDGE } :=
      Or.inl ⟨rfl, Or.inl (by norm_num)⟩
    have hne := hflip.mpr hc
    have hne1 := processIter_status_ne _ _ _ _ _ _ _ _ _ hiter
    refine ⟨o1, s1, hiter, ?_⟩
    cases hst : o1.PluginStatus with
    | FIRST_RUN => exact absurd hst hne1
    | RISING_EDGE => exact absurd hst hne
    | FALLING_EDGE => rfl

/-- C12 (edge detection, amended): in every iteration of the processing loop of `run` and for
every gain, an edge flip happens (the status in force for the push is toggled) exactly when
the sign test applied to the two raw, unscaled input samples `input[pos]` and
`input[pos - 1]` read after `pos++` demands it: in `RISING_EDGE` iff one of them is negative,
in `FALLING_EDGE` iff one of them is non-negative.  For a coefficient `> 0` this is the same
as the test on the samples scaled by `0.5 * coef`. -/
theorem C12_edge_detection_amended (rfuel : Nat) (input : Nat → α) (coef : α) (pos : Nat)
    (o : Octaver α) (s : Nat) (hinv : Inv o) (hf : 8192 ≤ rfuel) :
    ∃ o1 s1, processIter rfuel input coef pos o s = some (o1, s1, u32add pos 1) ∧
      (o1.PluginStatus ≠ (firstRunStep input o).PluginStatus ↔
        ((firstRunStep input o).PluginStatus = PluginStatus.RISING_EDGE ∧
            (input (u32add pos 1) < 0 ∨ input (u32sub (u32add pos 1) 1) < 0)) ∨
        ((firstRunStep input o).PluginStatus = PluginStatus.FALLING_EDGE ∧
            (input (u32add pos 1) ≥ 0 ∨ input (u32sub (u32add pos 1) 1) ≥ 0))) ∧
      (0 < coef →
        (o1.PluginStatus ≠ (firstRunStep input o).PluginStatus ↔
          scaledEdgeCondition input coef (u32add pos 1) (firstRunStep input o))) := by
  obtain ⟨o1, s1, _, hiter, _, hflip⟩ := processIter_push_flip rfuel input coef pos o s hinv hf
  refine ⟨o1, s1, hiter, hflip, fun hcoef => ?_⟩
  rw [hflip]
  exact edgeCondition_iff_scaled input coef _ _ hcoef

/-- Witness for the amended C12: an iteration on the fresh instance. -/
theorem C12_edge_detection_amended_witness :
    Inv (instantiate : Octaver ℚ) ∧ 8192 ≤ 8192 ∧
    ∃ o1 s1, processIter 8192 (fun _ => (-1 : ℚ)) 1 0 instantiate 1
        = some (o1, s1, u32add 0 1) ∧
      (o1.PluginStatus ≠ (firstRunStep (fun _ => (-1 : ℚ)) instantiate).PluginStatus ↔
        ((firstRunStep (fun _ => (-1 : ℚ)) instantiate).PluginStatus
            = PluginStatus.RISING_EDGE ∧
            ((fun _ => (-1 : ℚ)) (u32add 0 1) < 0 ∨
              (fun _ => (-1 : ℚ)) (u32sub (u32add 0 1) 1) < 0)) ∨
        ((firstRunStep (fun _ => (-1 : ℚ)) instantiate).PluginStatus
            = PluginStatus.FALLING_EDGE ∧
            ((fun _ => (-1 : ℚ)) (u32add 0 1) ≥ 0 ∨
              (fun _ => (-1 : ℚ)) (u32sub (u32add 0 1) 1) ≥ 0))) ∧
      ((0 : ℚ) < 1 →
        (o1.PluginStatus ≠ (firstRunStep (fun _ => (-1 : ℚ)) instantiate).PluginStatus ↔
          scaledEdgeCondition (fun _ => (-1 : ℚ)) 1 (u32add 0 1)
            (firstRunStep (fun _ => (-1 : ℚ)) instantiate))) :=
  ⟨instantiate_inv, le_refl _,
    C12_edge_detection_amended 8192 (fun _ => (-1 : ℚ)) 1 0 instantiate 1 instantiate_inv
      (le_refl _)⟩

end LoopBodyClaims

section TraceClaims

variable {α : Type} [LinearOrderedField α]

/-- C13 (FirstRun transition): for every `run` call with `n_samples ≥ 1`, in the processing
loop: the first push is made with the status left by the `FIRST_RUN` statement, which for a
call entered with `FIRST_RUN` is `RISING_EDGE` if `input[0] ≥ 0` and `FALLING_EDGE`
otherwise; no iteration but the first is entered with status `FIRST_RUN`, and the first only
if the call was; the loop leaves a status other than `FIRST_RUN`; and in a call entered with
another status the `FIRST_RUN` statement changes nothing in any iteration. -/
theorem C13_first_run_transition (powf : α → α → α) (fuel : Nat) (o : Octaver α) (gain : α)
    (input : Nat → α) (n : Nat) (hinv : Inv o) (hn : n + 1 < 4294967296) (hf : 8192 ≤ fuel)
    (hf2 : n ≤ 2 * fuel) (hn1 : 1 ≤ n) :
    ∃ tr o1 s1 rest,
      processLoopTrace fuel input (DB_CO powf gain) n fuel 0 o 1 = some tr ∧
      processLoop fuel input (DB_CO powf gain) n fuel 0 o 1 = some (o1, s1) ∧
      tr[0]? = some (0, o, 1) ∧
      o1.pushed = o.pushed
        ++ pushedFromInput input (DB_CO powf gain) 0 (firstRunStep input o) :: rest ∧
      (o.PluginStatus = PluginStatus.FIRST_RUN →
        (firstRunStep input o).PluginStatus
          = (if input 0 ≥ 0 then PluginStatus.RISING_EDGE else PluginStatus.FALLING_EDGE)) ∧
      (∀ (i : Nat) (e : Nat × Octaver α × Nat), tr[i]? = some e → e.2.1.PluginStatus = PluginStatus.FIRST_RUN →
        i = 0 ∧ o.PluginStatus = PluginStatus.FIRST_RUN) ∧
      o1.PluginStatus ≠ PluginStatus.FIRST_RUN ∧
      (o.PluginStatus ≠ PluginStatus.FIRST_RUN →
        ∀ (i : Nat) (e : Nat × Octaver α × Nat), tr[i]? = some e → firstRunStep input e.2.1 = e.2.1) := by
  obtain ⟨tr, htr, hlen, hent⟩ := processLoopTrace_spec fuel input (DB_CO powf gain) n hn hf
    fuel 0 o 1 rfl (by omega) hinv
  obtain ⟨o1, s1, rest, hloop, hpush⟩ :=
    processLoop_first_push input (DB_CO powf gain) n fuel o hinv hn hf hf2 hn1
  have hfirst : ∀ (i : Nat) (e : Nat × Octaver α × Nat), tr[i]? = some e → e.2.1.PluginStatus = PluginStatus.FIRST_RUN →
      i = 0 ∧ o.PluginStatus = PluginStatus.FIRST_RUN := by
    intro i e he hst
    obtain ⟨_, _, h3, h4⟩ := hent i e he
    rcases Nat.eq_zero_or_pos i with hi | hi
    · refine ⟨hi, ?_⟩
      rw [h4 hi] at hst
      exact hst
    · exact absurd hst (h3 hi)
  have h0 : tr[0]? = some (0, o, 1) := by
    have hlt : 0 < tr.length := by rw [hlen]; omega
    rw [List.getElem?_eq_getElem hlt]
    exact congrArg some ((hent 0 _ (List.getElem?_eq_getElem hlt)).2.2.2 rfl)
  refine ⟨tr, o1, s1, rest, htr, hloop, h0, hpush, ?_, hfirst,
    processLoop_status_ne_of_pos _ _ _ _ _ _ _ _ _ (by omega) hloop, ?_⟩
  · intro hst
    simp only [firstRunStep, if_pos hst]
  · intro hst i e he
    exact firstRunStep_of_ne input _ (fun h => hst (hfirst i e he h).2)

/-- Witness for C13: the fresh instance and the block `1, 1`. -/
theorem C13_first_run_transition_witness :
    Inv (instantiate : Octaver ℚ) ∧ 2 + 1 < 4294967296 ∧ 8192 ≤ 8192 ∧ 2 ≤ 2 * 8192 ∧ 1 ≤ 2 ∧
    ∃ tr o1 s1 rest,
      processLoopTrace 8192 (fun _ => (1 : ℚ)) (DB_CO (fun _ _ => (1 : ℚ)) 0) 2 8192 0
        instantiate 1 = some tr ∧
      processLoop 8192 (fun _ => (1 : ℚ)) (DB_CO (fun _ _ => (1 : ℚ)) 0) 2 8192 0
        instantiate 1 = some (o1, s1) ∧
      tr[0]? = some (0, instantiate, 1) ∧
      o1.pushed = (instantiate : Octaver ℚ).pushed
        ++ pushedFromInput (fun _ => (1 : ℚ)) (DB_CO (fun _ _ => (1 : ℚ)) 0) 0
            (firstRunStep (fun _ => (1 : ℚ)) instantiate) :: rest ∧
      ((instantiate : Octaver ℚ).PluginStatus = PluginStatus.FIRST_RUN →
        (firstRunStep (fun _ => (1 : ℚ)) instantiate).PluginStatus
          = (if (fun _ => (1 : ℚ)) 0 ≥ 0 then PluginStatus.RISING_EDGE
              else PluginStatus.FALLING_EDGE)) ∧
      (∀ (i : Nat) (e : Nat × Octaver ℚ × Nat), tr[i]? = some e → e.2.1.PluginStatus = PluginStatus.FIRST_RUN →
        i = 0 ∧ (instantiate : Octaver ℚ).PluginStatus = PluginStatus.FIRST_RUN) ∧
      o1.PluginStatus ≠ PluginStatus.FIRST_RUN ∧
      ((instantiate : Octaver ℚ).PluginStatus ≠ PluginStatus.FIRST_RUN →
        ∀ (i : Nat) (e : Nat × Octaver ℚ × Nat), tr[i]? = some e → firstRunStep (fun _ => (1 : ℚ)) e.2.1 = e.2.1) :=
  ⟨instantiate_inv, by decide, by decide, by decide, by decide,
    C13_first_run_transition (fun _ _ => (1 : ℚ)) 8192 instantiate 0 (fun _ => (1 : ℚ)) 2
      instantiate_inv (by decide) (by decide) (by decide) (by decide)⟩

/-- C14 (input decimation): for every block length `n` whose loop counter cannot wrap, the
processing loop of `run` executes exactly `⌈n / 2⌉` iterations; iteration `i` is entered
with `pos = 2 i` and the value it pushes from the input is computed from `input[2 i]` alone
(both temporaries); the silence check looks at the samples `input[2 i]` only; and the
odd-indexed samples influence the loop only through the sign tests of the edge-flip
condition: replacing them by samples of the same sign leaves the result of the loop
unchanged. -/
theorem C14_input_decimation (powf : α → α → α) (fuel : Nat) (o : Octaver α) (gain : α)
    (input : Nat → α) (n : Nat) (hinv : Inv o) (hn : n + 1 < 4294967296) (hf : 8192 ≤ fuel)
    (hf2 : n ≤ 2 * fuel) :
    ∃ tr o1 s1,
      processLoopTrace fuel input (DB_CO powf gain) n fuel 0 o 1 = some tr ∧
      processLoop fuel input (DB_CO powf gain) n fuel 0 o 1 = some (o1, s1) ∧
      tr.length = (n + 1) / 2 ∧
      (∀ (i : Nat) (e : Nat × Octaver α × Nat), tr[i]? = some e → e.1 = 2 * i ∧
        ∃ o2 s2 rest,
          processIter fuel input (DB_CO powf gain) (2 * i) e.2.1 e.2.2
            = some (o2, s2, 2 * i + 1) ∧
          o2.pushed = e.2.1.pushed ++
            (input (2 * i) * 0.5 * DB_CO powf gain + input (2 * i) * 0.5 * DB_CO powf gain) *
              (if (firstRunStep input e.2.1).PluginStatus = PluginStatus.RISING_EDGE
                then 1 else -1) :: rest) ∧
      (s1 ≠ 0 ↔ ∀ i, 2 * i < n → |input (2 * i) * 0.5 * DB_CO powf gain| ≤ 0.0001) ∧
      (∀ input1 : Nat → α, (∀ i, i % 2 = 0 → input1 i = input i) →
        (∀ i, i % 2 = 1 → (input1 i < 0 ↔ input i < 0)) →
        processLoop fuel input1 (DB_CO powf gain) n fuel 0 o 1 = some (o1, s1)) := by
  obtain ⟨tr, htr, hlen, hent⟩ := processLoopTrace_spec fuel input (DB_CO powf gain) n hn hf
    fuel 0 o 1 rfl (by omega) hinv
  obtain ⟨o1, s1, hloop, _, _, hsil⟩ :=
    processLoop_silence input (DB_CO powf gain) n fuel o hinv hn hf hf2
  refine ⟨tr, o1, s1, htr, hloop, by rw [hlen]; rfl, ?_, hsil, ?_⟩
  · intro i e he
    obtain ⟨h1, h2, _, _⟩ := hent i e he
    have hpos : e.1 = 2 * i := by omega
    have hlt : i < tr.length := by
      by_contra hge
      rw [List.getElem?_eq_none (by omega)] at he
      simp at he
    obtain ⟨o2, s2, rest, hiter, hp, _⟩ :=
      processIter_push_flip fuel input (DB_CO powf gain) (2 * i) e.2.1 e.2.2 h2 hf
    have hadd : u32add (2 * i) 1 = 2 * i + 1 := by
      simp only [u32add]; omega
    rw [hadd] at hiter
    exact ⟨hpos, o2, s2, rest, hiter, hp⟩
  · intro input1 heven hodd
    rw [processLoop_congr fuel input input1 (DB_CO powf gain) n heven hodd fuel 0 o 1 rfl]
    exact hloop

/-- Witness for C14: the fresh instance and the block `1, 1, 1`. -/
theorem C14_input_decimation_witness :
    Inv (instantiate : Octaver ℚ) ∧ 3 + 1 < 4294967296 ∧ 8192 ≤ 8192 ∧ 3 ≤ 2 * 8192 ∧
    ∃ tr o1 s1,
      processLoopTrace 8192 (fun _ => (1 : ℚ)) (DB_CO (fun _ _ => (1 : ℚ)) 0) 3 8192 0
        instantiate 1 = some tr ∧
      processLoop 8192 (fun _ => (1 : ℚ)) (DB_CO (fun _ _ => (1 : ℚ)) 0) 3 8192 0
        instantiate 1 = some (o1, s1) ∧
      tr.length = (3 + 1) / 2 := by
  obtain ⟨tr, o1, s1, h1, h2, h3, _⟩ :=
    C14_input_decimation (fun _ _ => (1 : ℚ)) 8192 instantiate 0 (fun _ => (1 : ℚ)) 3
      instantiate_inv (by decide) (by decide) (by decide)
  exact ⟨instantiate_inv, by decide, by decide, by decide, tr, o1, s1, h1, h2, h3⟩

end TraceClaims

section BoundaryClaims

variable {α : Type} [LinearOrderedField α]

/-- C15 (input bounds): for every state with well-formed indices and every block length `n`
whose loop counter cannot wrap, every index at which `run` reads the input block is `< n` if
and only if `n` is even; for odd `n` the last iteration of the processing loop is entered
with `pos = n - 1` and its edge-flip condition reads `input[n]` first, one element past
the end of the block. -/
theorem C15_input_bounds (powf : α → α → α) (fuel : Nat) (o : Octaver α) (gain : α)
    (input : Nat → α) (n : Nat) (hinv : Inv o) (hn : n + 1 < 4294967296) (hf : 8192 ≤ fuel)
    (hf2 : n ≤ 2 * fuel) :
    ∃ tr reads,
      processLoopTrace fuel input (DB_CO powf gain) n fuel 0 o 1 = some tr ∧
      runReads powf fuel o gain input n = some reads ∧
      ((∀ i ∈ reads, i < n) ↔ n % 2 = 0) ∧
      (n % 2 = 1 → ∃ e : Nat × Octaver α × Nat, tr.getLast? = some e ∧ e.1 = n - 1 ∧
        (edgeTestReads input (u32add e.1 1) (firstRunStep input e.2.1).PluginStatus).head?
          = some n ∧
        n ∈ reads) := by
  obtain ⟨tr, htr, hlen, hent⟩ := processLoopTrace_spec fuel input (DB_CO powf gain) n hn hf
    fuel 0 o 1 rfl (by omega) hinv
  rw [Nat.sub_zero] at hlen
  have hlast : n % 2 = 1 → ∃ e : Nat × Octaver α × Nat, tr.getLast? = some e ∧ e.1 = n - 1 ∧
      (edgeTestReads input (u32add e.1 1) (firstRunStep input e.2.1).PluginStatus).head?
        = some n ∧
      n ∈ (tr.map (fun e => processIterReads input e.1 e.2.1)).flatten ++ List.range n := by
    intro hodd
    have hlt : tr.length - 1 < tr.length := by rw [hlen]; omega
    have hget : tr[tr.length - 1]? = some tr[tr.length - 1] := List.getElem?_eq_getElem hlt
    obtain ⟨h1, _, _, _⟩ := hent _ _ hget
    have hpos : (tr[tr.length - 1]).1 = n - 1 := by rw [h1, hlen]; omega
    have hadd : u32add (tr[tr.length - 1]).1 1 = n := by
      rw [hpos]; simp only [u32add]; omega
    have hhead := edgeTestReads_head input (u32add (tr[tr.length - 1]).1 1) _
      (firstRunStep_status_ne input (tr[tr.length - 1]).2.1)
    rw [hadd] at hhead
    refine ⟨tr[tr.length - 1], by rw [List.getLast?_eq_getElem?, hget], hpos,
      by rw [hadd]; exact hhead, ?_⟩
    apply List.mem_append_left
    rw [List.mem_flatten]
    refine ⟨processIterReads input (tr[tr.length - 1]).1 (tr[tr.length - 1]).2.1,
      List.mem_map.mpr ⟨_, List.getElem_mem hlt, rfl⟩, ?_⟩
    unfold processIterReads
    apply List.mem_append_right
    rw [hadd]
    exact List.mem_of_mem_head? hhead
  refine ⟨tr, _, htr, by simp only [runReads, htr], ?_, hlast⟩
  constructor
  · intro hall
    by_contra hodd
    obtain ⟨_, _, _, _, hmem⟩ := hlast (by omega)
    exact absurd (hall n hmem) (lt_irrefl n)
  · intro heven i hi
    clear hlast
    rcases List.mem_append.mp hi with h | h
    · rw [List.mem_flatten] at h
      obtain ⟨l, hl, hil⟩ := h
      obtain ⟨e, he, rfl⟩ := List.mem_map.mp hl
      obtain ⟨k, hk⟩ := List.mem_iff_getElem?.mp he
      obtain ⟨h1, _, _, _⟩ := hent k e hk
      have hklt : k < tr.length := by
        by_contra hge
        rw [List.getElem?_eq_none (by omega)] at hk
        simp at hk
      rw [hlen] at hklt
      have hpos : e.1 + 1 < n := by omega
      have hadd : u32add e.1 1 = e.1 + 1 := by simp only [u32add]; omega
      have hsub : u32sub (e.1 + 1) 1 = e.1 := by simp only [u32sub]; omega
      unfold processIterReads at hil
      rcases List.mem_append.mp hil with h2 | h2
      · rcases List.mem_append.mp h2 with h3 | h3
        · split at h3
          · have : i = 0 := List.mem_singleton.mp h3
            omega
          · exact absurd h3 (List.not_mem_nil i)
        · have : i = e.1 ∨ i = e.1 := by
            simpa only [List.mem_cons, List.mem_singleton, List.not_mem_nil, or_false] using h3
          omega
      · rcases edgeTestReads_mem input _ _ i h2 with h3 | h3
        · omega
        · rw [hadd, hsub] at h3; omega
    · exact List.mem_range.mp h

/-- Witness for C15: the fresh instance and the block `1, 1, 1`. -/
theorem C15_input_bounds_witness :
    Inv (instantiate : Octaver ℚ) ∧ 3 + 1 < 4294967296 ∧ 8192 ≤ 8192 ∧ 3 ≤ 2 * 8192 ∧
    ∃ tr reads,
      processLoopTrace 8192 (fun _ => (1 : ℚ)) (DB_CO (fun _ _ => (1 : ℚ)) 0) 3 8192 0
        instantiate 1 = some tr ∧
      runReads (fun _ _ => (1 : ℚ)) 8192 instantiate 0 (fun _ => (1 : ℚ)) 3 = some reads ∧
      ((∀ i ∈ reads, i < 3) ↔ 3 % 2 = 0) ∧ 3 ∈ reads := by
  obtain ⟨tr, reads, h1, h2, h3, h4⟩ :=
    C15_input_bounds (fun _ _ => (1 : ℚ)) 8192 instantiate 0 (fun _ => (1 : ℚ)) 3
      instantiate_inv (by decide) (by decide) (by decide)
  obtain ⟨_, _, _, _, hmem⟩ := h4 (by decide)
  exact ⟨instantiate_inv, by decide, by decide, by decide, tr, reads, h1, h2, h3, hmem⟩

/-- C16 (empty block resets): for every state of capacity 8192, `run` with `n_samples == 0`
returns with the silence reset performed (`PluginStatus == FIRST_RUN` and all three indices
0) and an empty output: `getBufferFilledSize` is 0 afterwards, so the samples that were still
buffered are dropped without being output; the stored samples themselves stay in place. -/
theorem C16_empty_block_resets (powf : α → α → α) (fuel : Nat) (o : Octaver α) (gain : α)
    (input : Nat → α) (hmax : o.inputBufferMaxSize = 8192) :
    ∃ o1, run powf fuel o gain input 0 = some (o1, []) ∧ IsReset o1 ∧
      getBufferFilledSize o1 = 0 ∧ o1.inputBuffer = o.inputBuffer := by
  refine ⟨silenceReset o, run_empty powf fuel o gain input, ⟨rfl, rfl, rfl, rfl⟩, ?_, rfl⟩
  rw [getBufferFilledSize_eq (silenceReset o) hmax (by simp [silenceReset])]
  simp [silenceReset]

/-- Witness for C16: three samples are buffered when the empty block arrives. -/
theorem C16_empty_block_resets_witness :
    (pushBuffer (pushBuffer (pushBuffer (instantiate : Octaver ℚ) 1) 2) 3).inputBufferMaxSize
      = 8192 ∧
    getBufferFilledSize (pushBuffer (pushBuffer (pushBuffer (instantiate : Octaver ℚ) 1) 2) 3)
      > 0 ∧
    ∃ o1, run (fun _ _ => (1 : ℚ)) 0
        (pushBuffer (pushBuffer (pushBuffer (instantiate : Octaver ℚ) 1) 2) 3) 0
        (fun _ => (0 : ℚ)) 0 = some (o1, []) ∧ IsReset o1 ∧
      getBufferFilledSize o1 = 0 ∧
      o1.inputBuffer
        = (pushBuffer (pushBuffer (pushBuffer (instantiate : Octaver ℚ) 1) 2) 3).inputBuffer :=
  ⟨rfl, by decide,
    C16_empty_block_resets (fun _ _ => (1 : ℚ)) 0
      (pushBuffer (pushBuffer (pushBuffer (instantiate : Octaver ℚ) 1) 2) 3) 0
      (fun _ => (0 : ℚ)) rfl⟩

/-- C17 (status/index invariant at block boundaries): in every state reachable from
`instantiate` by completed `run` calls, `PluginStatus == FIRST_RUN` implies
`inputBufferStart == inputBufferEnd == inputBufferLastEdgeFlip == 0`; and after every `run`
call with `n_samples ≥ 1` whose processing loop cleared `isSilence` (no silence reset), the
status is `RISING_EDGE` or `FALLING_EDGE`. -/
theorem C17_status_index_invariant (powf : α → α → α) :
    (∀ o, Reachable powf o → o.PluginStatus = PluginStatus.FIRST_RUN →
      o.inputBufferStart = 0 ∧ o.inputBufferEnd = 0 ∧ o.inputBufferLastEdgeFlip = 0) ∧
    (∀ (o o1 o2 : Octaver α) (fuel : Nat) (gain : α) (input : Nat → α) (n s2 : Nat)
      (out : List α), 1 ≤ n → run powf fuel o gain input n = some (o1, out) →
      processLoop fuel input (DB_CO powf gain) n fuel 0 o 1 = some (o2, s2) → s2 = 0 →
      o1.PluginStatus = PluginStatus.RISING_EDGE ∨
        o1.PluginStatus = PluginStatus.FALLING_EDGE) := by
  refine ⟨reachable_first_run powf, ?_⟩
  intro o o1 o2 fuel gain input n s2 out hn hrun hloop hs2
  obtain ⟨o3, s3, hloop3, _, hcase⟩ := run_cases powf fuel o o1 gain input n out hrun
  rw [hloop] at hloop3
  simp only [Option.some.injEq, Prod.mk.injEq] at hloop3
  obtain ⟨ho, hs⟩ := hloop3
  subst ho hs
  have hne := processLoop_status_ne_of_pos _ _ _ _ _ _ _ _ _ (show 0 < n by omega) hloop
  rcases hcase with ⟨h, _⟩ | ⟨_, h⟩
  · exact absurd hs2 h
  · rw [h, outputLoop_status]
    cases hst : o2.PluginStatus with
    | FIRST_RUN => exact absurd hst hne
    | RISING_EDGE => exact Or.inl rfl
    | FALLING_EDGE => exact Or.inr rfl

/-- Witness for C17: from the fresh instance the block `1, 1` clears `isSilence`, so the
call is not reset and leaves status `RISING_EDGE` or `FALLING_EDGE`; the block of two zero
samples that follows ends with the silence reset, and the state it leaves (reachable, with
the two pushed samples still stored) has status `FIRST_RUN` and all three indices at 0. -/
theorem C17_status_index_invariant_witness :
    ∃ o1 out1 oL o2 out2,
      1 ≤ 2 ∧
      run (fun _ _ => (1 : ℚ)) 8192 instantiate 0 (fun _ => 1) 2 = some (o1, out1) ∧
      processLoop 8192 (fun _ => (1 : ℚ)) (DB_CO (fun _ _ => (1 : ℚ)) 0) 2 8192 0
        instantiate 1 = some (oL, 0) ∧
      (o1.PluginStatus = PluginStatus.RISING_EDGE ∨
        o1.PluginStatus = PluginStatus.FALLING_EDGE) ∧
      run (fun _ _ => (1 : ℚ)) 8192 o1 0 (fun _ => 0) 2 = some (o2, out2) ∧
      Reachable (fun _ _ => (1 : ℚ)) o2 ∧ o2.pushed = [1, 0] ∧ o2.inputBuffer 0 = 1 ∧
      o2.PluginStatus = PluginStatus.FIRST_RUN ∧
      (o2.inputBufferStart = 0 ∧ o2.inputBufferEnd = 0 ∧ o2.inputBufferLastEdgeFlip = 0) := by
  obtain ⟨o2, out2, hrun2, hst, hp, hb⟩ := run_silent_block
  have hreach : Reachable (fun _ _ => (1 : ℚ)) o2 :=
    Reachable.step 8192 0 _ 2 (Reachable.step 8192 0 _ 2 Reachable.init run_fresh_loud) hrun2
  obtain ⟨hfirst, hstatus⟩ := C17_status_index_invariant (fun _ _ => (1 : ℚ))
  exact ⟨_, _, _, o2, out2, by decide, run_fresh_loud, processLoop_fresh_loud,
    hstatus instantiate _ _ 8192 0 (fun _ => 1) 2 0 _ (by decide) run_fresh_loud
      processLoop_fresh_loud rfl,
    hrun2, hreach, hp, hb, hst, hfirst o2 hreach hst⟩

end BoundaryClaims

section FifoClaims

variable {α : Type}

/-- C18 (FIFO round trip without overflow): for every ring-buffer state of capacity 8192 with
in-range indices and `getBufferFilledSize == f`, and every sequence of `m` samples with
`f + m < 8192`: after the `m` pushes `getBufferFilledSize == f + m`, and `f + m` pops then
return the `f` previously unread samples in their order followed by the `m` pushed samples
in push order, leaving `getBufferFilledSize == 0`. -/
theorem C18_fifo_round_trip (o : Octaver α) (samples : List α) (f : Nat)
    (hmax : o.inputBufferMaxSize = 8192) (hs : o.inputBufferStart < 8192)
    (he : o.inputBufferEnd < 8192) (hfill : getBufferFilledSize o = f)
    (hfit : f + samples.length < 8192) :
    getBufferFilledSize (pushAll o samples) = f + samples.length ∧
    (popMany (f + samples.length) (pushAll o samples)).1
      = (List.range f).map (fun i => o.inputBuffer ((o.inputBufferStart + i) % 8192))
          ++ samples ∧
    getBufferFilledSize (popMany (f + samples.length) (pushAll o samples)).2 = 0 := by

  obtain ⟨h1, h2, h3, h4, h5⟩ := pushAll_spec samples o hmax he
  have hf := getBufferFilledSize_eq o hmax (by omega)
  rw [hfill] at hf
  have hs2 : (pushAll o samples).inputBufferStart < 8192 := by rw [h2]; exact hs
  obtain ⟨p1, p2, p3⟩ := popMany_state (f + samples.length) (pushAll o samples) h1 hs2
  refine ⟨?_, ?_, ?_⟩
  · rw [getBufferFilledSize_eq _ h1 (by omega), h2, h3]
    omega
  · rw [popMany_spec _ _ h1 hs2, h2]
    apply List.ext_getElem?
    intro i
    by_cases hi : i < f
    · rw [List.getElem?_map, List.getElem?_range (by omega), Option.map_some',
        List.getElem?_append_left (by simp; exact hi), List.getElem?_map,
        List.getElem?_range hi, Option.map_some']
      rw [h5 _ (by intro j hj; omega)]
    · by_cases hi2 : i < f + samples.length
      · rw [List.getElem?_map, List.getElem?_range hi2, Option.map_some',
          List.getElem?_append_right (by simp; omega)]
        simp only [List.length_map, List.length_range]
        rw [← h4 (i - f) (by omega) (by omega)]
        congr 2
        omega
      · rw [List.getElem?_eq_none (by simp; omega), List.getElem?_eq_none (by simp; omega)]
  · rw [getBufferFilledSize_eq _ p1 (by rw [p3]; omega), p2, p3, h2, h3]
    omega

/-- Witness for C18: one unread sample, two more pushed. -/
theorem C18_fifo_round_trip_witness :
    (pushBuffer (instantiate : Octaver ℚ) 1).inputBufferMaxSize = 8192 ∧
    (pushBuffer (instantiate : Octaver ℚ) 1).inputBufferStart < 8192 ∧
    (pushBuffer (instantiate : Octaver ℚ) 1).inputBufferEnd < 8192 ∧
    getBufferFilledSize (pushBuffer (instantiate : Octaver ℚ) 1) = 1 ∧
    1 + [(2 : ℚ), 3].length < 8192 ∧
    (getBufferFilledSize (pushAll (pushBuffer (instantiate : Octaver ℚ) 1) [2, 3])
        = 1 + [(2 : ℚ), 3].length ∧
      (popMany (1 + [(2 : ℚ), 3].length)
          (pushAll (pushBuffer (instantiate : Octaver ℚ) 1) [2, 3])).1
        = (List.range 1).map (fun i => (pushBuffer (instantiate : Octaver ℚ) 1).inputBuffer
            (((pushBuffer (instantiate : Octaver ℚ) 1).inputBufferStart + i) % 8192))
          ++ [2, 3] ∧
      getBufferFilledSize (popMany (1 + [(2 : ℚ), 3].length)
        (pushAll (pushBuffer (instantiate : Octaver ℚ) 1) [2, 3])).2 = 0) :=
  ⟨rfl, by decide, by decide, by decide, by decide,
    C18_fifo_round_trip (pushBuffer (instantiate : Octaver ℚ) 1) [2, 3] 1 rfl (by decide)
      (by decide) (by decide) (by decide)⟩

end FifoClaims

end JustOneOctaveUp
